import Mathlib

/-!
Verification of the arena-backed tree engine (`src/types/mod.rs`), the
snailfish nested-pair reducer (`src/puzzles/day_18.rs`) and the bit-stream
packet decoder (`src/puzzles/day_16.rs`) of the aoc2021 repository.

Modelling conventions:
* Rust `u64`/`u8`/`usize` values are modelled as `Nat`; wrapping arithmetic
  is written with an explicit `% 2 ^ w` where the original type could wrap.
* Fallible operations return `Option`: `none` models a Rust panic
  (`unwrap`, `unreachable!`, out-of-bounds indexing, `HashMap` indexing with
  an absent key) and, for fuelled recursions, divergence of the original
  unbounded recursion.
* The arena's `nodes: Vec<Option<TreeNode>>` slot array together with the
  `node_positions: HashMap<u64, usize>` map is modelled as a single
  association list from ids to nodes: `insert`/`remove` keep the Rust slot
  array and the position map in perfect sync (every id in the map points to
  an occupied slot), so the composite `id -> node` mapping is the only
  observable state; slot allocation (`find_first_open_slot`, resizing) has
  no observable effect.
-/

namespace Aoc2021

/-- Arena tree node, from `TreeNode<T>` in `src/types/mod.rs`:
`_id`, `data`, `parent` (id of the parent node), `children` (ids of the
children nodes). -/
structure TreeNode (T : Type) where
  id : Nat
  data : T
  parent : Option Nat
  children : List Nat
  deriving Repr, DecidableEq

/-- `TreeNode::find_child`: index of the first child equal to `node_id`. -/
def TreeNode.findChild {T : Type} (n : TreeNode T) (nodeId : Nat) : Option Nat :=
  n.children.findIdx? (fun c => c = nodeId)

/-- Arena tree, from `Tree<T>` in `src/types/mod.rs`.  `nodes` is the
association list of live nodes keyed by id (see the modelling note at the
top of the file), `root` and `idTracker` are the `root` and `id_tracker`
fields. -/
structure Tree (T : Type) where
  root : Option Nat
  nodes : List (Nat × TreeNode T)
  idTracker : Nat
  deriving Repr, DecidableEq

/-- `Tree::new`. -/
def Tree.new {T : Type} : Tree T :=
  { root := none, nodes := [], idTracker := 0 }

/-- Number of live nodes. -/
def Tree.size {T : Type} (t : Tree T) : Nat :=
  t.nodes.length

/-- `Tree::node` (and `Tree::node_mut` for reads): `self.node_positions[&id]`
panics when `id` is not a key of the position map (`HashMap` `Index`);
when the key is present, the designated slot is always occupied, so the
returned `Option` is always `Some`.  We model the composite lookup; `none`
corresponds to the Rust panic on a dead id. -/
def Tree.lookupNode {T : Type} (t : Tree T) (id : Nat) : Option (TreeNode T) :=
  (t.nodes.find? (fun e => e.fst = id)).map (fun e => e.snd)

/-- `Tree::node_data`. -/
def Tree.nodeData {T : Type} (t : Tree T) (id : Nat) : Option T :=
  (t.lookupNode id).map (fun n => n.data)

/-- In-place update of one node (a write through `Tree::node_mut`); `none`
models the panic on a dead id. -/
def Tree.modifyNode {T : Type} (t : Tree T) (id : Nat) (f : TreeNode T → TreeNode T) :
    Option (Tree T) :=
  match t.lookupNode id with
  | none => none
  | some _ =>
      some { t with nodes := t.nodes.map (fun e => if e.fst = id then (e.fst, f e.snd) else e) }

/-- `Tree::insert`: allocate the id `id_tracker`, add the new node, then
hook it to its parent (`node_mut(parent_id).unwrap()` panics — `none` —
when the parent is not live) or make it the root. -/
def Tree.insert {T : Type} (t : Tree T) (data : T) (parent : Option Nat) :
    Option (Nat × Tree T) :=
  let id := t.idTracker
  let node : TreeNode T := { id := id, data := data, parent := parent, children := [] }
  let t1 : Tree T := { t with nodes := (id, node) :: t.nodes, idTracker := id + 1 }
  match parent with
  | some parentId =>
      (t1.modifyNode parentId (fun n => { n with children := n.children ++ [id] })).map
        (fun t2 => (id, t2))
  | none => some (id, { t1 with root := some id })

/-- `Tree::remove`: `self.node(node_id)` panics on a dead id (see
`Tree.lookupNode`); for a live node, unhook it from its parent's children
(`find_child(..).unwrap()` and `node_mut(..).unwrap()` panic when the links
are inconsistent) and delete it from the live table. -/
def Tree.remove {T : Type} (t : Tree T) (nodeId : Nat) : Option (Tree T) := do
  let node ← t.lookupNode nodeId
  let t1 ←
    match node.parent with
    | some parentId => do
        let parent ← t.lookupNode parentId
        let i ← parent.findChild nodeId
        t.modifyNode parentId (fun n => { n with children := n.children.eraseIdx i })
    | none => some t
  some { t1 with nodes := t1.nodes.filter (fun e => ¬ e.fst = nodeId) }

/-- `Tree::left_neighbor_node`, with explicit fuel for the recursion on the
parent chain (the Rust recursion diverges on a cyclic parent chain).
`some none` is the Rust `None` result; the outer `none` is a panic or
divergence. -/
def Tree.leftNeighborNode {T : Type} (t : Tree T) : Nat → Nat → Option (Option Nat)
  | 0, _ => none
  | fuel + 1, nodeId =>
    match t.lookupNode nodeId with
    | none => none
    | some node =>
      match node.parent with
      | none => some none
      | some parentId =>
        match t.lookupNode parentId with
        | none => none
        | some parent =>
          match parent.findChild nodeId with
          | none => none
          | some i =>
            if 0 < i then
              match parent.children.get? (i - 1) with
              | none => none
              | some c => some (some c)
            else
              t.leftNeighborNode fuel parentId

/-- `Tree::right_neighbor_node`, the mirror of `Tree.leftNeighborNode`:
the next sibling is taken when `i < parent.children.len() - 1`. -/
def Tree.rightNeighborNode {T : Type} (t : Tree T) : Nat → Nat → Option (Option Nat)
  | 0, _ => none
  | fuel + 1, nodeId =>
    match t.lookupNode nodeId with
    | none => none
    | some node =>
      match node.parent with
      | none => some none
      | some parentId =>
        match t.lookupNode parentId with
        | none => none
        | some parent =>
          match parent.findChild nodeId with
          | none => none
          | some i =>
            if i < parent.children.length - 1 then
              match parent.children.get? (i + 1) with
              | none => none
              | some c => some (some c)
            else
              t.rightNeighborNode fuel parentId

/-- The descent loop of `Tree::left_neighbor_leaf`: repeatedly take the
rightmost child until reaching a childless node. -/
def Tree.descendLast {T : Type} (t : Tree T) : Nat → Nat → Option Nat
  | 0, _ => none
  | fuel + 1, id =>
    match t.lookupNode id with
    | none => none
    | some node =>
      match node.children.getLast? with
      | none => some id
      | some c => t.descendLast fuel c

/-- The descent loop of `Tree::right_neighbor_leaf`: repeatedly take the
leftmost child until reaching a childless node. -/
def Tree.descendFirst {T : Type} (t : Tree T) : Nat → Nat → Option Nat
  | 0, _ => none
  | fuel + 1, id =>
    match t.lookupNode id with
    | none => none
    | some node =>
      match node.children.head? with
      | none => some id
      | some c => t.descendFirst fuel c

/-- `Tree::left_neighbor_leaf`. -/
def Tree.leftNeighborLeaf {T : Type} (t : Tree T) (fuel : Nat) (nodeId : Nat) :
    Option (Option Nat) :=
  match t.leftNeighborNode fuel nodeId with
  | none => none
  | some none => some none
  | some (some nb) => (t.descendLast fuel nb).map some

/-- `Tree::right_neighbor_leaf`. -/
def Tree.rightNeighborLeaf {T : Type} (t : Tree T) (fuel : Nat) (nodeId : Nat) :
    Option (Option Nat) :=
  match t.rightNeighborNode fuel nodeId with
  | none => none
  | some none => some none
  | some (some nb) => (t.descendFirst fuel nb).map some

/-- `Tree::consume_tree`: deep-copy the subtree of `src` rooted at
`fromNode` into `t` under `intoNode`.  `tree.node(from_node)` panics on a
dead id (see `Tree.lookupNode`); the fuel bounds the recursion depth. -/
def Tree.consumeTree {T : Type} (src : Tree T) : Nat → Tree T → Nat → Nat → Option (Tree T)
  | 0, _, _, _ => none
  | fuel + 1, t, fromNode, intoNode =>
    match src.lookupNode fromNode with
    | none => none
    | some node => do
        let r ← t.insert node.data (some intoNode)
        node.children.foldlM (fun acc c => Tree.consumeTree src fuel acc c r.fst) r.snd

/-- `Tree::combine_trees`: fresh arena, fresh root holding `rootData`, then
deep-copies of `a` and `b` under it.  The copy recursion depth is bounded
by the number of live nodes of the copied tree plus one (sufficient for any
acyclic tree; a cyclic tree would make the Rust recursion diverge). -/
def Tree.combineTrees {T : Type} (a b : Tree T) (rootData : T) : Option (Tree T) := do
  let r ← (Tree.new : Tree T).insert rootData none
  let t1 ←
    match a.root with
    | some leftRoot => Tree.consumeTree a (a.size + 1) r.snd leftRoot r.fst
    | none => some r.snd
  match b.root with
  | some rightRoot => Tree.consumeTree b (b.size + 1) t1 rightRoot r.fst
  | none => some t1

/-! ### Snailfish numbers (`src/puzzles/day_18.rs`) -/

/-- `NumberType` from `day_18.rs`: a leaf literal (`u8`, modelled as `Nat`)
or the marker of an internal pair. -/
inductive NumberType where
  | Number (n : Nat)
  | Nested
  deriving Repr, DecidableEq

/-- `NumberType::number`: the literal value; `unreachable!` — `none` — on a
`Nested` marker. -/
def NumberType.numberVal : NumberType → Option Nat
  | .Number n => some n
  | .Nested => none

/-- `type NumberTree = Tree<NumberType>`. -/
abbrev NumberTree := Tree NumberType

/-- The body of the `while` loop of `SnailfishNumber::parse_number`.
`rec` is the recursive call into `parse_number` for a `[` character (the
caller passes `parseNumber` at smaller fuel); `lf` is loop fuel: the Rust
loop diverges on a character that is none of `,`, `]`, an ASCII digit or
`[` (no arm advances `pos`), which the fuel maps to `none`. -/
def parseNumberLoop (s : List Char) (nodeId : Nat)
    (rec : NumberTree → Nat → Nat → Option (NumberTree × Nat)) :
    Nat → NumberTree → Nat → Option (NumberTree × Nat)
  | 0, _, _ => none
  | lf + 1, t, pos =>
    match s.get? pos with
    | none => some (t, pos)
    | some c =>
      if c = ',' then
        parseNumberLoop s nodeId rec lf t (pos + 1)
      else if c = ']' then
        some (t, pos + 1)
      else if c.isDigit then
        match t.insert (NumberType.Number (c.toNat - '0'.toNat)) (some nodeId) with
        | none => none
        | some r => parseNumberLoop s nodeId rec lf r.snd (pos + 1)
      else if c = '[' then
        match t.insert NumberType.Nested (some nodeId) with
        | none => none
        | some r =>
          match rec r.snd r.fst pos with
          | none => none
          | some tp => parseNumberLoop s nodeId rec lf tp.fst tp.snd
      else
        parseNumberLoop s nodeId rec lf t pos

/-- `SnailfishNumber::parse_number`: skip the leading bracket, then run the
character loop, recursing one level deeper at each nested `[`. -/
def parseNumber (s : List Char) : Nat → NumberTree → Nat → Nat → Option (NumberTree × Nat)
  | 0, _, _, _ => none
  | fuel + 1, t, nodeId, pos =>
    parseNumberLoop s nodeId (fun t' nodeId' pos' => parseNumber s fuel t' nodeId' pos')
      fuel t (pos + 1)

/-- `impl From<&str> for SnailfishNumber`: insert a `Nested` root, then
parse the bracket notation into the tree.  Fuel `4 * |s| + 8` dominates the
total number of loop iterations and recursive descents for any input. -/
def snailfishFromString (s : String) : Option NumberTree := do
  let cs := s.toList
  let r ← (Tree.new : NumberTree).insert NumberType.Nested none
  let tp ← parseNumber cs (4 * cs.length + 8) r.snd r.fst 0
  some tp.fst

/-- The `for child_id in node.children` loop of
`SnailfishNumber::find_nested_pair_rec`; `rec` is the recursive call at
`depth + 1` (passed by `findNestedPairRec` at smaller fuel).  `some none`
is "nothing found here"; `none` is a panic (dead child id) or exhausted
fuel deeper down. -/
def fnpChildren (t : NumberTree) (depth : Nat) (rec : Nat → Option (Option Nat)) :
    List Nat → Option (Option Nat)
  | [] => some none
  | c :: cs =>
    match t.lookupNode c with
    | none => none
    | some childNode =>
      if childNode.data = NumberType.Nested then
        if depth = 4 then some (some c)
        else
          match rec c with
          | none => none
          | some (some r) => some (some r)
          | some none => fnpChildren t depth rec cs
      else fnpChildren t depth rec cs

/-- `SnailfishNumber::find_nested_pair_rec` (with fuel for the recursion
depth): scan the children of `nodeId` in order, returning the first
`Nested` child seen at `depth = 4`, and otherwise recursing into each
`Nested` child with `depth + 1`. -/
def findNestedPairRec (t : NumberTree) : Nat → Nat → Nat → Option (Option Nat)
  | 0, _, _ => none
  | fuel + 1, depth, nodeId =>
    match t.lookupNode nodeId with
    | none => none
    | some node =>
      fnpChildren t depth (fun c => findNestedPairRec t fuel (depth + 1) c) node.children

/-- `SnailfishNumber::find_nested_pair`: start the scan at the root with
`depth = 1` (so the root's children are scanned at depth label 1; an id is
returned at depth label 4, i.e. tree depth exactly 4 counting the root as
depth 0).  Fuel `size + 1` bounds the recursion depth of any acyclic
tree. -/
def findNestedPair (t : NumberTree) : Option (Option Nat) :=
  match t.root with
  | some root => findNestedPairRec t (t.size + 1) 1 root
  | none => some none

/-- The children loop of `SnailfishNumber::find_big_pair_rec`. -/
def fbpChildren (rec : Nat → Option (Option Nat)) : List Nat → Option (Option Nat)
  | [] => some none
  | c :: cs =>
    match rec c with
    | none => none
    | some (some r) => some (some r)
    | some none => fbpChildren rec cs

/-- `SnailfishNumber::find_big_pair_rec` (with fuel): a literal node is
returned when its value exceeds 9; a `Nested` node recurses into its
children in order. -/
def findBigPairRec (t : NumberTree) : Nat → Nat → Option (Option Nat)
  | 0, _ => none
  | fuel + 1, nodeId =>
    match t.lookupNode nodeId with
    | none => none
    | some node =>
      match node.data with
      | NumberType.Number n => if n > 9 then some (some nodeId) else some none
      | NumberType.Nested =>
        fbpChildren (fun c => findBigPairRec t fuel c) node.children

/-- `SnailfishNumber::find_big_pair`. -/
def findBigPair (t : NumberTree) : Option (Option Nat) :=
  match t.root with
  | some root => findBigPairRec t (t.size + 1) root
  | none => some none

/-- `SnailfishNumber::explode`: the node's children must be exactly a pair
of literals (`bind_vec_deref!` and `NumberType::number` panic otherwise —
`none`); add the left value to the left in-order neighbor leaf if any, the
right value to the right in-order neighbor leaf if any (computed on the
already left-updated tree, as in the source), remove both children, then
overwrite the pair's data with literal 0.  The `u8` additions wrap at
`2 ^ 8`.  Neighbor searches run with fuel `size + 1`, which terminates
exactly when the Rust recursion does on an acyclic tree. -/
def explode (t : NumberTree) (nodeId : Nat) : Option NumberTree := do
  let node ← t.lookupNode nodeId
  match node.children with
  | [leftId, rightId] => do
      let left ← (← t.nodeData leftId).numberVal
      let right ← (← t.nodeData rightId).numberVal
      let t1 ←
        match t.leftNeighborLeaf (t.size + 1) leftId with
        | none => none
        | some none => some t
        | some (some m) => do
            let v ← (← t.nodeData m).numberVal
            t.modifyNode m (fun n => { n with data := NumberType.Number ((v + left) % 2 ^ 8) })
      let t2 ←
        match t1.rightNeighborLeaf (t1.size + 1) rightId with
        | none => none
        | some none => some t1
        | some (some m) => do
            let v ← (← t1.nodeData m).numberVal
            t1.modifyNode m (fun n => { n with data := NumberType.Number ((v + right) % 2 ^ 8) })
      let t3 ← t2.remove leftId
      let t4 ← t3.remove rightId
      t4.modifyNode nodeId (fun n => { n with data := NumberType.Number 0 })
  | _ => none

/-- `SnailfishNumber::split`: the node must hold a literal (`unreachable!`
otherwise); overwrite it with the pair marker and insert `n / 2` and
`(n + 1) / 2` as its two children (in `u8` arithmetic, `n + 1` wraps at
`2 ^ 8`). -/
def split (t : NumberTree) (nodeId : Nat) : Option NumberTree := do
  let node ← t.lookupNode nodeId
  let n ← node.data.numberVal
  let t1 ← t.modifyNode nodeId (fun nd => { nd with data := NumberType.Nested })
  let r1 ← t1.insert (NumberType.Number (n / 2)) (some nodeId)
  let r2 ← r1.snd.insert (NumberType.Number (((n + 1) % 2 ^ 8) / 2)) (some nodeId)
  some r2.snd

/-- `SnailfishNumber::reduce_number`: repeat — explode the first nested
pair if one is found, otherwise split the first big literal if one is
found, otherwise stop — with fuel bounding the number of loop
iterations. -/
def reduceNumber : Nat → NumberTree → Option NumberTree
  | 0, _ => none
  | fuel + 1, t =>
    match findNestedPair t with
    | none => none
    | some (some nodeId) =>
      match explode t nodeId with
      | none => none
      | some t' => reduceNumber fuel t'
    | some none =>
      match findBigPair t with
      | none => none
      | some (some nodeId) =>
        match split t nodeId with
        | none => none
        | some t' => reduceNumber fuel t'
      | some none => some t

/-- `SnailfishNumber::to_string` (with fuel for the recursion depth): a
literal prints as its decimal form, a pair as `[` ++ the comma-joined
children ++ `]`; a dead id prints as the empty string (the source's
`else` branch returns `String::new()`). -/
def toStringRec (t : NumberTree) : Nat → Nat → Option String
  | 0, _ => none
  | fuel + 1, nodeId =>
    match t.lookupNode nodeId with
    | none => some ""
    | some node =>
      match node.data with
      | NumberType.Number n => some (Nat.repr n)
      | NumberType.Nested => do
          let strs ← node.children.mapM (fun c => toStringRec t fuel c)
          some ("[" ++ String.intercalate "," strs ++ "]")

/-- `impl fmt::Display for SnailfishNumber`: print from the root, or the
empty string when there is no root. -/
def serializeNumber (t : NumberTree) : Option String :=
  match t.root with
  | some rootId => toStringRec t (t.size + 1) rootId
  | none => some ""

/-- `impl Add for &SnailfishNumber`: combine the two trees under a fresh
`Nested` root, then run the reduction loop (its iteration count bounded by
`fuel`). -/
def addNumbers (fuel : Nat) (a b : NumberTree) : Option NumberTree := do
  let t ← Tree.combineTrees a b NumberType.Nested
  reduceNumber fuel t

/-! ### Bit-stream packet decoder (`src/puzzles/day_16.rs`) -/

/-- `PacketType` and its `From<u8>` mapping (0..7). -/
inductive PacketType where
  | Sum
  | Product
  | Minimum
  | Maximum
  | Literal
  | Greater
  | Less
  | Equal
  deriving Repr, DecidableEq

/-- `impl From<u8> for PacketType`; `unreachable!` — `none` — above 7. -/
def PacketType.fromCode : Nat → Option PacketType
  | 0 => some .Sum
  | 1 => some .Product
  | 2 => some .Minimum
  | 3 => some .Maximum
  | 4 => some .Literal
  | 5 => some .Greater
  | 6 => some .Less
  | 7 => some .Equal
  | _ => none

/-- `Packet` together with its `PacketData` payload, flattened into one
inductive: `lit v t l n` is `Packet { version: v, type_id: t,
length_type_id: l, data: PacketData::Literal(n) }` and `op v t l subs` is
the same with `data: PacketData::Subpackets(subs)`. -/
inductive Packet where
  | lit (version : Nat) (typeId : PacketType) (lengthTypeId : Nat) (value : Nat)
  | op (version : Nat) (typeId : PacketType) (lengthTypeId : Nat) (subs : List Packet)

mutual

/-- `Packet::evaluate`.  `Packet::literal` and `Packet::subpackets` panic
(`unreachable!` — `none`) when the payload's shape does not match the
`type_id` arm; `min`/`max` of no children panics through `unwrap`; the
comparison arms panic unless there are exactly two children.  `u64` sums
and products wrap at `2 ^ 64`. -/
def Packet.evaluate : Packet → Option Nat
  | .lit _ typeId _ n =>
    match typeId with
    | .Literal => some n
    | _ => none
  | .op _ typeId _ subs =>
    match typeId with
    | .Literal => none
    | .Sum => do
        let vs ← evalList subs
        some (vs.foldl (fun a b => (a + b) % 2 ^ 64) 0)
    | .Product => do
        let vs ← evalList subs
        some (vs.foldl (fun a b => (a * b) % 2 ^ 64) 1)
    | .Minimum => do
        let vs ← evalList subs
        vs.min?
    | .Maximum => do
        let vs ← evalList subs
        vs.max?
    | .Greater =>
      match subs with
      | [a, b] => do
          let x ← Packet.evaluate a
          let y ← Packet.evaluate b
          some (if x > y then 1 else 0)
      | _ => none
    | .Less =>
      match subs with
      | [a, b] => do
          let x ← Packet.evaluate a
          let y ← Packet.evaluate b
          some (if x < y then 1 else 0)
      | _ => none
    | .Equal =>
      match subs with
      | [a, b] => do
          let x ← Packet.evaluate a
          let y ← Packet.evaluate b
          some (if x = y then 1 else 0)
      | _ => none

/-- Evaluate a list of packets left to right (`.iter().map(evaluate)`):
any panic in a child propagates. -/
def evalList : List Packet → Option (List Nat)
  | [] => some []
  | p :: ps => do
      let v ← Packet.evaluate p
      let vs ← evalList ps
      some (v :: vs)

end

/-- `Day16::grab_bit`: extract the bit at `7 - bit_offset` of the current
byte (indexing the buffer panics — `none` — past the end) and advance the
cursor one bit, carrying into the next byte at offset 8. -/
def grabBit (data : List Nat) (byteOff bitOff : Nat) : Option (Nat × Nat × Nat) :=
  match data.get? byteOff with
  | none => none
  | some byte =>
    let off := 7 - bitOff
    let bit := (byte &&& (1 <<< off)) >>> off
    if bitOff + 1 = 8 then some (bit, byteOff + 1, 0) else some (bit, byteOff, bitOff + 1)

/-- The bit-collection loop of `Day16::grab_bits` (its body is the same
bit extraction as `grab_bit`): the `n` bits read, in read order. -/
def grabBitsList (data : List Nat) : Nat → Nat → Nat → Option (List Nat × Nat × Nat)
  | 0, byteOff, bitOff => some ([], byteOff, bitOff)
  | n + 1, byteOff, bitOff => do
      let r ← grabBit data byteOff bitOff
      let rest ← grabBitsList data n r.snd.fst r.snd.snd
      some (r.fst :: rest.fst, rest.snd)

/-- The combination loop of `Day16::grab_bits`:
`for (i, &b) in bits.iter().rev().enumerate() { n |= (b as u64) << i }`. -/
def combineBits (bits : List Nat) : Nat :=
  (bits.reverse.enum).foldl (fun n p => n ||| (p.snd <<< p.fst)) 0

/-- `Day16::grab_bits::<T, N>`: read `n` bits MSB-first and combine them
into one integer (the final `num::cast` into `T` is the identity on the
value, which always fits `u64`). -/
def grabBits (data : List Nat) (n byteOff bitOff : Nat) : Option (Nat × Nat × Nat) := do
  let r ← grabBitsList data n byteOff bitOff
  some (combineBits r.fst, r.snd)

/-- `Day16::parse_packet_header`: 3-bit version, 3-bit type id, and — for
operators only — a 1-bit length type id (0 for literals, without consuming
a bit). -/
def parsePacketHeader (data : List Nat) (byteOff bitOff : Nat) :
    Option ((Nat × PacketType × Nat) × Nat × Nat) := do
  let rv ← grabBits data 3 byteOff bitOff
  let rt ← grabBits data 3 rv.snd.fst rv.snd.snd
  let typeId ← PacketType.fromCode rt.fst
  if rt.fst = 4 then
    some ((rv.fst, typeId, 0), rt.snd)
  else do
    let rl ← grabBit data rt.snd.fst rt.snd.snd
    some ((rv.fst, typeId, rl.fst), rl.snd)

/-- The chunk-grabbing loop of `Day16::parse_packet_literal`: 5-bit groups
are read while bit 4 (`0x10`) of the last group is set.  The loop always
terminates in Rust (each round consumes 5 bits and over-reading panics);
the fuel passed by `parsePacketLiteral` dominates the possible number of
rounds. -/
def parseLiteralChunks (data : List Nat) : Nat → Nat → Nat → Option (List Nat × Nat × Nat)
  | 0, _, _ => none
  | lf + 1, byteOff, bitOff => do
      let r ← grabBits data 5 byteOff bitOff
      if r.fst &&& 0x10 = 0x10 then do
        let rest ← parseLiteralChunks data lf r.snd.fst r.snd.snd
        some (r.fst :: rest.fst, rest.snd)
      else
        some ([r.fst], r.snd)

/-- The combination loop of `Day16::parse_packet_literal`:
`n |= ((chunk & 0xF) as u64) << (byte * 4)` over the reversed chunks. -/
def combineChunks (chunks : List Nat) : Nat :=
  (chunks.reverse.enum).foldl (fun n p => n ||| ((p.snd &&& 0xF) <<< (p.fst * 4))) 0

/-- `Day16::parse_packet_literal`. -/
def parsePacketLiteral (data : List Nat) (byteOff bitOff : Nat) : Option (Nat × Nat × Nat) := do
  let r ← parseLiteralChunks data (2 * data.length + 2) byteOff bitOff
  some (combineChunks r.fst, r.snd)

/-- `Day16::parse_packet_operator_length`: a 15-bit total bit length for
length type id 0, an 11-bit child count for 1, `unreachable!` otherwise. -/
def parsePacketOperatorLength (data : List Nat) (lengthTypeId byteOff bitOff : Nat) :
    Option (Nat × Nat × Nat) :=
  if lengthTypeId = 0 then grabBits data 15 byteOff bitOff
  else if lengthTypeId = 1 then grabBits data 11 byteOff bitOff
  else none

/-- The length-type-0 sub-packet loop shared by `Day16::parse_subpacket`
and `Day16::parse_packet`: parse sub-packets while the absolute bit
position is below `endPos`.  `rec` is `parse_subpacket` (passed at smaller
fuel); `lf` bounds the number of iterations. -/
def psLoopBits (endPos : Nat) (rec : Nat → Nat → Option (Packet × Nat × Nat)) :
    Nat → Nat → Nat → Option (List Packet × Nat × Nat)
  | 0, byteOff, bitOff => if byteOff * 8 + bitOff < endPos then none else some ([], byteOff, bitOff)
  | lf + 1, byteOff, bitOff =>
    if byteOff * 8 + bitOff < endPos then do
      let r ← rec byteOff bitOff
      let rest ← psLoopBits endPos rec lf r.snd.fst r.snd.snd
      some (r.fst :: rest.fst, rest.snd)
    else
      some ([], byteOff, bitOff)

/-- The length-type-1 sub-packet loop shared by `Day16::parse_subpacket`
and `Day16::parse_packet`: parse exactly `count` sub-packets. -/
def psLoopCount (rec : Nat → Nat → Option (Packet × Nat × Nat)) :
    Nat → Nat → Nat → Option (List Packet × Nat × Nat)
  | 0, byteOff, bitOff => some ([], byteOff, bitOff)
  | count + 1, byteOff, bitOff => do
      let r ← rec byteOff bitOff
      let rest ← psLoopCount rec count r.snd.fst r.snd.snd
      some (r.fst :: rest.fst, rest.snd)

/-- `Day16::parse_subpacket` (with fuel for the recursion depth and the
length-type-0 loop): header, then either the literal chunks or the
operator length field followed by the matching sub-packet loop. -/
def parseSubpacket (data : List Nat) : Nat → Nat → Nat → Option (Packet × Nat × Nat)
  | 0, _, _ => none
  | fuel + 1, byteOff, bitOff => do
    let rh ← parsePacketHeader data byteOff bitOff
    let version := rh.fst.fst
    let typeId := rh.fst.snd.fst
    let lengthTypeId := rh.fst.snd.snd
    match typeId with
    | PacketType.Literal => do
        let rl ← parsePacketLiteral data rh.snd.fst rh.snd.snd
        some (Packet.lit version typeId lengthTypeId rl.fst, rl.snd)
    | _ => do
        let ro ← parsePacketOperatorLength data lengthTypeId rh.snd.fst rh.snd.snd
        let rs ←
          if lengthTypeId = 0 then
            psLoopBits (ro.snd.fst * 8 + ro.snd.snd + ro.fst)
              (fun b o => parseSubpacket data fuel b o) fuel ro.snd.fst ro.snd.snd
          else if lengthTypeId = 1 then
            psLoopCount (fun b o => parseSubpacket data fuel b o) ro.fst ro.snd.fst ro.snd.snd
          else none
        some (Packet.op version typeId lengthTypeId rs.fst, rs.snd)

/-- `Day16::parse_packet`: textually the same body as
`Day16::parse_subpacket` (children are parsed by `parse_subpacket`),
followed by the trailing-bit adjustment: a non-zero bit offset advances to
the start of the next byte. -/
def parsePacket (data : List Nat) (fuel byteOff bitOff : Nat) : Option (Packet × Nat × Nat) := do
  let rh ← parsePacketHeader data byteOff bitOff
  let version := rh.fst.fst
  let typeId := rh.fst.snd.fst
  let lengthTypeId := rh.fst.snd.snd
  let rp ←
    match typeId with
    | PacketType.Literal => do
        let rl ← parsePacketLiteral data rh.snd.fst rh.snd.snd
        some (Packet.lit version typeId lengthTypeId rl.fst, rl.snd)
    | _ => do
        let ro ← parsePacketOperatorLength data lengthTypeId rh.snd.fst rh.snd.snd
        let rs ←
          if lengthTypeId = 0 then
            psLoopBits (ro.snd.fst * 8 + ro.snd.snd + ro.fst)
              (fun b o => parseSubpacket data fuel b o) fuel ro.snd.fst ro.snd.snd
          else if lengthTypeId = 1 then
            psLoopCount (fun b o => parseSubpacket data fuel b o) ro.fst ro.snd.fst ro.snd.snd
          else none
        some ((Packet.op version typeId lengthTypeId rs.fst : Packet), rs.snd)
  if rp.snd.snd ≠ 0 then
    some (rp.fst, rp.snd.fst + 1, 0)
  else
    some (rp.fst, rp.snd)

/-! ### Specification-side definitions

The definitions below do not come from the source; they only serve to
*state* properties about the embedded code: well-formedness of an arena,
reachability at a depth, the numeric value of a bit range, and structural
well-formedness of a decoded packet. -/

/-- The chain of ancestors of `id` (including `id` itself), following
`parent` links up to a parentless node; `none` when a link is dead or the
chain does not terminate within `fuel` steps. -/
def Tree.upChain {T : Type} (t : Tree T) : Nat → Nat → Option (List Nat)
  | 0, _ => none
  | fuel + 1, id =>
    match t.lookupNode id with
    | none => none
    | some n =>
      match n.parent with
      | none => some [id]
      | some p => (t.upChain fuel p).map (fun l => id :: l)

/-- Well-formedness of an arena tree: distinct keys, ids below the
allocator mark, child links pointing at live nodes whose `parent` field
points back, `parent` links pointing at live nodes whose children list
contains the node, duplicate-free children lists, a live parentless root,
and terminating ancestor chains (so the parent graph is acyclic and every
node's chain reaches a parentless node within `size + 1` steps). -/
def Tree.WF {T : Type} (t : Tree T) : Prop :=
  (t.nodes.map Prod.fst).Nodup ∧
  (∀ e ∈ t.nodes, e.fst < t.idTracker) ∧
  (∀ e ∈ t.nodes, ∀ c ∈ e.snd.children,
    (t.lookupNode c).map TreeNode.parent = some (some e.fst)) ∧
  (∀ e ∈ t.nodes, ∀ p ∈ e.snd.parent.toList,
    e.fst ∈ ((t.lookupNode p).elim [] TreeNode.children)) ∧
  (∀ e ∈ t.nodes, e.snd.children.Nodup) ∧
  (∀ r ∈ t.root.toList, (t.lookupNode r).map TreeNode.parent = some none) ∧
  (∀ e ∈ t.nodes, (t.upChain (t.size + 1) e.fst).isSome = true)

instance {T : Type} (t : Tree T) : Decidable t.WF := by
  unfold Tree.WF
  infer_instance

/-- The literal-leaf discipline of the reducer's trees: every node with a
non-empty children list carries the `Nested` marker (equivalently, every
literal node is childless). -/
def LitLeaves (t : NumberTree) : Prop :=
  ∀ e ∈ t.nodes, e.snd.children ≠ [] → e.snd.data = NumberType.Nested

instance (t : NumberTree) : Decidable (LitLeaves t) := by
  unfold LitLeaves
  infer_instance

/-- `DescN t x k y`: `y` is reachable from `x` by exactly `k` child
steps through live nodes. -/
inductive DescN {T : Type} (t : Tree T) : Nat → Nat → Nat → Prop where
  | zero (x : Nat) : DescN t x 0 x
  | succ {x k y c : Nat} {n : TreeNode T} :
      DescN t x k y → t.lookupNode y = some n → c ∈ n.children → DescN t x (k + 1) c

/-- `ReachesAt t y d`: node `y` sits at depth `d` below the root (the root
itself at depth 0). -/
def ReachesAt {T : Type} (t : Tree T) (y d : Nat) : Prop :=
  ∃ r, t.root = some r ∧ DescN t r d y

/-- The bit at absolute bit position `i` of a byte buffer, MSB-first
within each byte. -/
def bitAt (data : List Nat) (i : Nat) : Nat :=
  ((data.getD (i / 8) 0) >>> (7 - i % 8)) &&& 1

/-- The unsigned integer whose MSB-first binary representation is the `n`
bits of the buffer starting at absolute bit position `pos`. -/
def bitsValue (data : List Nat) (pos : Nat) : Nat → Nat
  | 0 => 0
  | n + 1 => bitsValue data pos n * 2 + bitAt data (pos + n)

mutual

/-- Structural well-formedness of a decoded packet: the payload shape
matches the type id (as the decoder guarantees), `Minimum`/`Maximum`
operators have at least one child, and comparison operators have exactly
two children — recursively. -/
def Packet.wellFormed : Packet → Bool
  | .lit _ typeId _ _ => typeId = PacketType.Literal
  | .op _ typeId _ subs =>
    (match typeId with
     | .Literal => false
     | .Minimum => !subs.isEmpty
     | .Maximum => !subs.isEmpty
     | .Greater => decide (subs.length = 2)
     | .Less => decide (subs.length = 2)
     | .Equal => decide (subs.length = 2)
     | _ => true)
    && wfList subs

/-- All packets of a list are well-formed. -/
def wfList : List Packet → Bool
  | [] => true
  | p :: ps => p.wellFormed && wfList ps

end

/-- The per-child aggregation of `dfsRec`. -/
def dfsChildren (rec : Nat → Option (List (Nat × Nat))) : List Nat → Option (List (Nat × Nat))
  | [] => some []
  | c :: cs => do
      let l ← rec c
      let ls ← dfsChildren rec cs
      some (l ++ ls)

/-- Depth-first pre-order traversal of the subtree below `nodeId` (listing
each node with its depth label), used to state left-most-ness of the
searches. -/
def dfsRec (t : NumberTree) : Nat → Nat → Nat → Option (List (Nat × Nat))
  | 0, _, _ => none
  | fuel + 1, nodeId, depth =>
    match t.lookupNode nodeId with
    | none => none
    | some node =>
      (dfsChildren (fun c => dfsRec t fuel c (depth + 1)) node.children).map
        (fun ls => (nodeId, depth) :: ls)

/-- Depth-first pre-order of the whole tree, the root labelled 0. -/
def dfsList (t : NumberTree) (fuel : Nat) : Option (List (Nat × Nat)) :=
  match t.root with
  | some r => dfsRec t fuel r 0
  | none => some []

/-- The search target predicate of `find_nested_pair`: a `Nested` node at
depth label 4. -/
def nestedAtFour (t : NumberTree) (p : Nat × Nat) : Bool :=
  decide (p.snd = 4 ∧ t.nodeData p.fst = some NumberType.Nested)

/-- A one-node arena over `Nat` payloads, built through the public
`insert`, used as the concrete input of counterexamples. -/
def c8tree : Tree Nat :=
  (((Tree.new : Tree Nat).insert 7 none).map Prod.snd).getD Tree.new

/-- The parsed tree of `[1,2]` (ids: root 0, leaves 1 and 2), a concrete
witness input. -/
def pairTree : NumberTree :=
  (snailfishFromString "[1,2]").getD Tree.new

/-- The parsed tree of `[[[[[1,2],3],4],5],6]`: its `[1,2]` pair sits at
tree depth exactly 4, a concrete witness input for the explode search. -/
def depth4Tree : NumberTree :=
  (snailfishFromString "[[[[[1,2],3],4],5],6]").getD Tree.new

/-- The parsed tree of `[[[[[[1,2],3],4],5],6],7]`: its `[1,2]` pair sits
at tree depth 5 inside a `Nested` node at depth 4, the concrete
counterexample input for the explode-selection claim. -/
def depth5Tree : NumberTree :=
  (snailfishFromString "[[[[[[1,2],3],4],5],6],7]").getD Tree.new

/-- `IsUpChain t x l`: `l` is the full ancestor chain of `x` (from `x` up
to a parentless node), through live nodes. -/
inductive IsUpChain {T : Type} (t : Tree T) : Nat → List Nat → Prop where
  | last {x : Nat} {n : TreeNode T} :
      t.lookupNode x = some n → n.parent = none → IsUpChain t x [x]
  | step {x p : Nat} {n : TreeNode T} {l : List Nat} :
      t.lookupNode x = some n → n.parent = some p → IsUpChain t p l →
      IsUpChain t x (x :: l)

/-- `LastChain t k x y`: `y` is reached from `x` by exactly `k` steps,
each to the rightmost child. -/
inductive LastChain {T : Type} (t : Tree T) : Nat → Nat → Nat → Prop where
  | refl (x : Nat) : LastChain t 0 x x
  | step {x c y k : Nat} {n : TreeNode T} :
      t.lookupNode x = some n → n.children.getLast? = some c →
      LastChain t k c y → LastChain t (k + 1) x y

/-- `FirstChain t k x y`: `y` is reached from `x` by exactly `k` steps,
each to the leftmost child. -/
inductive FirstChain {T : Type} (t : Tree T) : Nat → Nat → Nat → Prop where
  | refl (x : Nat) : FirstChain t 0 x x
  | step {x c y k : Nat} {n : TreeNode T} :
      t.lookupNode x = some n → n.children.head? = some c →
      FirstChain t k c y → FirstChain t (k + 1) x y

/-- The `k`-fold parent of a node (`none` when a link is missing). -/
def Tree.parentIter {T : Type} (t : Tree T) : Nat → Nat → Option Nat
  | 0, id => some id
  | k + 1, id =>
    match (t.lookupNode id).bind (fun n => n.parent) with
    | none => none
    | some p => t.parentIter k p

/-! ### C1: the explode-propagation golden test -/

/-- C1: for the nested-pair inputs `[[[[4,3],4],4],[7,[[8,4],9]]]` and
`[1,1]`, addition (combining the two parsed trees under a fresh pair root
via `combine_trees`, then running the reduction loop to a fixed point)
produces a tree whose bracket-notation serialization is exactly
`[[[[0,7],4],[[7,8],[6,0]]],[8,1]]`.  (`addNumbers` only returns `some`
when the loop reached the fixed point within the given iteration bound.) -/
theorem claim_c1 :
    (do
      let a ← snailfishFromString "[[[[4,3],4],4],[7,[[8,4],9]]]"
      let b ← snailfishFromString "[1,1]"
      let c ← addNumbers 64 a b
      serializeNumber c : Option String) = some "[[[[0,7],4],[[7,8],[6,0]]],[8,1]]" := by
  decide

/-! ### C7 and C10: `Packet::evaluate` -/

/-- C7: a comparison packet (`Greater`, `Less`, `Equal`) with exactly two
children evaluates to 1 when the relation holds between the two children's
values and to 0 otherwise; with any other number of children (or a literal
payload) evaluation is a fatal error (`none`). -/
theorem claim_c7 :
    (∀ (v l : Nat) (a b : Packet) (x y : Nat),
      a.evaluate = some x → b.evaluate = some y →
      (Packet.op v PacketType.Greater l [a, b]).evaluate = some (if x > y then 1 else 0) ∧
      (Packet.op v PacketType.Less l [a, b]).evaluate = some (if x < y then 1 else 0) ∧
      (Packet.op v PacketType.Equal l [a, b]).evaluate = some (if x = y then 1 else 0)) ∧
    (∀ (v l : Nat) (tc : PacketType) (subs : List Packet),
      (tc = PacketType.Greater ∨ tc = PacketType.Less ∨ tc = PacketType.Equal) →
      subs.length ≠ 2 → (Packet.op v tc l subs).evaluate = none) := by
  constructor
  · intro v l a b x y hx hy
    refine ⟨?_, ?_, ?_⟩ <;> simp [Packet.evaluate, hx, hy]
  · intro v l tc subs htc hlen
    match subs, hlen with
    | [], _ => rcases htc with rfl | rfl | rfl <;> rfl
    | [a], _ => rcases htc with rfl | rfl | rfl <;> rfl
    | [a, b], h => exact absurd rfl h
    | a :: b :: c :: rest, _ => rcases htc with rfl | rfl | rfl <;> rfl

/-- Witness for C7 at concrete packets. -/
theorem claim_c7_witness :
    (Packet.op 0 PacketType.Greater 1
      [Packet.lit 0 PacketType.Literal 0 5, Packet.lit 0 PacketType.Literal 0 3]).evaluate
        = some 1 ∧
    (Packet.op 0 PacketType.Less 1 [Packet.lit 0 PacketType.Literal 0 5]).evaluate = none := by
  constructor
  · have h := (claim_c7.1 0 1 (Packet.lit 0 PacketType.Literal 0 5)
      (Packet.lit 0 PacketType.Literal 0 3) 5 3 rfl rfl).1
    simpa using h
  · exact claim_c7.2 0 1 PacketType.Less [Packet.lit 0 PacketType.Literal 0 5]
      (Or.inr (Or.inl rfl)) (by simp)

/-- Every packet of a `wfList`-true list is `wellFormed`. -/
theorem wfList_forall {ps : List Packet} (h : wfList ps = true) :
    ∀ p ∈ ps, p.wellFormed = true := by
  induction ps with
  | nil => intro p hp; cases hp
  | cons q qs ih =>
    intro p hp
    rw [wfList, Bool.and_eq_true] at h
    rcases List.mem_cons.mp hp with rfl | hp
    · exact h.1
    · exact ih h.2 p hp

/-- If every packet of a list evaluates, so does the list. -/
theorem evalList_isSome {ps : List Packet} (h : ∀ p ∈ ps, (Packet.evaluate p).isSome = true) :
    ∃ vs, evalList ps = some vs ∧ vs.length = ps.length := by
  induction ps with
  | nil => exact ⟨[], rfl, rfl⟩
  | cons q qs ih =>
    obtain ⟨v, hv⟩ := Option.isSome_iff_exists.mp (h q (by simp))
    obtain ⟨vs, hvs, hlen⟩ := ih (fun p hp => h p (by simp [hp]))
    exact ⟨v :: vs, by simp [evalList, hv, hvs], by simp [hlen]⟩

/-- Totality of `Packet::evaluate` on well-formed packets, by strong
induction on the packet size. -/
theorem evaluate_total_aux :
    ∀ (N : Nat) (p : Packet), sizeOf p ≤ N → p.wellFormed = true →
      (Packet.evaluate p).isSome = true := by
  intro N
  induction N with
  | zero =>
    intro p hp _
    exfalso
    cases p <;> simp only [Packet.lit.sizeOf_spec, Packet.op.sizeOf_spec] at hp <;> omega
  | succ N ih =>
    intro p hsz hwf
    match p with
    | .lit v tc l n =>
      have htc : tc = PacketType.Literal := by
        have h0 := hwf
        simp only [Packet.wellFormed, decide_eq_true_iff] at h0
        exact h0
      subst htc
      simp [Packet.evaluate]
    | .op v tc l subs =>
      have hsubs : ∀ q ∈ subs, (Packet.evaluate q).isSome = true := by
        intro q hq
        have h1 : sizeOf q < sizeOf (Packet.op v tc l subs) := by
          have := List.sizeOf_lt_of_mem hq
          simp only [Packet.op.sizeOf_spec]
          omega
        have hwq : q.wellFormed = true := by
          have h2 : wfList subs = true := by
            cases tc <;> simp only [Packet.wellFormed, Bool.and_eq_true] at hwf <;>
              exact hwf.2
          exact wfList_forall h2 q hq
        exact ih q (by omega) hwq
      obtain ⟨vs, hvs, hlen⟩ := evalList_isSome hsubs
      cases tc with
      | Literal =>
        simp only [Packet.wellFormed, Bool.and_eq_true] at hwf
        exact absurd hwf.1 (by simp)
      | Sum => simp [Packet.evaluate, hvs]
      | Product => simp [Packet.evaluate, hvs]
      | Minimum =>
        simp only [Packet.wellFormed, Bool.and_eq_true] at hwf
        have hne : subs ≠ [] := by
          intro h0
          rw [h0] at hwf
          simp [List.isEmpty] at hwf
        have hvne : vs ≠ [] := by
          intro h0
          rw [h0] at hlen
          exact hne (List.length_eq_zero.mp hlen.symm)
        simp only [Packet.evaluate, hvs, Option.some_bind]
        simp [Option.isSome_iff_ne_none, List.min?_eq_none_iff, hvne]
      | Maximum =>
        simp only [Packet.wellFormed, Bool.and_eq_true] at hwf
        have hne : subs ≠ [] := by
          intro h0
          rw [h0] at hwf
          simp [List.isEmpty] at hwf
        have hvne : vs ≠ [] := by
          intro h0
          rw [h0] at hlen
          exact hne (List.length_eq_zero.mp hlen.symm)
        simp only [Packet.evaluate, hvs, Option.some_bind]
        simp [Option.isSome_iff_ne_none, List.max?_eq_none_iff, hvne]
      | Greater =>
        simp only [Packet.wellFormed, Bool.and_eq_true] at hwf
        have h2 : subs.length = 2 := by
          have := hwf.1
          simpa using this
        match subs, h2 with
        | [a, b], _ =>
          obtain ⟨x, hx⟩ := Option.isSome_iff_exists.mp (hsubs a (by simp))
          obtain ⟨y, hy⟩ := Option.isSome_iff_exists.mp (hsubs b (by simp))
          simp [Packet.evaluate, hx, hy]
      | Less =>
        simp only [Packet.wellFormed, Bool.and_eq_true] at hwf
        have h2 : subs.length = 2 := by
          have := hwf.1
          simpa using this
        match subs, h2 with
        | [a, b], _ =>
          obtain ⟨x, hx⟩ := Option.isSome_iff_exists.mp (hsubs a (by simp))
          obtain ⟨y, hy⟩ := Option.isSome_iff_exists.mp (hsubs b (by simp))
          simp [Packet.evaluate, hx, hy]
      | Equal =>
        simp only [Packet.wellFormed, Bool.and_eq_true] at hwf
        have h2 : subs.length = 2 := by
          have := hwf.1
          simpa using this
        match subs, h2 with
        | [a, b], _ =>
          obtain ⟨x, hx⟩ := Option.isSome_iff_exists.mp (hsubs a (by simp))
          obtain ⟨y, hy⟩ := Option.isSome_iff_exists.mp (hsubs b (by simp))
          simp [Packet.evaluate, hx, hy]

/-- C10: `evaluate` returns the fold identities 0 and 1 on childless `Sum`
and `Product` packets, is a fatal error (`none`) on childless `Minimum` and
`Maximum` packets, and is total (never reaches a panic or `unreachable!`
branch) on every structurally well-formed packet — payload shape matching
the type id, at least one child under `Minimum`/`Maximum`, exactly two
children under the comparisons. -/
theorem claim_c10 :
    (∀ v l : Nat, (Packet.op v PacketType.Sum l []).evaluate = some 0) ∧
    (∀ v l : Nat, (Packet.op v PacketType.Product l []).evaluate = some 1) ∧
    (∀ v l : Nat, (Packet.op v PacketType.Minimum l []).evaluate = none) ∧
    (∀ v l : Nat, (Packet.op v PacketType.Maximum l []).evaluate = none) ∧
    (∀ p : Packet, p.wellFormed = true → (Packet.evaluate p).isSome = true) := by
  refine ⟨fun v l => rfl, fun v l => rfl, fun v l => rfl, fun v l => rfl, ?_⟩
  intro p hwf
  exact evaluate_total_aux (sizeOf p) p (Nat.le_refl _) hwf

/-- Witness for C10 at a concrete well-formed packet. -/
theorem claim_c10_witness :
    (Packet.op 3 PacketType.Minimum 1
      [Packet.lit 0 PacketType.Literal 0 4]).wellFormed = true ∧
    ((Packet.op 3 PacketType.Minimum 1
      [Packet.lit 0 PacketType.Literal 0 4]).evaluate).isSome = true := by
  refine ⟨rfl, claim_c10.2.2.2.2 _ rfl⟩

/-! ### C6: top-level parse vs. nested parse -/

/-- C6: on every buffer and starting position, `parse_packet` returns the
same `Packet` value as `parse_subpacket` started at the same position; the
only behavioural difference is the final cursor: when the nested parse ends
at a non-zero bit offset, the top-level parse advances the cursor to the
start of the next byte, and otherwise the cursors agree.  (`fuel + 1`
matches the one level of unfolding: both functions parse children through
`parseSubpacket data fuel`.) -/
theorem claim_c6 (data : List Nat) (fuel byteOff bitOff : Nat) :
    parsePacket data fuel byteOff bitOff =
      (parseSubpacket data (fuel + 1) byteOff bitOff).map
        (fun r => if r.snd.snd ≠ 0 then (r.fst, r.snd.fst + 1, 0) else r) := by
  rw [parsePacket]
  simp only [parseSubpacket]
  cases hh : parsePacketHeader data byteOff bitOff with
  | none => rfl
  | some rh =>
    obtain ⟨⟨version, typeId, ltid⟩, pos⟩ := rh
    cases typeId
    case Literal =>
      simp only [bind, Option.bind]
      cases hl : parsePacketLiteral data pos.fst pos.snd with
      | none => rfl
      | some rl =>
        simp only [bind, Option.bind, Option.map]
        by_cases hc : rl.snd.snd ≠ 0 <;> simp [hc]
    all_goals
      simp only [bind, Option.bind]
      cases ho : parsePacketOperatorLength data ltid pos.fst pos.snd with
      | none => rfl
      | some ro =>
        simp only [bind, Option.bind]
        by_cases h0 : ltid = 0
        · simp only [if_pos h0]
          cases hrs : psLoopBits (ro.snd.fst * 8 + ro.snd.snd + ro.fst)
              (fun b o => parseSubpacket data fuel b o) fuel ro.snd.fst ro.snd.snd with
          | none => rfl
          | some rs =>
            simp only [bind, Option.bind, Option.map]
            by_cases hc : rs.snd.snd ≠ 0 <;> simp [hc]
        · by_cases h1 : ltid = 1
          · simp only [if_neg h0, if_pos h1]
            cases hrs : psLoopCount (fun b o => parseSubpacket data fuel b o)
                ro.fst ro.snd.fst ro.snd.snd with
            | none => rfl
            | some rs =>
              simp only [bind, Option.bind, Option.map]
              by_cases hc : rs.snd.snd ≠ 0 <;> simp [hc]
          · simp only [if_neg h0, if_neg h1]
            rfl

/-! ### C5: the bit-read primitive -/

theorem and_shift_mask (b k : Nat) : (b &&& (1 <<< k)) >>> k = (b >>> k) &&& 1 := by
  apply Nat.eq_of_testBit_eq
  intro i
  simp only [Nat.testBit_shiftRight, Nat.testBit_and, Nat.testBit_shiftLeft]
  have h1 : k ≤ k + i := Nat.le_add_right k i
  have h2 : k + i - k = i := by omega
  simp [h1, h2]

theorem bitAt_le_one (data : List Nat) (i : Nat) : bitAt data i ≤ 1 := by
  rw [bitAt, Nat.and_one_is_mod]
  omega

theorem bitsValue_lt (data : List Nat) (pos : Nat) : ∀ n, bitsValue data pos n < 2 ^ n := by
  intro n
  induction n with
  | zero => simp [bitsValue]
  | succ n ih =>
    have hb := bitAt_le_one data (pos + n)
    rw [bitsValue]
    have : 2 ^ (n + 1) = 2 ^ n * 2 := by ring
    omega

theorem bitsValue_split (data : List Nat) :
    ∀ (n pos : Nat), bitsValue data pos (n + 1) =
      bitAt data pos * 2 ^ n + bitsValue data (pos + 1) n := by
  intro n
  induction n with
  | zero => intro pos; simp [bitsValue]
  | succ n ih =>
    intro pos
    have h1 : bitsValue data pos (n + 1 + 1) =
        bitsValue data pos (n + 1) * 2 + bitAt data (pos + (n + 1)) := rfl
    rw [h1, ih pos]
    have h2 : bitsValue data (pos + 1) (n + 1) =
        bitsValue data (pos + 1) n * 2 + bitAt data (pos + 1 + n) := rfl
    rw [h2]
    have h3 : pos + (n + 1) = pos + 1 + n := by omega
    rw [h3]
    ring

theorem lor_shiftLeft_eq_add {b k x : Nat} (hb : b ≤ 1) (hx : x < 2 ^ k) :
    x ||| (b <<< k) = b * 2 ^ k + x := by
  rcases Nat.le_one_iff_eq_zero_or_eq_one.mp hb with rfl | rfl
  · simp [Nat.zero_shiftLeft]
  · rw [Nat.one_shiftLeft, Nat.one_mul]
    apply Nat.eq_of_testBit_eq
    intro i
    rcases Nat.lt_trichotomy i k with hik | rfl | hik
    · rw [Nat.testBit_or, Nat.testBit_two_pow_of_ne (by omega),
        Nat.testBit_two_pow_add_gt hik, Bool.or_false]
    · rw [Nat.testBit_or, Nat.testBit_two_pow_self, Nat.testBit_two_pow_add_eq,
        Nat.testBit_lt_two_pow hx, Bool.or_true]
      rfl
    · have hx2 : x < 2 ^ i := lt_of_lt_of_le hx (Nat.pow_le_pow_right (by omega) (by omega))
      have hsum : 2 ^ k + x < 2 ^ i := by
        have : 2 ^ (k + 1) ≤ 2 ^ i := Nat.pow_le_pow_right (by omega) (by omega)
        have h2 : 2 ^ (k + 1) = 2 ^ k * 2 := by ring
        omega
      rw [Nat.testBit_or, Nat.testBit_two_pow_of_ne (by omega),
        Nat.testBit_lt_two_pow hx2, Nat.testBit_lt_two_pow hsum, Bool.or_false]

theorem combineBits_cons (b : Nat) (l : List Nat) :
    combineBits (b :: l) = combineBits l ||| (b <<< l.length) := by
  rw [combineBits, combineBits, List.reverse_cons, List.enum_append, List.foldl_append]
  simp [List.enumFrom]

theorem combineBits_bitsValue (data : List Nat) :
    ∀ (n pos : Nat),
      combineBits ((List.range n).map (fun j => bitAt data (pos + j))) =
        bitsValue data pos n := by
  intro n
  induction n with
  | zero => intro pos; rfl
  | succ n ih =>
    intro pos
    rw [List.range_succ_eq_map, List.map_cons, List.map_map, combineBits_cons]
    have hm : (List.map ((fun j => bitAt data (pos + j)) ∘ Nat.succ) (List.range n)) =
        (List.map (fun j => bitAt data (pos + 1 + j)) (List.range n)) := by
      apply List.map_congr_left
      intro j _
      simp only [Function.comp]
      congr 1
      omega
    rw [hm, ih (pos + 1), List.length_map, List.length_range]
    simp only [Nat.add_zero]
    rw [lor_shiftLeft_eq_add (bitAt_le_one data pos) (bitsValue_lt data (pos + 1) n),
      bitsValue_split data n pos]

theorem grabBit_spec {data : List Nat} {byteOff bitOff : Nat} (ho : bitOff < 8)
    (hin : byteOff * 8 + bitOff < 8 * data.length) :
    grabBit data byteOff bitOff =
      some (bitAt data (byteOff * 8 + bitOff),
        (byteOff * 8 + bitOff + 1) / 8, (byteOff * 8 + bitOff + 1) % 8) := by
  have hlt : byteOff < data.length := by omega
  obtain ⟨byte, hbyte⟩ : ∃ byte, data.get? byteOff = some byte := by
    rw [List.get?_eq_getElem?]
    exact ⟨data[byteOff], List.getElem?_eq_getElem hlt⟩
  have hbit : (byte &&& (1 <<< (7 - bitOff))) >>> (7 - bitOff) =
      bitAt data (byteOff * 8 + bitOff) := by
    rw [and_shift_mask, bitAt]
    have hd : (byteOff * 8 + bitOff) / 8 = byteOff := by omega
    have hm : (byteOff * 8 + bitOff) % 8 = bitOff := by omega
    rw [hd, hm]
    have : data.getD byteOff 0 = byte := by
      rw [List.getD_eq_getElem?_getD, ← List.get?_eq_getElem?, hbyte]
      rfl
    rw [this]
  rw [grabBit, hbyte]
  simp only [hbit]
  by_cases h8 : bitOff + 1 = 8
  · rw [if_pos h8]
    have h1 : (byteOff * 8 + bitOff + 1) / 8 = byteOff + 1 := by omega
    have h2 : (byteOff * 8 + bitOff + 1) % 8 = 0 := by omega
    rw [h1, h2]
  · rw [if_neg h8]
    have h1 : (byteOff * 8 + bitOff + 1) / 8 = byteOff := by omega
    have h2 : (byteOff * 8 + bitOff + 1) % 8 = bitOff + 1 := by omega
    rw [h1, h2]

theorem grabBitsList_spec {data : List Nat} :
    ∀ (n byteOff bitOff : Nat), bitOff < 8 →
      byteOff * 8 + bitOff + n ≤ 8 * data.length →
      grabBitsList data n byteOff bitOff =
        some ((List.range n).map (fun j => bitAt data (byteOff * 8 + bitOff + j)),
          (byteOff * 8 + bitOff + n) / 8, (byteOff * 8 + bitOff + n) % 8) := by
  intro n
  induction n with
  | zero =>
    intro byteOff bitOff ho _
    have h1 : (byteOff * 8 + bitOff + 0) / 8 = byteOff := by omega
    have h2 : (byteOff * 8 + bitOff + 0) % 8 = bitOff := by omega
    rw [grabBitsList, h1, h2]
    rfl
  | succ n ih =>
    intro byteOff bitOff ho hin
    rw [grabBitsList, grabBit_spec ho (by omega)]
    set pos := byteOff * 8 + bitOff with hpos
    have hrec := ih ((pos + 1) / 8) ((pos + 1) % 8) (by omega) (by omega)
    have heq : (pos + 1) / 8 * 8 + (pos + 1) % 8 = pos + 1 := by omega
    rw [heq] at hrec
    simp only [bind, Option.bind, hrec]
    have hlist : (List.range (n + 1)).map (fun j => bitAt data (pos + j)) =
        bitAt data pos :: (List.range n).map (fun j => bitAt data (pos + 1 + j)) := by
      rw [List.range_succ_eq_map, List.map_cons, List.map_map]
      refine congrArg₂ List.cons (by simp) ?_
      apply List.map_congr_left
      intro j hj
      show bitAt data (pos + (j + 1)) = bitAt data (pos + 1 + j)
      congr 1
      omega
    rw [hlist]
    have harith : pos + 1 + n = pos + (n + 1) := by omega
    rw [harith]

/-- C5: for every buffer and cursor position with at least `n` bits
remaining, `1 ≤ n ≤ 16`, `grab_bits` returns the unsigned integer whose
MSB-first binary representation is the next `n` bits of the buffer
(crossing byte boundaries), and advances the absolute bit position
`byte_offset * 8 + bit_offset` by exactly `n`. -/
theorem claim_c5 (data : List Nat) (n byteOff bitOff : Nat)
    (hn1 : 1 ≤ n) (hn16 : n ≤ 16) (ho : bitOff < 8)
    (hin : byteOff * 8 + bitOff + n ≤ 8 * data.length) :
    grabBits data n byteOff bitOff =
      some (bitsValue data (byteOff * 8 + bitOff) n,
        (byteOff * 8 + bitOff + n) / 8, (byteOff * 8 + bitOff + n) % 8) := by
  rw [grabBits, grabBitsList_spec n byteOff bitOff ho hin]
  simp only [bind, Option.bind, combineBits_bitsValue data n (byteOff * 8 + bitOff)]

/-- Witness for C5: reading 5 bits of `[0xD2, 0xFE]` from bit position 3
yields the value of bits 3..7 (`10010` = 18) and lands on position 8. -/
theorem claim_c5_witness :
    grabBits [0xD2, 0xFE] 5 0 3 = some (bitsValue [0xD2, 0xFE] 3 5, 1, 0) := by
  have h := claim_c5 [0xD2, 0xFE] 5 0 3 (by decide) (by decide) (by decide) (by decide)
  simpa using h

/-! ### Basic arena lemmas -/

section ArenaLemmas

variable {T : Type}

theorem lookupNode_mem {t : Tree T} {x : Nat} {n : TreeNode T}
    (h : t.lookupNode x = some n) : (x, n) ∈ t.nodes := by
  rw [Tree.lookupNode] at h
  cases hf : t.nodes.find? (fun e => e.fst = x) with
  | none => rw [hf] at h; cases h
  | some e =>
    rw [hf] at h
    have hsnd : e.snd = n := by
      simpa using h
    have hfst := List.find?_some hf
    have hx : e.fst = x := of_decide_eq_true hfst
    have hmem := List.mem_of_find?_eq_some hf
    have he : e = (x, n) := by
      cases e
      simp_all
    rwa [he] at hmem

theorem Tree.WF.keysNodup {t : Tree T} (h : t.WF) : (t.nodes.map Prod.fst).Nodup := h.1

theorem Tree.WF.idsBound {t : Tree T} (h : t.WF) {x : Nat} {n : TreeNode T}
    (hx : t.lookupNode x = some n) : x < t.idTracker :=
  h.2.1 (x, n) (lookupNode_mem hx)

theorem Tree.WF.back {t : Tree T} (h : t.WF) {x : Nat} {n : TreeNode T} {c : Nat}
    (hx : t.lookupNode x = some n) (hc : c ∈ n.children) :
    ∃ cn, t.lookupNode c = some cn ∧ cn.parent = some x := by
  have h3 := h.2.2.1 (x, n) (lookupNode_mem hx) c hc
  obtain ⟨cn, hcn, hp⟩ := Option.map_eq_some'.mp h3
  exact ⟨cn, hcn, hp⟩

theorem Tree.WF.forward {t : Tree T} (h : t.WF) {x p : Nat} {n : TreeNode T}
    (hx : t.lookupNode x = some n) (hp : n.parent = some p) :
    ∃ pn, t.lookupNode p = some pn ∧ x ∈ pn.children := by
  have h4 := h.2.2.2.1 (x, n) (lookupNode_mem hx) p (by simp [hp])
  cases hl : t.lookupNode p with
  | none => rw [hl] at h4; simp [Option.elim] at h4
  | some pn =>
    rw [hl] at h4
    exact ⟨pn, rfl, h4⟩

theorem Tree.WF.childNodup {t : Tree T} (h : t.WF) {x : Nat} {n : TreeNode T}
    (hx : t.lookupNode x = some n) : n.children.Nodup :=
  h.2.2.2.2.1 (x, n) (lookupNode_mem hx)

theorem Tree.WF.rootSpec {t : Tree T} (h : t.WF) {r : Nat} (hr : t.root = some r) :
    ∃ rn, t.lookupNode r = some rn ∧ rn.parent = none := by
  have h6 := h.2.2.2.2.2.1 r (by simp [hr])
  obtain ⟨rn, hrn, hp⟩ := Option.map_eq_some'.mp h6
  exact ⟨rn, hrn, hp⟩

theorem Tree.WF.upTerm {t : Tree T} (h : t.WF) {x : Nat} {n : TreeNode T}
    (hx : t.lookupNode x = some n) : (t.upChain (t.size + 1) x).isSome = true :=
  h.2.2.2.2.2.2 (x, n) (lookupNode_mem hx)

/-- A successful `upChain` computation is an ancestor chain. -/
theorem upChain_isUpChain {t : Tree T} :
    ∀ {f x : Nat} {l : List Nat}, t.upChain f x = some l → IsUpChain t x l := by
  intro f
  induction f with
  | zero => intro x l h; rw [Tree.upChain] at h; cases h
  | succ f ih =>
    intro x l h
    cases hx : t.lookupNode x with
    | none =>
      simp only [Tree.upChain, hx] at h
      cases h
    | some n =>
      cases hp : n.parent with
      | none =>
        simp only [Tree.upChain, hx, hp] at h
        cases h
        exact IsUpChain.last hx hp
      | some p =>
        simp only [Tree.upChain, hx, hp] at h
        obtain ⟨l', hl', rfl⟩ := Option.map_eq_some'.mp h
        exact IsUpChain.step hx hp (ih hl')

theorem isUpChain_head {t : Tree T} {x : Nat} {l : List Nat} (h : IsUpChain t x l) :
    ∃ l', l = x :: l' := by
  cases h with
  | last hx hp => exact ⟨[], rfl⟩
  | step hx hp hl => exact ⟨_, rfl⟩

theorem isUpChain_unique {t : Tree T} {x : Nat} {l : List Nat} (h : IsUpChain t x l) :
    ∀ {l' : List Nat}, IsUpChain t x l' → l = l' := by
  induction h with
  | last hx hp =>
    intro l' h'
    cases h' with
    | last hx' hp' => rfl
    | step hx' hp' hl' =>
      rw [hx] at hx'
      cases hx'
      rw [hp] at hp'
      cases hp'
  | step hx hp hl ih =>
    intro l' h'
    cases h' with
    | last hx' hp' =>
      rw [hx] at hx'
      cases hx'
      rw [hp] at hp'
      cases hp'
    | step hx' hp' hl' =>
      rw [hx] at hx'
      cases hx'
      rw [hp] at hp'
      cases hp'
      rw [ih hl']

theorem isUpChain_suffix {t : Tree T} {x : Nat} {l : List Nat} (h : IsUpChain t x l) :
    ∀ (a : List Nat) (y : Nat) (b : List Nat), l = a ++ y :: b → IsUpChain t y (y :: b) := by
  induction h with
  | @last x n hx hp =>
    intro a y b heq
    match a, heq with
    | [], heq =>
      have hy : x = y ∧ b = [] := by
        constructor
        · injection heq with h1 h2
        · injection heq with h1 h2
          exact h2.symm
      rcases hy with ⟨rfl, rfl⟩
      exact IsUpChain.last hx hp
    | a0 :: a', heq =>
      exfalso
      injection heq with h1 h2
      exact absurd h2.symm (List.append_ne_nil_of_right_ne_nil a' (by simp))
  | @step x p n l hx hp hl ih =>
    intro a y b heq
    match a, heq with
    | [], heq =>
      injection heq with h1 h2
      subst h1
      rw [← h2]
      exact IsUpChain.step hx hp hl
    | a0 :: a', heq =>
      injection heq with h1 h2
      exact ih a' y b h2

theorem isUpChain_nodup {t : Tree T} {x : Nat} {l : List Nat} (h : IsUpChain t x l) :
    l.Nodup := by
  induction h with
  | last hx hp => simp
  | @step x p n l hx hp hl ih =>
    refine List.nodup_cons.mpr ⟨?_, ih⟩
    intro hmem
    obtain ⟨a, b, hab⟩ := List.append_of_mem hmem
    have h1 : IsUpChain t x (x :: b) := isUpChain_suffix hl a x b hab
    have h2 : IsUpChain t x (x :: l) := IsUpChain.step hx hp hl
    have h3 := isUpChain_unique h2 h1
    have hlen : l.length = b.length := by
      have := congrArg List.length h3
      simpa using this
    rw [hab] at hlen
    simp at hlen
    omega

theorem isUpChain_live {t : Tree T} {x : Nat} {l : List Nat} (h : IsUpChain t x l) :
    ∀ y ∈ l, (t.lookupNode y).isSome = true := by
  induction h with
  | @last x n hx hp =>
    intro y hy
    have : y = x := List.mem_singleton.mp hy
    rw [this, hx]
    rfl
  | @step x p n l hx hp hl ih =>
    intro y hy
    rcases List.mem_cons.mp hy with rfl | hy
    · rw [hx]; rfl
    · exact ih y hy

end ArenaLemmas

/-! ### List index helpers -/

section ListHelpers

variable {α : Type} [DecidableEq α]

theorem findIdx_head {l : List α} {c : α} (h : l.head? = some c) :
    l.findIdx? (fun y => y = c) = some 0 := by
  cases l with
  | nil => cases h
  | cons a l =>
    have : a = c := by simpa using h
    subst this
    simp [List.findIdx?_cons]

theorem get?_of_findIdx? {l : List α} {x : α} {i : Nat}
    (h : l.findIdx? (fun y => y = x) = some i) : l.get? i = some x := by
  obtain ⟨hi, hp, _⟩ := List.findIdx?_eq_some_iff_getElem.mp h
  rw [List.get?_eq_getElem?, List.getElem?_eq_getElem hi]
  have := of_decide_eq_true hp
  rw [this]

theorem findIdx?_lt_length {l : List α} {x : α} {i : Nat}
    (h : l.findIdx? (fun y => y = x) = some i) : i < l.length := by
  obtain ⟨hi, _, _⟩ := List.findIdx?_eq_some_iff_getElem.mp h
  exact hi

theorem get?_inj_of_nodup {l : List α} (hn : l.Nodup) {i j : Nat} {x : α}
    (hi : l.get? i = some x) (hj : l.get? j = some x) : i = j := by
  rw [List.get?_eq_getElem?] at hi hj
  have hi' : i < l.length := by
    by_contra hc
    rw [List.getElem?_eq_none (by omega)] at hi
    cases hi
  have hj' : j < l.length := by
    by_contra hc
    rw [List.getElem?_eq_none (by omega)] at hj
    cases hj
  rw [List.getElem?_eq_getElem hi'] at hi
  rw [List.getElem?_eq_getElem hj'] at hj
  have hij : l[i] = l[j] := by
    injection hi with h1
    injection hj with h2
    rw [h1, h2]
  exact List.Nodup.getElem_inj_iff hn |>.mp hij

theorem findIdx_of_nodup_get? {l : List α} (hn : l.Nodup) {i : Nat} {x : α}
    (hg : l.get? i = some x) : l.findIdx? (fun y => y = x) = some i := by
  have hi : i < l.length := by
    rw [List.get?_eq_getElem?] at hg
    by_contra hc
    rw [List.getElem?_eq_none (by omega)] at hg
    cases hg
  rw [List.get?_eq_getElem?, List.getElem?_eq_getElem hi] at hg
  have hgx : l[i] = x := by injection hg
  apply List.findIdx?_eq_some_iff_getElem.mpr
  refine ⟨hi, by simp [hgx], ?_⟩
  intro j hj
  simp only [decide_eq_true_eq]
  intro hjx
  have : l.get? j = some x := by
    rw [List.get?_eq_getElem?, List.getElem?_eq_getElem (by omega)]
    simp [hjx]
  have : j = i := get?_inj_of_nodup hn this (by
    rw [List.get?_eq_getElem?, List.getElem?_eq_getElem hi]
    simp [hgx])
  omega

theorem getLast?_of_get?_last {l : List α} {x : α} {i : Nat}
    (hg : l.get? i = some x) (hlast : i + 1 = l.length) : l.getLast? = some x := by
  rw [List.getLast?_eq_getElem?]
  rw [List.get?_eq_getElem?] at hg
  have : l.length - 1 = i := by omega
  rw [this]
  exact hg

theorem get?_of_getLast? {l : List α} {x : α} (h : l.getLast? = some x) :
    l.get? (l.length - 1) = some x := by
  rw [List.getLast?_eq_getElem?] at h
  rw [List.get?_eq_getElem?]
  exact h

end ListHelpers

/-! ### Neighbor-walk characterizations -/

section WalkLemmas

variable {T : Type}

theorem lastChain_snoc {t : Tree T} :
    ∀ {k C P L : Nat} {pn : TreeNode T}, LastChain t k C P →
      t.lookupNode P = some pn → pn.children.getLast? = some L →
      LastChain t (k + 1) C L := by
  intro k
  induction k with
  | zero =>
    intro C P L pn hchain hP hlast
    cases hchain
    exact LastChain.step hP hlast (LastChain.refl L)
  | succ k ih =>
    intro C P L pn hchain hP hlast
    cases hchain with
    | step hx hc hrest =>
      exact LastChain.step hx hc (ih hrest hP hlast)

theorem firstChain_snoc {t : Tree T} :
    ∀ {k C P L : Nat} {pn : TreeNode T}, FirstChain t k C P →
      t.lookupNode P = some pn → pn.children.head? = some L →
      FirstChain t (k + 1) C L := by
  intro k
  induction k with
  | zero =>
    intro C P L pn hchain hP hfirst
    cases hchain
    exact FirstChain.step hP hfirst (FirstChain.refl L)
  | succ k ih =>
    intro C P L pn hchain hP hfirst
    cases hchain with
    | step hx hc hrest =>
      exact FirstChain.step hx hc (ih hrest hP hfirst)

/-- Characterization of a successful `descendFirst` run. -/
theorem descendFirst_chain {t : Tree T} :
    ∀ {f S M : Nat}, t.descendFirst f S = some M →
      ∃ k, k < f ∧ FirstChain t k S M ∧
        ∃ nM, t.lookupNode M = some nM ∧ nM.children = [] := by
  intro f
  induction f with
  | zero => intro S M h; rw [Tree.descendFirst] at h; cases h
  | succ f ih =>
    intro S M h
    cases hS : t.lookupNode S with
    | none => simp only [Tree.descendFirst, hS] at h; cases h
    | some n =>
      cases hc : n.children.head? with
      | none =>
        simp only [Tree.descendFirst, hS, hc] at h
        cases h
        exact ⟨0, by omega, FirstChain.refl S,
          n, hS, List.head?_eq_none_iff.mp hc⟩
      | some c =>
        simp only [Tree.descendFirst, hS, hc] at h
        obtain ⟨k, hk, hchain, hM⟩ := ih h
        exact ⟨k + 1, by omega, FirstChain.step hS hc hchain, hM⟩

/-- Characterization of a successful `descendLast` run. -/
theorem descendLast_chain {t : Tree T} :
    ∀ {f S M : Nat}, t.descendLast f S = some M →
      ∃ k, k < f ∧ LastChain t k S M ∧
        ∃ nM, t.lookupNode M = some nM ∧ nM.children = [] := by
  intro f
  induction f with
  | zero => intro S M h; rw [Tree.descendLast] at h; cases h
  | succ f ih =>
    intro S M h
    cases hS : t.lookupNode S with
    | none => simp only [Tree.descendLast, hS] at h; cases h
    | some n =>
      cases hc : n.children.getLast? with
      | none =>
        simp only [Tree.descendLast, hS, hc] at h
        cases h
        exact ⟨0, by omega, LastChain.refl S,
          n, hS, List.getLast?_eq_none_iff.mp hc⟩
      | some c =>
        simp only [Tree.descendLast, hS, hc] at h
        obtain ⟨k, hk, hchain, hM⟩ := ih h
        exact ⟨k + 1, by omega, LastChain.step hS hc hchain, hM⟩

/-- Execution of `descendLast` along a known rightmost-child chain to a
childless node. -/
theorem descendLast_of_chain {t : Tree T} :
    ∀ {k C L : Nat}, LastChain t k C L →
      (∃ nL, t.lookupNode L = some nL ∧ nL.children = []) →
      ∀ {f : Nat}, k < f → t.descendLast f C = some L := by
  intro k
  induction k with
  | zero =>
    intro C L hchain hleaf f hf
    cases hchain
    obtain ⟨nL, hnL, hch⟩ := hleaf
    obtain ⟨f', rfl⟩ : ∃ f', f = f' + 1 := ⟨f - 1, by omega⟩
    simp [Tree.descendLast, hnL, hch]
  | succ k ih =>
    intro C L hchain hleaf f hf
    cases hchain with
    | step hx hc hrest =>
      obtain ⟨f', rfl⟩ : ∃ f', f = f' + 1 := ⟨f - 1, by omega⟩
      simp only [Tree.descendLast, hx, hc]
      exact ih hrest hleaf (by omega)

/-- Execution of `descendFirst` along a known leftmost-child chain to a
childless node. -/
theorem descendFirst_of_chain {t : Tree T} :
    ∀ {k C L : Nat}, FirstChain t k C L →
      (∃ nL, t.lookupNode L = some nL ∧ nL.children = []) →
      ∀ {f : Nat}, k < f → t.descendFirst f C = some L := by
  intro k
  induction k with
  | zero =>
    intro C L hchain hleaf f hf
    cases hchain
    obtain ⟨nL, hnL, hch⟩ := hleaf
    obtain ⟨f', rfl⟩ : ∃ f', f = f' + 1 := ⟨f - 1, by omega⟩
    simp [Tree.descendFirst, hnL, hch]
  | succ k ih =>
    intro C L hchain hleaf f hf
    cases hchain with
    | step hx hc hrest =>
      obtain ⟨f', rfl⟩ : ∃ f', f = f' + 1 := ⟨f - 1, by omega⟩
      simp only [Tree.descendFirst, hx, hc]
      exact ih hrest hleaf (by omega)

/-- Walking `left_neighbor_node` back up along a leftmost-child chain:
every node of such a chain is the first child of its parent, so the walk
climbs to the chain's top without turning. -/
theorem lnn_along_firstChain {t : Tree T} (hwf : t.WF) :
    ∀ {k S M : Nat}, FirstChain t k S M → ∀ {f : Nat}, k < f →
      t.leftNeighborNode f M = t.leftNeighborNode (f - k) S := by
  intro k
  induction k with
  | zero =>
    intro S M hchain f hf
    cases hchain
    rfl
  | succ k ih =>
    intro S M hchain f hf
    cases hchain with
    | step hS hc hrest =>
      rename_i c n
      have hcm : c ∈ n.children := List.mem_of_mem_head? hc
      obtain ⟨cn, hcn, hcp⟩ := hwf.back hS hcm
      have h1 : t.leftNeighborNode f M = t.leftNeighborNode (f - k) c :=
        ih hrest (by omega)
      obtain ⟨g, hg⟩ : ∃ g, f - k = g + 1 := ⟨f - k - 1, by omega⟩
      rw [h1, hg]
      simp only [Tree.leftNeighborNode, hcn, hcp, hS, TreeNode.findChild, findIdx_head hc]
      have hnot : ¬ 0 < 0 := by omega
      rw [if_neg hnot]
      congr 1
      omega

/-- Walking `right_neighbor_node` back up along a rightmost-child chain. -/
theorem rnn_along_lastChain {t : Tree T} (hwf : t.WF) :
    ∀ {k S M : Nat}, LastChain t k S M → ∀ {f : Nat}, k < f →
      t.rightNeighborNode f M = t.rightNeighborNode (f - k) S := by
  intro k
  induction k with
  | zero =>
    intro S M hchain f hf
    cases hchain
    rfl
  | succ k ih =>
    intro S M hchain f hf
    cases hchain with
    | step hS hc hrest =>
      rename_i c n
      have hcm : c ∈ n.children := List.mem_of_mem_getLast? hc
      obtain ⟨cn, hcn, hcp⟩ := hwf.back hS hcm
      have h1 : t.rightNeighborNode f M = t.rightNeighborNode (f - k) c :=
        ih hrest (by omega)
      obtain ⟨g, hg⟩ : ∃ g, f - k = g + 1 := ⟨f - k - 1, by omega⟩
      have hidx : n.children.findIdx? (fun y => y = c) = some (n.children.length - 1) :=
        findIdx_of_nodup_get? (hwf.childNodup hS) (get?_of_getLast? hc)
      rw [h1, hg]
      simp only [Tree.rightNeighborNode, hcn, hcp, hS, TreeNode.findChild, hidx]
      have hnot : ¬ n.children.length - 1 < n.children.length - 1 := by omega
      rw [if_neg hnot]
      congr 1
      omega

/-- Turn extraction for `right_neighbor_node`: a successful search walked
up a rightmost-child chain from `L` to some ancestor `C` and returned the
sibling immediately right of `C`. -/
theorem rnn_turn {t : Tree T} (hwf : t.WF) :
    ∀ {f L S : Nat}, t.rightNeighborNode f L = some (some S) →
      ∃ k C P i, k < f ∧ LastChain t k C L ∧
        (∃ nC, t.lookupNode C = some nC ∧ nC.parent = some P) ∧
        ∃ pn, t.lookupNode P = some pn ∧
          pn.children.get? i = some C ∧ pn.children.get? (i + 1) = some S := by
  intro f
  induction f with
  | zero => intro L S h; rw [Tree.rightNeighborNode] at h; cases h
  | succ f ih =>
    intro L S h
    cases hL : t.lookupNode L with
    | none => simp only [Tree.rightNeighborNode, hL] at h; cases h
    | some n =>
      cases hp : n.parent with
      | none => simp only [Tree.rightNeighborNode, hL, hp] at h; cases h
      | some P =>
        cases hP : t.lookupNode P with
        | none => simp only [Tree.rightNeighborNode, hL, hp, hP] at h; cases h
        | some pn =>
          cases hi : pn.findChild L with
          | none => simp only [Tree.rightNeighborNode, hL, hp, hP, hi] at h; cases h
          | some i =>
            by_cases hlt : i < pn.children.length - 1
            · have hget : pn.children.get? (i + 1) ≠ none := by
                rw [List.get?_eq_getElem?]
                have : i + 1 < pn.children.length := by
                  have := findIdx?_lt_length (l := pn.children) (x := L) hi
                  omega
                rw [List.getElem?_eq_getElem this]
                simp
              cases hg : pn.children.get? (i + 1) with
              | none => exact absurd hg hget
              | some c =>
                simp only [Tree.rightNeighborNode, hL, hp, hP, hi, if_pos hlt, hg] at h
                cases h
                exact ⟨0, L, P, i, by omega, LastChain.refl L, ⟨n, hL, hp⟩,
                  pn, hP, get?_of_findIdx? hi, hg⟩
            · simp only [Tree.rightNeighborNode, hL, hp, hP, hi, if_neg hlt] at h
              obtain ⟨k, C, P', i', hk, hchain, hC, pn', hP', hgi, hgs⟩ := ih h
              have hlen : i < pn.children.length := findIdx?_lt_length hi
              have hlast : pn.children.getLast? = some L :=
                getLast?_of_get?_last (get?_of_findIdx? hi) (by omega)
              exact ⟨k + 1, C, P', i', by omega, lastChain_snoc hchain hP hlast, hC,
                pn', hP', hgi, hgs⟩

/-- Turn extraction for `left_neighbor_node`. -/
theorem lnn_turn {t : Tree T} (hwf : t.WF) :
    ∀ {f L S : Nat}, t.leftNeighborNode f L = some (some S) →
      ∃ k C P i, k < f ∧ FirstChain t k C L ∧
        (∃ nC, t.lookupNode C = some nC ∧ nC.parent = some P) ∧
        ∃ pn, t.lookupNode P = some pn ∧ 0 < i ∧
          pn.children.get? i = some C ∧ pn.children.get? (i - 1) = some S := by
  intro f
  induction f with
  | zero => intro L S h; rw [Tree.leftNeighborNode] at h; cases h
  | succ f ih =>
    intro L S h
    cases hL : t.lookupNode L with
    | none => simp only [Tree.leftNeighborNode, hL] at h; cases h
    | some n =>
      cases hp : n.parent with
      | none => simp only [Tree.leftNeighborNode, hL, hp] at h; cases h
      | some P =>
        cases hP : t.lookupNode P with
        | none => simp only [Tree.leftNeighborNode, hL, hp, hP] at h; cases h
        | some pn =>
          cases hi : pn.findChild L with
          | none => simp only [Tree.leftNeighborNode, hL, hp, hP, hi] at h; cases h
          | some i =>
            by_cases hlt : 0 < i
            · have hget : pn.children.get? (i - 1) ≠ none := by
                rw [List.get?_eq_getElem?]
                have : i < pn.children.length := findIdx?_lt_length hi
                rw [List.getElem?_eq_getElem (by omega)]
                simp
              cases hg : pn.children.get? (i - 1) with
              | none => exact absurd hg hget
              | some c =>
                simp only [Tree.leftNeighborNode, hL, hp, hP, hi, if_pos hlt, hg] at h
                cases h
                exact ⟨0, L, P, i, by omega, FirstChain.refl L, ⟨n, hL, hp⟩,
                  pn, hP, hlt, get?_of_findIdx? hi, hg⟩
            · simp only [Tree.leftNeighborNode, hL, hp, hP, hi, if_neg hlt] at h
              obtain ⟨k, C, P', i', hk, hchain, hC, pn', hP', hpos, hgi, hgs⟩ := ih h
              have hzero : i = 0 := by omega
              have hfirst : pn.children.head? = some L := by
                have := get?_of_findIdx? hi
                rw [hzero] at this
                cases hcl : pn.children with
                | nil => rw [hcl] at this; cases this
                | cons a l =>
                  rw [hcl] at this
                  simpa using this
              exact ⟨k + 1, C, P', i', by omega, firstChain_snoc hchain hP hfirst, hC,
                pn', hP', hpos, hgi, hgs⟩

end WalkLemmas

/-! ### C4: neighbor search symmetry -/

/-- C4: on a well-formed tree, for every leaf `L`: if
`right_neighbor_leaf(L) = Some(M)` then `left_neighbor_leaf(M) = Some(L)`,
and if `left_neighbor_leaf(L) = Some(M)` then
`right_neighbor_leaf(M) = Some(L)` (at the same search fuel, which bounds
the recursion depth of the Rust searches). -/
theorem claim_c4 {T : Type} (t : Tree T) (hwf : t.WF) (f L M : Nat)
    (hleaf : ∃ nL, t.lookupNode L = some nL ∧ nL.children = []) :
    (t.rightNeighborLeaf f L = some (some M) → t.leftNeighborLeaf f M = some (some L)) ∧
    (t.leftNeighborLeaf f L = some (some M) → t.rightNeighborLeaf f M = some (some L)) := by
  constructor
  · intro h
    rw [Tree.rightNeighborLeaf] at h
    cases hrn : t.rightNeighborNode f L with
    | none => simp only [hrn] at h; cases h
    | some o =>
      cases o with
      | none => simp only [hrn] at h; cases h
      | some S =>
        simp only [hrn] at h
        have hdf : t.descendFirst f S = some M := by
          cases hdf0 : t.descendFirst f S with
          | none =>
            exact absurd (hdf0 ▸ h) (by simp [Option.map])
          | some M' =>
            simp only [hdf0, Option.map] at h
            simpa using h
        obtain ⟨k1, C, P, i, hk1, hchain1, ⟨nC, hnC, hpC⟩, pn, hP, hgi, hgs⟩ :=
          rnn_turn hwf hrn
        obtain ⟨k2, hk2, hchain2, hMleaf⟩ := descendFirst_chain hdf
        have hSmem : S ∈ pn.children := List.get?_mem hgs
        obtain ⟨nS, hnS, hpS⟩ := hwf.back hP hSmem
        have hidxS : pn.children.findIdx? (fun y => y = S) = some (i + 1) :=
          findIdx_of_nodup_get? (hwf.childNodup hP) hgs
        have h3 : t.leftNeighborNode f M = t.leftNeighborNode (f - k2) S :=
          lnn_along_firstChain hwf hchain2 (by omega)
        obtain ⟨g, hg⟩ : ∃ g, f - k2 = g + 1 := ⟨f - k2 - 1, by omega⟩
        have h4 : t.leftNeighborNode (g + 1) S = some (some C) := by
          simp only [Tree.leftNeighborNode, hnS, hpS, hP, TreeNode.findChild, hidxS]
          rw [if_pos (by omega)]
          simp only [Nat.add_sub_cancel, hgi]
        have h5 : t.leftNeighborNode f M = some (some C) := by
          rw [h3, hg, h4]
        have h6 : t.descendLast f C = some L :=
          descendLast_of_chain hchain1 hleaf (by omega)
        simp only [Tree.leftNeighborLeaf, h5, h6, Option.map]
  · intro h
    rw [Tree.leftNeighborLeaf] at h
    cases hln : t.leftNeighborNode f L with
    | none => simp only [hln] at h; cases h
    | some o =>
      cases o with
      | none => simp only [hln] at h; cases h
      | some S =>
        simp only [hln] at h
        have hdl : t.descendLast f S = some M := by
          cases hdl0 : t.descendLast f S with
          | none =>
            exact absurd (hdl0 ▸ h) (by simp [Option.map])
          | some M' =>
            simp only [hdl0, Option.map] at h
            simpa using h
        obtain ⟨k1, C, P, i, hk1, hchain1, ⟨nC, hnC, hpC⟩, pn, hP, hipos, hgi, hgs⟩ :=
          lnn_turn hwf hln
        obtain ⟨k2, hk2, hchain2, hMleaf⟩ := descendLast_chain hdl
        have hSmem : S ∈ pn.children := List.get?_mem hgs
        obtain ⟨nS, hnS, hpS⟩ := hwf.back hP hSmem
        have hidxS : pn.children.findIdx? (fun y => y = S) = some (i - 1) :=
          findIdx_of_nodup_get? (hwf.childNodup hP) hgs
        have h3 : t.rightNeighborNode f M = t.rightNeighborNode (f - k2) S :=
          rnn_along_lastChain hwf hchain2 (by omega)
        obtain ⟨g, hg⟩ : ∃ g, f - k2 = g + 1 := ⟨f - k2 - 1, by omega⟩
        have hilen : i < pn.children.length := by
          have := hgi
          rw [List.get?_eq_getElem?] at this
          by_contra hc
          rw [List.getElem?_eq_none (by omega)] at this
          cases this
        have h4 : t.rightNeighborNode (g + 1) S = some (some C) := by
          simp only [Tree.rightNeighborNode, hnS, hpS, hP, TreeNode.findChild, hidxS]
          rw [if_pos (by omega)]
          have : i - 1 + 1 = i := by omega
          rw [this, hgi]
        have h5 : t.rightNeighborNode f M = some (some C) := by
          rw [h3, hg, h4]
        have h6 : t.descendFirst f C = some L :=
          descendFirst_of_chain hchain1 hleaf (by omega)
        simp only [Tree.rightNeighborLeaf, h5, h6, Option.map]

/-- Witness for C4 on the parsed `[1,2]` tree: node 1 is a leaf, its
right neighbor leaf is node 2, and symmetrically node 2's left neighbor
leaf is node 1. -/
theorem claim_c4_witness :
    pairTree.WF ∧
    (∃ n, pairTree.lookupNode 1 = some n ∧ n.children = []) ∧
    pairTree.rightNeighborLeaf 5 1 = some (some 2) ∧
    pairTree.leftNeighborLeaf 5 2 = some (some 1) := by
  refine ⟨by decide, ⟨⟨1, NumberType.Number 1, some 0, []⟩, by decide, rfl⟩, by decide, ?_⟩
  exact (claim_c4 pairTree (by decide) 5 1 2
    ⟨⟨1, NumberType.Number 1, some 0, []⟩, by decide, rfl⟩).1 (by decide)

/-! ### C9: neighbor results are live, childless and distinct -/

section OrbitLemmas

variable {T : Type}

theorem parentIter_succ {t : Tree T} (k x : Nat) :
    t.parentIter (k + 1) x =
      ((t.lookupNode x).bind (fun n => n.parent)).bind (fun p => t.parentIter k p) := by
  rw [Tree.parentIter]
  cases (t.lookupNode x).bind (fun n => n.parent) <;> rfl

theorem parentIter_succ_right {t : Tree T} :
    ∀ (k x : Nat), t.parentIter (k + 1) x =
      (t.parentIter k x).bind (fun y => (t.lookupNode y).bind (fun n => n.parent)) := by
  intro k
  induction k with
  | zero =>
    intro x
    rw [parentIter_succ]
    cases hs : (t.lookupNode x).bind (fun n => n.parent) <;>
      simp [Tree.parentIter, hs]
  | succ k ih =>
    intro x
    rw [parentIter_succ]
    conv_rhs => rw [parentIter_succ]
    cases hs : (t.lookupNode x).bind (fun n => n.parent) with
    | none => rfl
    | some p =>
      simp only [Option.bind]
      exact ih p

theorem lastChain_parentIter {t : Tree T} (hwf : t.WF) :
    ∀ {k C L : Nat}, LastChain t k C L → t.parentIter k L = some C := by
  intro k
  induction k with
  | zero =>
    intro C L h
    cases h
    rfl
  | succ k ih =>
    intro C L h
    cases h with
    | step hx hc hrest =>
      rename_i c n
      have hcm : c ∈ n.children := List.mem_of_mem_getLast? hc
      obtain ⟨cn, hcn, hcp⟩ := hwf.back hx hcm
      rw [parentIter_succ_right, ih hrest]
      simp [hcn, hcp]

theorem firstChain_parentIter {t : Tree T} (hwf : t.WF) :
    ∀ {k C L : Nat}, FirstChain t k C L → t.parentIter k L = some C := by
  intro k
  induction k with
  | zero =>
    intro C L h
    cases h
    rfl
  | succ k ih =>
    intro C L h
    cases h with
    | step hx hc hrest =>
      rename_i c n
      have hcm : c ∈ n.children := List.mem_of_mem_head? hc
      obtain ⟨cn, hcn, hcp⟩ := hwf.back hx hcm
      rw [parentIter_succ_right, ih hrest]
      simp [hcn, hcp]

theorem isUpChain_parentIter {t : Tree T} {x : Nat} {l : List Nat}
    (h : IsUpChain t x l) :
    ∀ {j y : Nat}, t.parentIter j x = some y → l.get? j = some y := by
  induction h with
  | @last x n hx hp =>
    intro j y hj
    cases j with
    | zero =>
      cases hj
      rfl
    | succ j =>
      rw [parentIter_succ] at hj
      simp [hx, hp] at hj
  | @step x p n l hx hp hl ih =>
    intro j y hj
    cases j with
    | zero =>
      cases hj
      rfl
    | succ j =>
      rw [parentIter_succ] at hj
      simp only [hx, hp, Option.some_bind, Option.bind] at hj
      exact ih hj

/-- Two ancestor walks from the same live node that land one step below a
common node `P` at different offsets must coincide: used to show a
neighbor-search result is distinct from its argument. -/
theorem parentIter_collision {t : Tree T} (hwf : t.WF) {L C S P k1 k2 : Nat}
    {nL : TreeNode T} (hlive : t.lookupNode L = some nL)
    (h1 : t.parentIter k1 L = some C) (h2 : t.parentIter k2 L = some S)
    (h1p : (t.lookupNode C).bind (fun n => n.parent) = some P)
    (h2p : (t.lookupNode S).bind (fun n => n.parent) = some P)
    (hne : C ≠ S) : False := by
  have hterm := hwf.upTerm hlive
  obtain ⟨l, hl⟩ := Option.isSome_iff_exists.mp hterm
  have hchain := upChain_isUpChain hl
  have hnodup := isUpChain_nodup hchain
  have h1P : t.parentIter (k1 + 1) L = some P := by
    rw [parentIter_succ_right, h1]
    simpa using h1p
  have h2P : t.parentIter (k2 + 1) L = some P := by
    rw [parentIter_succ_right, h2]
    simpa using h2p
  have g1 := isUpChain_parentIter hchain h1P
  have g2 := isUpChain_parentIter hchain h2P
  have hk : k1 + 1 = k2 + 1 := get?_inj_of_nodup hnodup g1 g2
  have hk' : k1 = k2 := by omega
  rw [hk'] at h1
  rw [h1] at h2
  exact hne (by injection h2)

/-- The first lookup of a successful neighbor search. -/
theorem rnn_lookup_isSome {t : Tree T} {f L : Nat} {r : Option Nat}
    (h : t.rightNeighborNode f L = some r) :
    ∃ nL, t.lookupNode L = some nL := by
  cases f with
  | zero => rw [Tree.rightNeighborNode] at h; cases h
  | succ f =>
    cases hL : t.lookupNode L with
    | none =>
      simp only [Tree.rightNeighborNode, hL] at h
      cases h
    | some n => exact ⟨n, rfl⟩

theorem lnn_lookup_isSome {t : Tree T} {f L : Nat} {r : Option Nat}
    (h : t.leftNeighborNode f L = some r) :
    ∃ nL, t.lookupNode L = some nL := by
  cases f with
  | zero => rw [Tree.leftNeighborNode] at h; cases h
  | succ f =>
    cases hL : t.lookupNode L with
    | none =>
      simp only [Tree.leftNeighborNode, hL] at h
      cases h
    | some n => exact ⟨n, rfl⟩

end OrbitLemmas

/-- C9: on a well-formed tree, whenever `left_neighbor_leaf` or
`right_neighbor_leaf` returns `Some(m)`, the node `m` is live, childless
(a leaf), and distinct from the queried node; under the additional
discipline that every childless node of the reducer's trees holds a plain
literal, the returned neighbor holds a literal value — exactly the
assumption the explode rule relies on. -/
theorem claim_c9 (t : NumberTree) (hwf : t.WF) (f nodeId : Nat) :
    (∀ m, t.leftNeighborLeaf f nodeId = some (some m) →
      m ≠ nodeId ∧ ∃ nm, t.lookupNode m = some nm ∧ nm.children = [] ∧
        ((∀ e ∈ t.nodes, e.snd.children = [] → ∃ v, e.snd.data = NumberType.Number v) →
          ∃ v, nm.data = NumberType.Number v)) ∧
    (∀ m, t.rightNeighborLeaf f nodeId = some (some m) →
      m ≠ nodeId ∧ ∃ nm, t.lookupNode m = some nm ∧ nm.children = [] ∧
        ((∀ e ∈ t.nodes, e.snd.children = [] → ∃ v, e.snd.data = NumberType.Number v) →
          ∃ v, nm.data = NumberType.Number v)) := by
  constructor
  · intro m h
    rw [Tree.leftNeighborLeaf] at h
    cases hln : t.leftNeighborNode f nodeId with
    | none => simp only [hln] at h; cases h
    | some o =>
      cases o with
      | none => simp only [hln] at h; cases h
      | some S =>
        simp only [hln] at h
        have hdl : t.descendLast f S = some m := by
          cases hdl0 : t.descendLast f S with
          | none => exact absurd (hdl0 ▸ h) (by simp [Option.map])
          | some m' =>
            simp only [hdl0, Option.map] at h
            simpa using h
        obtain ⟨k1, C, P, i, hk1, hchain1, ⟨nC, hnC, hpC⟩, pn, hP, hipos, hgi, hgs⟩ :=
          lnn_turn hwf hln
        obtain ⟨k2, hk2, hchain2, nm, hnm, hch⟩ := descendLast_chain hdl
        obtain ⟨nL, hnL⟩ := lnn_lookup_isSome hln
        refine ⟨?_, nm, hnm, hch, ?_⟩
        · intro hm
          subst hm
          have hSmem : S ∈ pn.children := List.get?_mem hgs
          obtain ⟨nS, hnS, hpS⟩ := hwf.back hP hSmem
          have h1 : t.parentIter k1 m = some C := firstChain_parentIter hwf hchain1
          have h2 : t.parentIter k2 m = some S := lastChain_parentIter hwf hchain2
          have hCS : C ≠ S := by
            intro hcs
            have := get?_inj_of_nodup (hwf.childNodup hP) hgi (hcs ▸ hgs)
            omega
          exact parentIter_collision (P := P) hwf hnL h1 h2
            (by simp [hnC, hpC]) (by simp [hnS, hpS]) hCS
        · intro hdisc
          exact hdisc (m, nm) (lookupNode_mem hnm) hch
  · intro m h
    rw [Tree.rightNeighborLeaf] at h
    cases hrn : t.rightNeighborNode f nodeId with
    | none => simp only [hrn] at h; cases h
    | some o =>
      cases o with
      | none => simp only [hrn] at h; cases h
      | some S =>
        simp only [hrn] at h
        have hdf : t.descendFirst f S = some m := by
          cases hdf0 : t.descendFirst f S with
          | none => exact absurd (hdf0 ▸ h) (by simp [Option.map])
          | some m' =>
            simp only [hdf0, Option.map] at h
            simpa using h
        obtain ⟨k1, C, P, i, hk1, hchain1, ⟨nC, hnC, hpC⟩, pn, hP, hgi, hgs⟩ :=
          rnn_turn hwf hrn
        obtain ⟨k2, hk2, hchain2, nm, hnm, hch⟩ := descendFirst_chain hdf
        obtain ⟨nL, hnL⟩ := rnn_lookup_isSome hrn
        refine ⟨?_, nm, hnm, hch, ?_⟩
        · intro hm
          subst hm
          have hSmem : S ∈ pn.children := List.get?_mem hgs
          obtain ⟨nS, hnS, hpS⟩ := hwf.back hP hSmem
          have h1 : t.parentIter k1 m = some C := lastChain_parentIter hwf hchain1
          have h2 : t.parentIter k2 m = some S := firstChain_parentIter hwf hchain2
          have hCS : C ≠ S := by
            intro hcs
            have := get?_inj_of_nodup (hwf.childNodup hP) hgi (hcs ▸ hgs)
            omega
          exact parentIter_collision (P := P) hwf hnL h1 h2
            (by simp [hnC, hpC]) (by simp [hnS, hpS]) hCS
        · intro hdisc
          exact hdisc (m, nm) (lookupNode_mem hnm) hch

/-- Witness for C9 on the parsed `[1,2]` tree. -/
theorem claim_c9_witness :
    pairTree.WF ∧
    (2 ≠ 1 ∧ ∃ nm, pairTree.lookupNode 2 = some nm ∧ nm.children = [] ∧
      ((∀ e ∈ pairTree.nodes, e.snd.children = [] → ∃ v, e.snd.data = NumberType.Number v) →
        ∃ v, nm.data = NumberType.Number v)) := by
  refine ⟨by decide, ?_⟩
  exact (claim_c9 pairTree (by decide) 5 1).2 2 (by decide)

/-! ### C8: `Tree::remove` -/

section RemoveLemmas

variable {T : Type}

theorem find?_map_keyfix {l : List (Nat × TreeNode T)} {j id : Nat}
    {g : TreeNode T → TreeNode T} :
    (l.map (fun e => if e.fst = id then (e.fst, g e.snd) else e)).find?
        (fun e => e.fst = j) =
      (l.find? (fun e => e.fst = j)).map
        (fun e => if e.fst = id then (e.fst, g e.snd) else e) := by
  induction l with
  | nil => rfl
  | cons e l ih =>
    have hkey : (if e.fst = id then (e.fst, g e.snd) else e).fst = e.fst := by
      by_cases h : e.fst = id <;> simp [h]
    by_cases hj : e.fst = j
    · rw [List.map_cons, List.find?_cons_of_pos _ (by rw [hkey]; simp [hj]),
        List.find?_cons_of_pos _ (by simp [hj])]
      rfl
    · rw [List.map_cons, List.find?_cons_of_neg _ (by rw [hkey]; simp [hj]),
        List.find?_cons_of_neg _ (by simp [hj]), ih]

/-- Lookups after `modifyNode`. -/
theorem lookupNode_modifyNode {t t' : Tree T} {id : Nat} {g : TreeNode T → TreeNode T}
    (h : t.modifyNode id g = some t') (j : Nat) :
    t'.lookupNode j = if j = id then (t.lookupNode j).map g else t.lookupNode j := by
  rw [Tree.modifyNode] at h
  cases hid : t.lookupNode id with
  | none => rw [hid] at h; cases h
  | some n0 =>
    rw [hid] at h
    cases h
    simp only [Tree.lookupNode, find?_map_keyfix]
    cases hf : t.nodes.find? (fun e => e.fst = j) with
    | none => by_cases hji : j = id <;> simp [hji]
    | some e =>
      have hkey0 := List.find?_some hf
      have hkey : e.fst = j := of_decide_eq_true hkey0
      by_cases hji : j = id
      · simp [Option.map, hkey, hji]
      · have hne : ¬ e.fst = id := by rw [hkey]; exact hji
        simp [Option.map, hne, hji]

theorem modifyNode_root {t t' : Tree T} {id : Nat} {g : TreeNode T → TreeNode T}
    (h : t.modifyNode id g = some t') :
    t'.root = t.root ∧ t'.idTracker = t.idTracker ∧ t'.size = t.size := by
  rw [Tree.modifyNode] at h
  cases hid : t.lookupNode id with
  | none => rw [hid] at h; cases h
  | some n0 =>
    rw [hid] at h
    cases h
    refine ⟨rfl, rfl, ?_⟩
    simp [Tree.size]

theorem find?_filter_ne {l : List (Nat × TreeNode T)} {id j : Nat} :
    (l.filter (fun e => ¬ e.fst = id)).find? (fun e => e.fst = j) =
      if j = id then none else l.find? (fun e => e.fst = j) := by
  induction l with
  | nil => by_cases hj : j = id <;> simp [hj]
  | cons e l ih =>
    by_cases hid : e.fst = id
    · rw [List.filter_cons_of_neg (by simp [hid])]
      by_cases hj : j = id
      · rw [ih, if_pos hj, if_pos hj]
      · rw [ih, if_neg hj, List.find?_cons_of_neg _ (by simp [hid]; omega), if_neg hj]
    · rw [List.filter_cons_of_pos (by simp [hid])]
      by_cases hj : e.fst = j
      · rw [List.find?_cons_of_pos _ (by simp [hj]), List.find?_cons_of_pos _ (by simp [hj])]
        have : ¬ j = id := by rw [← hj]; exact hid
        rw [if_neg this]
      · rw [List.find?_cons_of_neg _ (by simp [hj]), ih]
        by_cases hjid : j = id
        · rw [if_pos hjid, if_pos hjid]
        · rw [if_neg hjid, if_neg hjid, List.find?_cons_of_neg _ (by simp [hj])]

theorem eraseIdx_findIdx {l : List Nat} {a : Nat} :
    ∀ {i : Nat}, l.findIdx? (fun y => y = a) = some i → l.eraseIdx i = l.erase a := by
  induction l with
  | nil => intro i h; cases h
  | cons b l ih =>
    intro i h
    by_cases hb : b = a
    · rw [List.findIdx?_cons, if_pos (by simp [hb])] at h
      cases h
      rw [List.eraseIdx, hb, List.erase_cons_head]
    · rw [List.findIdx?_cons, if_neg (by simp [hb]), List.findIdx?_succ] at h
      obtain ⟨i', hi', rfl⟩ := Option.map_eq_some'.mp h
      rw [List.erase_cons_tail (by simp [hb]), List.eraseIdx_cons_succ, ih hi']

/-- The two-step parent cycle is impossible in a well-formed tree (its
ancestor chains terminate). -/
theorem no_two_cycle {t : Tree T} (hwf : t.WF) {a b : Nat} {na nb : TreeNode T}
    (ha : t.lookupNode a = some na) (hpa : na.parent = some b)
    (hb : t.lookupNode b = some nb) (hpb : nb.parent = some a) : False := by
  obtain ⟨l, hl⟩ := Option.isSome_iff_exists.mp (hwf.upTerm ha)
  have hchain := upChain_isUpChain hl
  cases hchain with
  | last hx hp =>
    rw [ha] at hx
    cases hx
    rw [hpa] at hp
    cases hp
  | step hx hp hrest =>
    rw [ha] at hx
    cases hx
    rw [hpa] at hp
    cases hp
    rename_i l1
    cases hrest with
    | last hx' hp' =>
      rw [hb] at hx'
      cases hx'
      rw [hpb] at hp'
      cases hp'
    | step hx' hp' hrest' =>
      rw [hb] at hx'
      cases hx'
      rw [hpb] at hp'
      cases hp'
      rename_i l2
      have hu : l2 = a :: b :: l2 := isUpChain_unique hrest' (IsUpChain.step ha hpa
        (IsUpChain.step hb hpb hrest'))
      have := congrArg List.length hu
      simp at this
      omega

/-- Lookups in the node table after filtering out one id. -/
theorem lookupNode_filter_ne {t : Tree T} {id : Nat} (j : Nat) :
    (Tree.lookupNode { t with nodes := t.nodes.filter (fun e => ¬ e.fst = id) } j) =
      if j = id then none else t.lookupNode j := by
  simp only [Tree.lookupNode]
  rw [find?_filter_ne]
  by_cases hj : j = id <;> simp [hj]

/-- Execution of `Tree::remove` on a live node of a well-formed tree. -/
theorem remove_spec {t : Tree T} (hwf : t.WF) {id : Nat} {n : TreeNode T}
    (hid : t.lookupNode id = some n) :
    ∃ t', t.remove id = some t' ∧
      t'.lookupNode id = none ∧
      t'.idTracker = t.idTracker ∧
      (∀ p, n.parent = some p → ∀ pn, t.lookupNode p = some pn →
        t'.lookupNode p = some { pn with children := pn.children.erase id }) ∧
      (∀ j, j ≠ id → (∀ p, n.parent = some p → j ≠ p) →
        t'.lookupNode j = t.lookupNode j) := by
  rw [Tree.remove, hid]
  simp only [bind, Option.bind]
  cases hp : n.parent with
  | none =>
    refine ⟨_, rfl, ?_, rfl, ?_, ?_⟩
    · rw [lookupNode_filter_ne, if_pos rfl]
    · intro p hp'
      cases hp'
    · intro j hj _
      rw [lookupNode_filter_ne, if_neg hj]
  | some p =>
    obtain ⟨pn, hpn, hmem⟩ := hwf.forward hid hp
    obtain ⟨i, hfind⟩ : ∃ i, pn.children.findIdx? (fun y => y = id) = some i :=
      ⟨_, List.findIdx?_eq_some_of_exists ⟨id, hmem, by simp⟩⟩
    have hfind' : pn.findChild id = some i := hfind
    cases hmod : t.modifyNode p
        (fun nd => { nd with children := nd.children.eraseIdx i }) with
    | none =>
      rw [Tree.modifyNode, hpn] at hmod
      cases hmod
    | some t1 =>
      simp only [hpn, hfind', hmod, bind, Option.bind]
      have hml := lookupNode_modifyNode hmod
      have hpid : ¬ p = id := by
        intro hpe
        subst hpe
        rw [hid] at hpn
        cases hpn
        exact no_two_cycle hwf hid hp hid hp
      refine ⟨_, rfl, ?_, ?_, ?_, ?_⟩
      · rw [lookupNode_filter_ne, if_pos rfl]
      · exact (modifyNode_root hmod).2.1
      · intro p' hp' pn' hpn'
        cases hp'
        rw [hpn] at hpn'
        cases hpn'
        rw [lookupNode_filter_ne, if_neg hpid]
        have h1 := hml p
        rw [if_pos rfl, hpn] at h1
        simp only [Option.map] at h1
        rw [h1, eraseIdx_findIdx hfind]
      · intro j hj hjp
        rw [lookupNode_filter_ne, if_neg hj, hml j, if_neg (hjp p rfl)]

end RemoveLemmas

/-- C8 counterexample: on the concrete one-node arena `c8tree` (ids 0; id
5 was never allocated), `remove(5)` does not leave the arena unchanged —
the lookup of the dead id panics (`none`), it does not return the
untouched arena. -/
theorem claim_c8_counterexample :
    Tree.lookupNode c8tree 5 = none ∧
    Tree.remove c8tree 5 = none ∧
    ¬ Tree.remove c8tree 5 = some c8tree := by
  refine ⟨by decide, by decide, by decide⟩

/-- C8 (amended): `remove` on a dead id (never allocated, or removed) is a
fatal error — the id is detected as a lookup-miss (`none`), never aliasing
a live node — rather than a silent no-op; on a live id, `remove` unlinks
the node from its parent's children list, deletes exactly that node from
the live table (the allocator mark is untouched, so ids are never reused),
and leaves the removed node's children present but orphaned (they are not
recursively removed). -/
theorem claim_c8_amended {T : Type} (t : Tree T) (hwf : t.WF) (id : Nat) :
    (t.lookupNode id = none → t.remove id = none) ∧
    (∀ n, t.lookupNode id = some n →
      ∃ t', t.remove id = some t' ∧
        t'.lookupNode id = none ∧
        t'.idTracker = t.idTracker ∧
        (∀ p, n.parent = some p → ∀ pn, t.lookupNode p = some pn →
          t'.lookupNode p = some { pn with children := pn.children.erase id }) ∧
        (∀ j, j ≠ id → (∀ p, n.parent = some p → j ≠ p) →
          t'.lookupNode j = t.lookupNode j) ∧
        (∀ c ∈ n.children, c ≠ id ∧ t'.lookupNode c = t.lookupNode c ∧
          (t'.lookupNode c).isSome = true)) := by
  constructor
  · intro h
    rw [Tree.remove, h]
    rfl
  · intro n hid
    obtain ⟨t', hrem, hnone, htr, hpar, hframe⟩ := remove_spec hwf hid
    refine ⟨t', hrem, hnone, htr, hpar, hframe, ?_⟩
    intro c hc
    obtain ⟨cn, hcn, hcp⟩ := hwf.back hid hc
    have hcne : c ≠ id := by
      intro hce
      subst hce
      rw [hid] at hcn
      cases hcn
      exact no_two_cycle hwf hid hcp hid hcp
    have hcnp : ∀ p, n.parent = some p → c ≠ p := by
      intro p hp hce
      subst hce
      exact no_two_cycle hwf hid hp hcn hcp
    have hfr := hframe c hcne hcnp
    exact ⟨hcne, hfr, by rw [hfr, hcn]; rfl⟩

/-- Witness for C8 (amended) on the concrete one-node arena. -/
theorem claim_c8_amended_witness :
    c8tree.WF ∧ Tree.lookupNode c8tree 5 = none ∧ Tree.remove c8tree 5 = none := by
  refine ⟨by decide, by decide, ?_⟩
  exact (claim_c8_amended c8tree (by decide) 5).1 (by decide)

/-! ### Search completeness and soundness for the reduction invariant -/

section SearchLemmas

theorem DescN.trans_left {T : Type} {t : Tree T} :
    ∀ {k j x y z : Nat}, DescN t x j y → DescN t y k z → DescN t x (j + k) z := by
  intro k
  induction k with
  | zero =>
    intro j x y z h1 h2
    cases h2
    exact h1
  | succ k ih =>
    intro j x y z h1 h2
    cases h2 with
    | succ h2' hl hc =>
      exact DescN.succ (ih h1 h2') hl hc

/-- Splitting a descent at an intermediate length. -/
theorem DescN.split {T : Type} {t : Tree T} :
    ∀ {k x z m : Nat}, DescN t x k z → m ≤ k →
      ∃ y, DescN t x m y ∧ DescN t y (k - m) z := by
  intro k
  induction k with
  | zero =>
    intro x z m h hm
    cases h
    have hm0 : m = 0 := by omega
    subst hm0
    exact ⟨x, DescN.zero x, DescN.zero x⟩
  | succ k ih =>
    intro x z m h hm
    cases h with
    | succ h' hl hc =>
      rename_i y n
      by_cases hmk : m = k + 1
      · subst hmk
        refine ⟨_, DescN.succ h' hl hc, ?_⟩
        have he : k + 1 - (k + 1) = 0 := by omega
        rw [he]
        exact DescN.zero _
      · obtain ⟨w, hw1, hw2⟩ := ih (m := m) h' (by omega)
        refine ⟨w, hw1, ?_⟩
        have he : k + 1 - m = (k - m) + 1 := by omega
        rw [he]
        exact DescN.succ hw2 hl hc

/-- Peeling the first step off a non-trivial descent. -/
theorem DescN.head {T : Type} {t : Tree T} :
    ∀ {k x z : Nat}, DescN t x (k + 1) z →
      ∃ c n, t.lookupNode x = some n ∧ c ∈ n.children ∧ DescN t c k z := by
  intro k
  induction k with
  | zero =>
    intro x z h
    cases h with
    | succ h' hl hc =>
      cases h'
      exact ⟨z, _, hl, hc, DescN.zero z⟩
  | succ k ih =>
    intro x z h
    cases h with
    | succ h' hl hc =>
      obtain ⟨c, n, hx, hcm, hrest⟩ := ih h'
      exact ⟨c, n, hx, hcm, DescN.succ hrest hl hc⟩

/-- The per-child loop of the nested-pair search: a completed loop that
found nothing looked every child up, and for a `Nested` child certifies
both `depth ≠ 4` and a completed empty recursive search. -/
theorem fnpChildren_none {t : NumberTree} {depth : Nat}
    {rec : Nat → Option (Option Nat)} :
    ∀ {cs : List Nat}, fnpChildren t depth rec cs = some none →
      ∀ c ∈ cs, ∃ nc, t.lookupNode c = some nc ∧
        (nc.data = NumberType.Nested → depth ≠ 4 ∧ rec c = some none) := by
  intro cs
  induction cs with
  | nil => intro _ c hc; cases hc
  | cons c0 cs ih =>
    intro h c hc
    cases hl : t.lookupNode c0 with
    | none => simp [fnpChildren, hl] at h
    | some nc0 =>
      simp only [fnpChildren, hl] at h
      by_cases hdata : nc0.data = NumberType.Nested
      · rw [if_pos hdata] at h
        by_cases hd : depth = 4
        · rw [if_pos hd] at h
          simp at h
        · rw [if_neg hd] at h
          cases hrec : rec c0 with
          | none => simp [hrec] at h
          | some o =>
            cases o with
            | some r => simp [hrec] at h
            | none =>
              simp only [hrec] at h
              rcases List.mem_cons.mp hc with rfl | hc'
              · exact ⟨nc0, hl, fun _ => ⟨hd, hrec⟩⟩
              · exact ih h c hc'
      · rw [if_neg hdata] at h
        rcases List.mem_cons.mp hc with rfl | hc'
        · exact ⟨nc0, hl, fun hcon => absurd hcon hdata⟩
        · exact ih h c hc'

/-- Completeness of `find_nested_pair_rec`: a completed empty search from
`x` at depth label `d` rules out every `Nested` strict descendant of `x`
whose depth label would be 4 (under the literal-leaf discipline, which
makes every internal node of a descent `Nested`). -/
theorem fnp_complete {t : NumberTree} (hll : LitLeaves t) :
    ∀ {k : Nat} {f d x : Nat}, findNestedPairRec t f d x = some none →
      ∀ {y : Nat} {ny : TreeNode NumberType}, DescN t x (k + 1) y →
        t.lookupNode y = some ny → ny.data = NumberType.Nested →
        d + k ≠ 4 ∧ ∃ g, findNestedPairRec t g (d + k + 1) y = some none := by
  intro k
  induction k with
  | zero =>
    intro f d x h y ny hdesc hy hdata
    obtain ⟨c, n, hx, hcm, hrest⟩ := DescN.head hdesc
    cases hrest
    cases f with
    | zero => simp [findNestedPairRec] at h
    | succ f =>
      simp only [findNestedPairRec, hx] at h
      obtain ⟨nc, hnc, hspec⟩ := fnpChildren_none h y hcm
      rw [hy] at hnc
      cases hnc
      obtain ⟨hd4, hrec⟩ := hspec hdata
      exact ⟨by omega, f, hrec⟩
  | succ k ih =>
    intro f d x h y ny hdesc hy hdata
    obtain ⟨w, hw1, hw2⟩ := DescN.split hdesc (show k + 1 ≤ k + 2 by omega)
    have hk1 : k + 2 - (k + 1) = 1 := by omega
    rw [hk1] at hw2
    obtain ⟨c, nw, hwl, hcm, hcz⟩ := DescN.head hw2
    cases hcz
    have hwnested : nw.data = NumberType.Nested := by
      apply hll (w, nw) (lookupNode_mem hwl)
      intro hempty
      rw [hempty] at hcm
      cases hcm
    obtain ⟨hd4, g, hg⟩ := ih h hw1 hwl hwnested
    cases g with
    | zero => simp [findNestedPairRec] at hg
    | succ g =>
      simp only [findNestedPairRec, hwl] at hg
      obtain ⟨nc, hnc, hspec⟩ := fnpChildren_none hg y hcm
      rw [hy] at hnc
      cases hnc
      obtain ⟨hd4', hrec⟩ := hspec hdata
      exact ⟨by omega, g, hrec⟩

/-- The per-child loop of the big-literal search. -/
theorem fbpChildren_none {rec : Nat → Option (Option Nat)} :
    ∀ {cs : List Nat}, fbpChildren rec cs = some none →
      ∀ c ∈ cs, rec c = some none := by
  intro cs
  induction cs with
  | nil => intro _ c hc; cases hc
  | cons c0 cs ih =>
    intro h c hc
    cases hrec : rec c0 with
    | none => simp [fbpChildren, hrec] at h
    | some o =>
      cases o with
      | some r => simp [fbpChildren, hrec] at h
      | none =>
        simp only [fbpChildren, hrec] at h
        rcases List.mem_cons.mp hc with rfl | hc'
        · exact hrec
        · exact ih h c hc'

/-- Completeness of `find_big_pair_rec`: a completed empty search from `x`
bounds every literal descendant of `x` (including `x`) by 9. -/
theorem fbp_complete {t : NumberTree} (hll : LitLeaves t) :
    ∀ {k : Nat} {f x : Nat}, findBigPairRec t f x = some none →
      ∀ {y : Nat} {ny : TreeNode NumberType} {a : Nat}, DescN t x k y →
        t.lookupNode y = some ny → ny.data = NumberType.Number a → a ≤ 9 := by
  intro k
  induction k with
  | zero =>
    intro f x h y ny a hdesc hy hdata
    cases hdesc
    cases f with
    | zero => simp [findBigPairRec] at h
    | succ f =>
      simp only [findBigPairRec, hy, hdata] at h
      by_cases ha : a > 9
      · rw [if_pos ha] at h
        simp at h
      · omega
  | succ k ih =>
    intro f x h y ny a hdesc hy hdata
    obtain ⟨c, n, hx, hcm, hrest⟩ := DescN.head hdesc
    cases f with
    | zero => simp [findBigPairRec] at h
    | succ f =>
      have hnested : n.data = NumberType.Nested := by
        apply hll (x, n) (lookupNode_mem hx)
        intro hempty
        rw [hempty] at hcm
        cases hcm
      simp only [findBigPairRec, hx, hnested] at h
      have hrec := fbpChildren_none h c hcm
      exact ih hrec hrest hy hdata

/-- A successful reduction run ends in a state where neither rule
applies. -/
theorem reduceNumber_fixed :
    ∀ {fuel : Nat} {t t' : NumberTree}, reduceNumber fuel t = some t' →
      findNestedPair t' = some none ∧ findBigPair t' = some none := by
  intro fuel
  induction fuel with
  | zero => intro t t' h; simp [reduceNumber] at h
  | succ fuel ih =>
    intro t t' h
    cases hfn : findNestedPair t with
    | none => simp [reduceNumber, hfn] at h
    | some o =>
      cases o with
      | some nodeId =>
        simp only [reduceNumber, hfn] at h
        cases hex : explode t nodeId with
        | none => simp [hex] at h
        | some t1 =>
          simp only [hex] at h
          exact ih h
      | none =>
        simp only [reduceNumber, hfn] at h
        cases hfb : findBigPair t with
        | none => simp [hfb] at h
        | some o2 =>
          cases o2 with
          | some nodeId =>
            simp only [hfb] at h
            cases hsp : split t nodeId with
            | none => simp [hsp] at h
            | some t1 =>
              simp only [hsp] at h
              exact ih h
          | none =>
            simp only [hfb] at h
            cases h
            exact ⟨hfn, hfb⟩

end SearchLemmas

/-! ### Preservation of well-formedness by the arena mutations -/

section PreserveLemmas

variable {T : Type}

/-- Under duplicate-free keys, membership determines the lookup. -/
theorem lookup_of_mem_nodup {t : Tree T} (hn : (t.nodes.map Prod.fst).Nodup)
    {e : Nat × TreeNode T} (he : e ∈ t.nodes) : t.lookupNode e.fst = some e.snd := by
  cases hl : t.lookupNode e.fst with
  | none =>
    exfalso
    rw [Tree.lookupNode] at hl
    cases hf : t.nodes.find? (fun x => x.fst = e.fst) with
    | none =>
      have := List.find?_eq_none.mp hf e he
      simp at this
    | some e' =>
      rw [hf] at hl
      cases hl
  | some n =>
    have hmem2 := lookupNode_mem hl
    have hee : (e.fst, n) = e := List.inj_on_of_nodup_map hn hmem2 he rfl
    rw [← hee]

theorem nodup_mem_length {l keys : List Nat} (hn : l.Nodup)
    (hsub : ∀ y ∈ l, y ∈ keys) : l.length ≤ keys.length := by
  calc l.length = l.toFinset.card := (List.toFinset_card_of_nodup hn).symm
    _ ≤ keys.toFinset.card :=
        Finset.card_le_card (fun y hy => List.mem_toFinset.mpr (hsub y (List.mem_toFinset.mp hy)))
    _ ≤ keys.length := List.toFinset_card_le keys

/-- An ancestor chain visits distinct live nodes, so its length is at most
the number of live nodes. -/
theorem chain_length_le {t : Tree T} {x : Nat} {l : List Nat} (h : IsUpChain t x l) :
    l.length ≤ t.size := by
  have hnd := isUpChain_nodup h
  have hlive := isUpChain_live h
  have hsub : ∀ y ∈ l, y ∈ t.nodes.map Prod.fst := by
    intro y hy
    obtain ⟨ny, hny⟩ := Option.isSome_iff_exists.mp (hlive y hy)
    exact List.mem_map.mpr ⟨(y, ny), lookupNode_mem hny, rfl⟩
  have := nodup_mem_length hnd hsub
  simpa [Tree.size] using this

/-- A node that heads no chain step and is not the chain's head is not on
the chain. -/
theorem isUpChain_not_mem {t : Tree T} {id : Nat} :
    ∀ {x : Nat} {l : List Nat}, IsUpChain t x l → x ≠ id →
      (∀ z nz, t.lookupNode z = some nz → nz.parent ≠ some id) → id ∉ l := by
  intro x l h
  induction h with
  | @last x n hx hp =>
    intro hxid _ hmem
    exact hxid (List.mem_singleton.mp hmem).symm
  | @step x p n l hx hp hl ih =>
    intro hxid hnp hmem
    rcases List.mem_cons.mp hmem with he | hmem'
    · exact hxid he.symm
    · have hpid : p ≠ id := fun he => hnp x n hx (he ▸ hp)
      exact ih hpid hnp hmem'

/-- An ancestor chain transfers to any tree with the same parent links
along it. -/
theorem isUpChain_transfer {t t' : Tree T} :
    ∀ {x : Nat} {l : List Nat}, IsUpChain t x l →
      (∀ y ∈ l, (t'.lookupNode y).map TreeNode.parent =
        (t.lookupNode y).map TreeNode.parent) →
      IsUpChain t' x l := by
  intro x l h
  induction h with
  | @last x n hx hp =>
    intro hmap
    have h1 := hmap x (by simp)
    rw [hx] at h1
    obtain ⟨n', hn', hp'⟩ := Option.map_eq_some'.mp h1
    exact IsUpChain.last hn' (hp'.trans hp)
  | @step x p n l hx hp hl ih =>
    intro hmap
    have h1 := hmap x (by simp)
    rw [hx] at h1
    obtain ⟨n', hn', hp'⟩ := Option.map_eq_some'.mp h1
    exact IsUpChain.step hn' (hp'.trans hp) (ih (fun y hy => hmap y (by simp [hy])))

/-- Executing `upChain` along a known chain. -/
theorem isUpChain_run {t : Tree T} :
    ∀ {x : Nat} {l : List Nat}, IsUpChain t x l → ∀ {fuel : Nat}, l.length ≤ fuel →
      t.upChain fuel x = some l := by
  intro x l h
  induction h with
  | @last x n hx hp =>
    intro fuel hf
    cases fuel with
    | zero => simp at hf
    | succ f => simp [Tree.upChain, hx, hp]
  | @step x p n l hx hp hl ih =>
    intro fuel hf
    cases fuel with
    | zero => simp at hf
    | succ f =>
      have hrun := ih (show l.length ≤ f by simp at hf; omega)
      simp [Tree.upChain, hx, hp, hrun]

theorem modifyNode_nodes {t t' : Tree T} {id : Nat} {g : TreeNode T → TreeNode T}
    (h : t.modifyNode id g = some t') :
    t'.nodes = t.nodes.map (fun e => if e.fst = id then (e.fst, g e.snd) else e) := by
  rw [Tree.modifyNode] at h
  cases hid : t.lookupNode id with
  | none => rw [hid] at h; cases h
  | some n0 => rw [hid] at h; cases h; rfl

theorem modifyNode_keys {t t' : Tree T} {id : Nat} {g : TreeNode T → TreeNode T}
    (h : t.modifyNode id g = some t') :
    t'.nodes.map Prod.fst = t.nodes.map Prod.fst := by
  rw [modifyNode_nodes h, List.map_map]
  apply List.map_congr_left
  intro e he
  by_cases hc : e.fst = id <;> simp [hc]

/-- A data-only update leaves every node's `parent` and `children`
untouched. -/
theorem modifyData_maps {t t' : Tree T} {m : Nat} {d : T}
    (h : t.modifyNode m (fun nd => { nd with data := d }) = some t') (j : Nat) :
    (t'.lookupNode j).map TreeNode.parent = (t.lookupNode j).map TreeNode.parent ∧
    (t'.lookupNode j).map TreeNode.children = (t.lookupNode j).map TreeNode.children := by
  have hml := lookupNode_modifyNode h j
  by_cases hj : j = m
  · rw [hml, if_pos hj]
    cases t.lookupNode j <;> simp
  · rw [hml, if_neg hj]
    exact ⟨rfl, rfl⟩

theorem map_children_elim {o o' : Option (TreeNode T)}
    (h : o'.map TreeNode.children = o.map TreeNode.children) :
    o'.elim [] TreeNode.children = o.elim [] TreeNode.children := by
  cases o <;> cases o' <;> simp_all

theorem modifyData_preserves_WF {t t' : Tree T} (hwf : t.WF) {m : Nat} {d : T}
    (h : t.modifyNode m (fun nd => { nd with data := d }) = some t') : t'.WF := by
  have hpar := fun j => (modifyData_maps h j).1
  have hch := fun j => (modifyData_maps h j).2
  have hkeys := modifyNode_keys h
  have hroot := (modifyNode_root h).1
  have htr := (modifyNode_root h).2.1
  have hsize := (modifyNode_root h).2.2
  have hnd' : (t'.nodes.map Prod.fst).Nodup := by rw [hkeys]; exact hwf.keysNodup
  have hdec : ∀ e ∈ t'.nodes, ∃ n0, t.lookupNode e.fst = some n0 ∧
      n0.parent = e.snd.parent ∧ n0.children = e.snd.children := by
    intro e he
    have hl' := lookup_of_mem_nodup hnd' he
    have h1 := hpar e.fst
    have h2 := hch e.fst
    rw [hl'] at h1 h2
    cases hl : t.lookupNode e.fst with
    | none => rw [hl] at h1; cases h1
    | some n0 =>
      rw [hl] at h1 h2
      refine ⟨n0, rfl, ?_, ?_⟩
      · have := Option.some.inj h1
        exact this.symm
      · have := Option.some.inj h2
        exact this.symm
  refine ⟨hnd', ?_, ?_, ?_, ?_, ?_, ?_⟩
  · intro e he
    obtain ⟨n0, hl, _, _⟩ := hdec e he
    rw [htr]
    exact hwf.idsBound hl
  · intro e he c hc
    obtain ⟨n0, hl, _, hch0⟩ := hdec e he
    obtain ⟨cn, hcn, hcp⟩ := hwf.back hl (by rw [hch0]; exact hc)
    rw [hpar c, hcn]
    simp [hcp]
  · intro e he p hp
    obtain ⟨n0, hl, hp0, _⟩ := hdec e he
    have hp' : n0.parent = some p := by
      rw [hp0]
      cases hpp : e.snd.parent with
      | none => rw [hpp] at hp; cases hp
      | some p0 =>
        rw [hpp] at hp
        have : p = p0 := by simpa using hp
        rw [this]
    obtain ⟨pn, hpn, hmem⟩ := hwf.forward hl hp'
    rw [map_children_elim (hch p), hpn]
    simpa using hmem
  · intro e he
    obtain ⟨n0, hl, _, hch0⟩ := hdec e he
    rw [← hch0]
    exact hwf.childNodup hl
  · intro r hr
    rw [hroot] at hr
    rw [hpar r]
    exact hwf.2.2.2.2.2.1 r hr
  · intro e he
    obtain ⟨n0, hl, _, _⟩ := hdec e he
    obtain ⟨l, hup⟩ := Option.isSome_iff_exists.mp (hwf.upTerm hl)
    have hchain := upChain_isUpChain hup
    have hlen := chain_length_le hchain
    have hchain' := isUpChain_transfer hchain (fun y _ => hpar y)
    have hrun := isUpChain_run hchain' (show l.length ≤ t'.size + 1 by rw [hsize]; omega)
    rw [hrun]
    rfl

theorem modifyData_preserves_LitLeaves {t t' : NumberTree} (hll : LitLeaves t)
    {m : Nat} {d : NumberType}
    (h : t.modifyNode m (fun nd => { nd with data := d }) = some t')
    (hcond : d = NumberType.Nested ∨ ∀ e0 ∈ t.nodes, e0.fst = m → e0.snd.children = []) :
    LitLeaves t' := by
  intro e he
  rw [modifyNode_nodes h] at he
  obtain ⟨e0, he0, heq⟩ := List.mem_map.mp he
  subst heq
  by_cases hm : e0.fst = m
  · rw [if_pos hm]
    intro hne
    rcases hcond with hd | hcond
    · exact hd
    · exfalso
      have hne' : e0.snd.children ≠ [] := by simpa using hne
      exact hne' (hcond e0 he0 hm)
  · rw [if_neg hm]
    exact hll e0 he0

/-- Decomposition of a successful `remove`: the result filters the dead id
out of either the original table or the parent-unhooked table. -/
theorem remove_parts {t t' : Tree T} {id : Nat} (h : t.remove id = some t') :
    ∃ t1 : Tree T, t'.nodes = t1.nodes.filter (fun e => ¬ e.fst = id) ∧
      t'.root = t1.root ∧ t'.idTracker = t1.idTracker ∧
      (t1 = t ∨ ∃ p i, t.modifyNode p
        (fun nd => { nd with children := nd.children.eraseIdx i }) = some t1) := by
  rw [Tree.remove] at h
  cases hid : t.lookupNode id with
  | none => simp [hid, bind, Option.bind] at h
  | some n =>
    simp only [hid, bind, Option.bind] at h
    cases hp : n.parent with
    | none =>
      simp only [hp] at h
      cases h
      exact ⟨t, rfl, rfl, rfl, Or.inl rfl⟩
    | some p =>
      simp only [hp] at h
      cases hpl : t.lookupNode p with
      | none => simp [hpl, bind, Option.bind] at h
      | some pn =>
        simp only [hpl, bind, Option.bind] at h
        cases hfc : pn.findChild id with
        | none => simp [hfc] at h
        | some i =>
          simp only [hfc] at h
          cases hmod : t.modifyNode p
              (fun nd => { nd with children := nd.children.eraseIdx i }) with
          | none => simp [hmod] at h
          | some t1 =>
            simp only [hmod] at h
            cases h
            exact ⟨t1, rfl, rfl, rfl, Or.inr ⟨p, i, hmod⟩⟩

theorem remove_keys_sublist {t t' : Tree T} {id : Nat} (h : t.remove id = some t') :
    (t'.nodes.map Prod.fst).Sublist (t.nodes.map Prod.fst) := by
  obtain ⟨t1, hnodes, _, _, ht1⟩ := remove_parts h
  have hf : t'.nodes.Sublist t1.nodes := by
    rw [hnodes]
    exact List.filter_sublist t1.nodes
  have hkeys1 : t1.nodes.map Prod.fst = t.nodes.map Prod.fst := by
    rcases ht1 with rfl | ⟨p, i, hm⟩
    · rfl
    · exact modifyNode_keys hm
  rw [← hkeys1]
  exact hf.map Prod.fst

theorem remove_root {t t' : Tree T} {id : Nat} (h : t.remove id = some t') :
    t'.root = t.root ∧ t'.idTracker = t.idTracker := by
  obtain ⟨t1, _, hroot, htr, ht1⟩ := remove_parts h
  rcases ht1 with rfl | ⟨p, i, hm⟩
  · exact ⟨hroot, htr⟩
  · exact ⟨hroot.trans (modifyNode_root hm).1, htr.trans (modifyNode_root hm).2.1⟩

theorem remove_preserves_LitLeaves {t t' : NumberTree} (hll : LitLeaves t) {id : Nat}
    (h : t.remove id = some t') : LitLeaves t' := by
  obtain ⟨t1, hnodes, _, _, ht1⟩ := remove_parts h
  have hll1 : LitLeaves t1 := by
    rcases ht1 with rfl | ⟨p, i, hm⟩
    · exact hll
    · intro e he
      rw [modifyNode_nodes hm] at he
      obtain ⟨e0, he0, heq⟩ := List.mem_map.mp he
      subst heq
      by_cases hpm : e0.fst = p
      · rw [if_pos hpm]
        intro hne
        have hne0 : e0.snd.children ≠ [] := by
          intro h0
          apply hne
          simp [h0]
        exact hll e0 he0 hne0
      · rw [if_neg hpm]
        exact hll e0 he0
  intro e he
  rw [hnodes] at he
  exact hll1 e (List.mem_of_mem_filter he)

/-- Removing a childless non-root node preserves well-formedness. -/
theorem remove_preserves_WF {t : Tree T} (hwf : t.WF) {id q : Nat} {n : TreeNode T}
    (hid : t.lookupNode id = some n) (hch : n.children = []) (hq : n.parent = some q)
    {t' : Tree T} (hrem : t.remove id = some t') : t'.WF := by
  obtain ⟨t'', hrem'', hnone, htr, hpar, hframe⟩ := remove_spec hwf hid
  rw [hrem] at hrem''
  cases hrem''
  obtain ⟨qn, hqn, hqmem⟩ := hwf.forward hid hq
  have hlq : t'.lookupNode q = some { qn with children := qn.children.erase id } :=
    hpar q hq qn hqn
  have hqid : q ≠ id := by
    intro he
    subst he
    rw [hid] at hqn
    cases hqn
    exact no_two_cycle hwf hid hq hid hq
  have hfr : ∀ j, j ≠ id → j ≠ q → t'.lookupNode j = t.lookupNode j := by
    intro j hj hjq
    exact hframe j hj (fun p hp => by rw [hq] at hp; cases hp; exact hjq)
  have hparmap : ∀ j, j ≠ id →
      (t'.lookupNode j).map TreeNode.parent = (t.lookupNode j).map TreeNode.parent := by
    intro j hj
    by_cases hjq : j = q
    · subst hjq
      rw [hlq, hqn]
      rfl
    · rw [hfr j hj hjq]
  have hnd' : (t'.nodes.map Prod.fst).Nodup :=
    hwf.keysNodup.sublist (remove_keys_sublist hrem)
  have hdec : ∀ e ∈ t'.nodes, e.fst ≠ id ∧
      ((e.fst = q ∧ e.snd = { qn with children := qn.children.erase id }) ∨
       (e.fst ≠ q ∧ t.lookupNode e.fst = some e.snd)) := by
    intro e he
    have hl' := lookup_of_mem_nodup hnd' he
    have hne : e.fst ≠ id := by
      intro heq
      rw [heq, hnone] at hl'
      cases hl'
    refine ⟨hne, ?_⟩
    by_cases hq' : e.fst = q
    · left
      rw [hq', hlq] at hl'
      exact ⟨hq', (Option.some.inj hl').symm⟩
    · right
      exact ⟨hq', by rw [← hfr e.fst hne hq']; exact hl'⟩
  refine ⟨hnd', ?_, ?_, ?_, ?_, ?_, ?_⟩
  · intro e he
    obtain ⟨hne, hcases⟩ := hdec e he
    rw [htr]
    rcases hcases with ⟨hq', _⟩ | ⟨_, hl⟩
    · rw [hq']
      exact hwf.idsBound hqn
    · exact hwf.idsBound hl
  · intro e he c hc
    obtain ⟨hne, hcases⟩ := hdec e he
    rcases hcases with ⟨hq', hsnd⟩ | ⟨hq', hl⟩
    · rw [hsnd] at hc
      have hc' : c ∈ qn.children.erase id := hc
      have hcid : c ≠ id := ((hwf.childNodup hqn).mem_erase_iff.mp hc').1
      have hcq : c ∈ qn.children := List.mem_of_mem_erase hc'
      obtain ⟨cn, hcn, hcp⟩ := hwf.back hqn hcq
      rw [hparmap c hcid, hcn]
      simp [hcp, hq']
    · obtain ⟨cn, hcn, hcp⟩ := hwf.back hl hc
      have hcid : c ≠ id := by
        intro he'
        subst he'
        rw [hid] at hcn
        cases hcn
        rw [hq] at hcp
        exact hq' (Option.some.inj hcp).symm
      rw [hparmap c hcid, hcn]
      simp [hcp]
  · intro e he p hp
    obtain ⟨hne, hcases⟩ := hdec e he
    rcases hcases with ⟨hq', hsnd⟩ | ⟨hq', hl⟩
    · have hp2 : p ∈ qn.parent.toList := by
        rw [hsnd] at hp
        exact hp
      have hp' : qn.parent = some p := by
        cases hqp : qn.parent with
        | none => rw [hqp] at hp2; cases hp2
        | some p0 =>
          rw [hqp] at hp2
          have : p = p0 := by simpa using hp2
          rw [this]
      obtain ⟨pn', hpn', hm2⟩ := hwf.forward hqn hp'
      have hpid : p ≠ id := by
        intro he'
        subst he'
        rw [hid] at hpn'
        cases hpn'
        rw [hch] at hm2
        cases hm2
      have hpq : p ≠ q := by
        intro he'
        subst he'
        exact no_two_cycle hwf hqn hp' hqn hp'
      rw [hfr p hpid hpq, hpn']
      simpa [hq'] using hm2
    · have hp' : e.snd.parent = some p := by
        cases hpp : e.snd.parent with
        | none => rw [hpp] at hp; cases hp
        | some p0 =>
          rw [hpp] at hp
          have : p = p0 := by simpa using hp
          rw [this]
      obtain ⟨pn', hpn', hm2⟩ := hwf.forward hl hp'
      have hpid : p ≠ id := by
        intro he'
        subst he'
        rw [hid] at hpn'
        cases hpn'
        rw [hch] at hm2
        cases hm2
      by_cases hpq : p = q
      · subst hpq
        rw [hqn] at hpn'
        cases hpn'
        rw [hlq]
        simpa using (List.mem_erase_of_ne hne).mpr hm2
      · rw [hfr p hpid hpq, hpn']
        simpa using hm2
  · intro e he
    obtain ⟨hne, hcases⟩ := hdec e he
    rcases hcases with ⟨hq', hsnd⟩ | ⟨hq', hl⟩
    · rw [hsnd]
      exact (hwf.childNodup hqn).erase id
    · exact hwf.childNodup hl
  · intro r hr
    rw [(remove_root hrem).1] at hr
    have hr0 : t.root = some r := by
      cases hr1 : t.root with
      | none => rw [hr1] at hr; cases hr
      | some r0 =>
        rw [hr1] at hr
        have : r = r0 := by simpa using hr
        rw [this]
    obtain ⟨rn, hrn, hrp⟩ := hwf.rootSpec hr0
    have hrid : r ≠ id := by
      intro he'
      subst he'
      rw [hid] at hrn
      cases hrn
      rw [hq] at hrp
      cases hrp
    rw [hparmap r hrid, hrn]
    simp [hrp]
  · intro e he
    obtain ⟨hne, hcases⟩ := hdec e he
    have hlivet : ∃ n0, t.lookupNode e.fst = some n0 := by
      rcases hcases with ⟨hq', _⟩ | ⟨_, hl⟩
      · exact ⟨qn, by rw [hq']; exact hqn⟩
      · exact ⟨e.snd, hl⟩
    obtain ⟨n0, hn0⟩ := hlivet
    obtain ⟨l, hup⟩ := Option.isSome_iff_exists.mp (hwf.upTerm hn0)
    have hchain := upChain_isUpChain hup
    have hidnot : id ∉ l := by
      apply isUpChain_not_mem hchain hne
      intro z nz hz hzp
      obtain ⟨pn', hpn', hzmem⟩ := hwf.forward hz hzp
      rw [hid] at hpn'
      cases hpn'
      rw [hch] at hzmem
      cases hzmem
    have hchain' := isUpChain_transfer hchain
      (fun y hy => hparmap y (fun he' => hidnot (he' ▸ hy)))
    have hlen' : l.length ≤ t'.size := chain_length_le hchain'
    have hrun := isUpChain_run hchain' (show l.length ≤ t'.size + 1 by omega)
    rw [hrun]
    rfl

theorem lookupNode_cons {t : Tree T} {k tr : Nat} {v : TreeNode T} (j : Nat) :
    Tree.lookupNode { t with nodes := (k, v) :: t.nodes, idTracker := tr } j =
      if j = k then some v else t.lookupNode j := by
  simp only [Tree.lookupNode]
  by_cases hj : j = k
  · rw [List.find?_cons_of_pos _ (by simp [hj]), if_pos hj]
    rfl
  · rw [List.find?_cons_of_neg _ (by simp; omega), if_neg hj]

/-- Execution of `Tree::insert` under a live parent. -/
theorem insert_spec {t : Tree T} {d : T} {m : Nat} {nm : TreeNode T}
    (hm : t.lookupNode m = some nm) (hlt : m < t.idTracker) :
    ∃ t', t.insert d (some m) = some (t.idTracker, t') ∧
      t'.root = t.root ∧ t'.idTracker = t.idTracker + 1 ∧ t'.size = t.size + 1 ∧
      t'.nodes = ((t.idTracker, ({ id := t.idTracker, data := d, parent := some m, children := [] } :
            TreeNode T)) :: t.nodes).map
          (fun e => if e.fst = m then
            (e.fst, { e.snd with children := e.snd.children ++ [t.idTracker] }) else e) ∧
      (∀ j, t'.lookupNode j =
        if j = t.idTracker then
          some { id := t.idTracker, data := d, parent := some m, children := [] }
        else if j = m then some { nm with children := nm.children ++ [t.idTracker] }
        else t.lookupNode j) := by
  have hm1 : Tree.lookupNode { t with nodes := (t.idTracker, ({ id := t.idTracker, data := d, parent := some m, children := [] } : TreeNode T)) :: t.nodes, idTracker := t.idTracker + 1 } m = some nm := by
    rw [lookupNode_cons m, if_neg (by omega)]
    exact hm
  cases hmod : Tree.modifyNode { t with nodes := (t.idTracker, ({ id := t.idTracker, data := d, parent := some m, children := [] } : TreeNode T)) :: t.nodes, idTracker := t.idTracker + 1 } m (fun n => { n with children := n.children ++ [t.idTracker] }) with
  | none =>
    rw [Tree.modifyNode, hm1] at hmod
    cases hmod
  | some t2 =>
    refine ⟨t2, ?_, (modifyNode_root hmod).1, (modifyNode_root hmod).2.1, ?_, ?_, ?_⟩
    · rw [Tree.insert]
      simp only [hmod, Option.map_some']
    · have := (modifyNode_root hmod).2.2
      simpa [Tree.size] using this
    · exact modifyNode_nodes hmod
    · intro j
      rw [lookupNode_modifyNode hmod j, lookupNode_cons j]
      by_cases hjt : j = t.idTracker
      · rw [if_pos hjt, if_pos hjt, if_neg (by omega)]
      · rw [if_neg hjt, if_neg hjt]
        by_cases hjm : j = m
        · rw [if_pos hjm, if_pos hjm, hjm, hm]
          rfl
        · rw [if_neg hjm, if_neg hjm]

/-- Inserting a fresh child under a live parent preserves
well-formedness. -/
theorem insert_preserves_WF {t : Tree T} (hwf : t.WF) {d : T} {m : Nat} {nm : TreeNode T}
    (hm : t.lookupNode m = some nm) {t' : Tree T} {newId : Nat}
    (hins : t.insert d (some m) = some (newId, t')) : t'.WF := by
  have hlt : m < t.idTracker := hwf.idsBound hm
  obtain ⟨t2, hins2, hroot, htr, hsize, hnodes, hlook⟩ := insert_spec (d := d) hm hlt
  rw [hins] at hins2
  have h2 : t' = t2 := congrArg Prod.snd (Option.some.inj hins2)
  subst h2
  have hmt : ¬ m = t.idTracker := by omega
  have hkeys : t'.nodes.map Prod.fst = t.idTracker :: t.nodes.map Prod.fst := by
    rw [hnodes, List.map_map]
    have hcomp : (Prod.fst ∘ fun e : Nat × TreeNode T => if e.fst = m then
        (e.fst, { e.snd with children := e.snd.children ++ [t.idTracker] }) else e) =
        Prod.fst := by
      funext e
      by_cases hc : e.fst = m <;> simp [hc]
    rw [hcomp]
    simp
  have hnd' : (t'.nodes.map Prod.fst).Nodup := by
    rw [hkeys]
    refine List.nodup_cons.mpr ⟨?_, hwf.keysNodup⟩
    intro hmem
    obtain ⟨e, he, hfst⟩ := List.mem_map.mp hmem
    have := hwf.2.1 e he
    omega
  have hparmap : ∀ j, j ≠ t.idTracker →
      (t'.lookupNode j).map TreeNode.parent = (t.lookupNode j).map TreeNode.parent := by
    intro j hj
    rw [hlook j, if_neg hj]
    by_cases hjm : j = m
    · rw [if_pos hjm, hjm, hm]
      rfl
    · rw [if_neg hjm]
  have hlive_ne : ∀ {y : Nat} {ny : TreeNode T}, t.lookupNode y = some ny →
      y ≠ t.idTracker := by
    intro y ny hy heq
    have := hwf.idsBound hy
    omega
  have hdec2 : ∀ e ∈ t'.nodes,
      (e.fst = t.idTracker ∧ e.snd = ({ id := t.idTracker, data := d, parent := some m, children := [] } :
        TreeNode T)) ∨
      (e.fst = m ∧ e.snd = { nm with children := nm.children ++ [t.idTracker] }) ∨
      (e.fst ≠ t.idTracker ∧ e.fst ≠ m ∧ t.lookupNode e.fst = some e.snd) := by
    intro e he
    have hl' := lookup_of_mem_nodup hnd' he
    rw [hlook e.fst] at hl'
    by_cases h1 : e.fst = t.idTracker
    · rw [if_pos h1] at hl'
      exact Or.inl ⟨h1, (Option.some.inj hl').symm⟩
    · rw [if_neg h1] at hl'
      by_cases h2 : e.fst = m
      · rw [if_pos h2] at hl'
        exact Or.inr (Or.inl ⟨h2, (Option.some.inj hl').symm⟩)
      · rw [if_neg h2] at hl'
        exact Or.inr (Or.inr ⟨h1, h2, hl'⟩)
  refine ⟨hnd', ?_, ?_, ?_, ?_, ?_, ?_⟩
  · intro e he
    rw [htr]
    rcases hdec2 e he with ⟨h1, _⟩ | ⟨h1, _⟩ | ⟨_, _, hl⟩
    · omega
    · rw [h1]; omega
    · have := hwf.idsBound hl
      omega
  · intro e he c hc
    rcases hdec2 e he with ⟨h1, h2⟩ | ⟨h1, h2⟩ | ⟨h1, h2, hl⟩
    · rw [h2] at hc
      simp at hc
    · rw [h2] at hc
      have hc' : c ∈ nm.children ++ [t.idTracker] := hc
      rcases List.mem_append.mp hc' with hcl | hcr
      · obtain ⟨cn, hcn, hcp⟩ := hwf.back hm hcl
        rw [hparmap c (hlive_ne hcn), hcn, h1]
        simp [hcp]
      · have hct : c = t.idTracker := by simpa using hcr
        rw [hct, hlook t.idTracker, if_pos rfl, h1]
        rfl
    · obtain ⟨cn, hcn, hcp⟩ := hwf.back hl hc
      rw [hparmap c (hlive_ne hcn), hcn]
      simp [hcp]
  · intro e he p hp
    rcases hdec2 e he with ⟨h1, h2⟩ | ⟨h1, h2⟩ | ⟨hne1, hne2, hl⟩
    · rw [h2] at hp
      have hpm : p = m := by simpa using hp
      rw [hpm, hlook m, if_neg hmt, if_pos rfl, h1]
      simp
    · rw [h2] at hp
      have hp2 : p ∈ nm.parent.toList := hp
      have hp' : nm.parent = some p := by
        cases hpp : nm.parent with
        | none => rw [hpp] at hp2; cases hp2
        | some p0 =>
          rw [hpp] at hp2
          have : p = p0 := by simpa using hp2
          rw [this]
      obtain ⟨pn, hpn, hm2⟩ := hwf.forward hm hp'
      have hpt : p ≠ t.idTracker := hlive_ne hpn
      have hpm : p ≠ m := by
        intro he'
        subst he'
        exact no_two_cycle hwf hm hp' hm hp'
      rw [hlook p, if_neg hpt, if_neg hpm, hpn, h1]
      simpa using hm2
    · have hp' : e.snd.parent = some p := by
        cases hpp : e.snd.parent with
        | none => rw [hpp] at hp; cases hp
        | some p0 =>
          rw [hpp] at hp
          have : p = p0 := by simpa using hp
          rw [this]
      obtain ⟨pn, hpn, hm2⟩ := hwf.forward hl hp'
      have hpt : p ≠ t.idTracker := hlive_ne hpn
      by_cases hpm : p = m
      · subst hpm
        rw [hpn] at hm
        have : pn = nm := (Option.some.inj hm.symm).symm
        subst this
        rw [hlook p, if_neg hpt, if_pos rfl]
        simp only [Option.elim]
        exact List.mem_append_left _ hm2
      · rw [hlook p, if_neg hpt, if_neg hpm, hpn]
        simpa using hm2
  · intro e he
    rcases hdec2 e he with ⟨_, h2⟩ | ⟨_, h2⟩ | ⟨_, _, hl⟩
    · rw [h2]
      simp
    · rw [h2]
      refine List.Nodup.append (hwf.childNodup hm) (by simp) ?_
      intro c hcl hcr
      have hct : c = t.idTracker := by simpa using hcr
      obtain ⟨cn, hcn, _⟩ := hwf.back hm hcl
      exact hlive_ne hcn hct
    · exact hwf.childNodup hl
  · intro r hr
    rw [hroot] at hr
    have hr0 : t.root = some r := by
      cases hr1 : t.root with
      | none => rw [hr1] at hr; cases hr
      | some r0 =>
        rw [hr1] at hr
        have : r = r0 := by simpa using hr
        rw [this]
    obtain ⟨rn, hrn, hrp⟩ := hwf.rootSpec hr0
    rw [hparmap r (hlive_ne hrn), hrn]
    simp [hrp]
  · intro e he
    rcases hdec2 e he with ⟨h1, h2⟩ | ⟨h1, h2⟩ | ⟨hne1, hne2, hl⟩
    · -- the fresh node: its chain is itself consed on the parent's chain
      obtain ⟨l, hup⟩ := Option.isSome_iff_exists.mp (hwf.upTerm hm)
      have hchain := upChain_isUpChain hup
      have hlen := chain_length_le hchain
      have htne : ∀ y ∈ l, y ≠ t.idTracker := by
        intro y hy
        obtain ⟨ny, hny⟩ := Option.isSome_iff_exists.mp (isUpChain_live hchain y hy)
        exact hlive_ne hny
      have hchain' := isUpChain_transfer hchain (fun y hy => hparmap y (htne y hy))
      have hlx : t'.lookupNode e.fst =
          some ({ id := t.idTracker, data := d, parent := some m, children := [] } :
            TreeNode T) := by
        rw [hlook e.fst, h1, if_pos rfl]
      have hstep : IsUpChain t' e.fst (e.fst :: l) := IsUpChain.step hlx rfl hchain'
      have hrun := isUpChain_run hstep
        (show (e.fst :: l).length ≤ t'.size + 1 by simp; rw [hsize]; omega)
      rw [hrun]
      rfl
    · obtain ⟨l, hup⟩ := Option.isSome_iff_exists.mp (hwf.upTerm hm)
      have hchain := upChain_isUpChain hup
      have hlen := chain_length_le hchain
      have htne : ∀ y ∈ l, y ≠ t.idTracker := by
        intro y hy
        obtain ⟨ny, hny⟩ := Option.isSome_iff_exists.mp (isUpChain_live hchain y hy)
        exact hlive_ne hny
      have hchain' := isUpChain_transfer hchain (fun y hy => hparmap y (htne y hy))
      have hrun := isUpChain_run hchain'
        (show l.length ≤ t'.size + 1 by rw [hsize]; omega)
      rw [h1, hrun]
      rfl
    · obtain ⟨l, hup⟩ := Option.isSome_iff_exists.mp (hwf.upTerm hl)
      have hchain := upChain_isUpChain hup
      have hlen := chain_length_le hchain
      have htne : ∀ y ∈ l, y ≠ t.idTracker := by
        intro y hy
        obtain ⟨ny, hny⟩ := Option.isSome_iff_exists.mp (isUpChain_live hchain y hy)
        exact hlive_ne hny
      have hchain' := isUpChain_transfer hchain (fun y hy => hparmap y (htne y hy))
      have hrun := isUpChain_run hchain'
        (show l.length ≤ t'.size + 1 by rw [hsize]; omega)
      rw [hrun]
      rfl

/-- Inserting a child under a live `Nested` parent preserves the
literal-leaf discipline. -/
theorem insert_preserves_LitLeaves {t t' : NumberTree} (hll : LitLeaves t)
    {d : NumberType} {m newId : Nat} {nm : TreeNode NumberType}
    (hm : t.lookupNode m = some nm) (hlt : m < t.idTracker)
    (hnd : (t.nodes.map Prod.fst).Nodup) (hnested : nm.data = NumberType.Nested)
    (hins : t.insert d (some m) = some (newId, t')) : LitLeaves t' := by
  obtain ⟨t2, hins2, _, _, _, hnodes, _⟩ := insert_spec (d := d) hm hlt
  rw [hins] at hins2
  have h2 : t' = t2 := congrArg Prod.snd (Option.some.inj hins2)
  subst h2
  intro e he
  rw [hnodes] at he
  obtain ⟨e0, he0, heq⟩ := List.mem_map.mp he
  subst heq
  rcases List.mem_cons.mp he0 with he0 | he0
  · subst he0
    rw [if_neg (by simp; omega)]
    intro hne
    simp at hne
  · by_cases hc : e0.fst = m
    · rw [if_pos hc]
      intro _
      have hl0 := lookup_of_mem_nodup hnd he0
      rw [hc, hm] at hl0
      have hee : nm = e0.snd := Option.some.inj hl0
      show e0.snd.data = NumberType.Nested
      rw [← hee]
      exact hnested
    · rw [if_neg hc]
      exact hll e0 he0

theorem descendLast_childless {t : Tree T} :
    ∀ {f x m : Nat}, t.descendLast f x = some m →
      ∃ nm, t.lookupNode m = some nm ∧ nm.children = [] := by
  intro f
  induction f with
  | zero => intro x m h; simp [Tree.descendLast] at h
  | succ f ih =>
    intro x m h
    cases hx : t.lookupNode x with
    | none => simp [Tree.descendLast, hx] at h
    | some n =>
      cases hc : n.children.getLast? with
      | none =>
        simp only [Tree.descendLast, hx, hc] at h
        cases h
        refine ⟨n, hx, ?_⟩
        cases hcl : n.children with
        | nil => rfl
        | cons c0 cs =>
          rw [hcl] at hc
          simp at hc
      | some c =>
        simp only [Tree.descendLast, hx, hc] at h
        exact ih h

theorem descendFirst_childless {t : Tree T} :
    ∀ {f x m : Nat}, t.descendFirst f x = some m →
      ∃ nm, t.lookupNode m = some nm ∧ nm.children = [] := by
  intro f
  induction f with
  | zero => intro x m h; simp [Tree.descendFirst] at h
  | succ f ih =>
    intro x m h
    cases hx : t.lookupNode x with
    | none => simp [Tree.descendFirst, hx] at h
    | some n =>
      cases hc : n.children.head? with
      | none =>
        simp only [Tree.descendFirst, hx, hc] at h
        cases h
        refine ⟨n, hx, ?_⟩
        cases hcl : n.children with
        | nil => rfl
        | cons c0 cs =>
          rw [hcl] at hc
          simp at hc
      | some c =>
        simp only [Tree.descendFirst, hx, hc] at h
        exact ih h

theorem lnl_childless {t : Tree T} {f x m : Nat}
    (h : t.leftNeighborLeaf f x = some (some m)) :
    ∃ nm, t.lookupNode m = some nm ∧ nm.children = [] := by
  rw [Tree.leftNeighborLeaf] at h
  cases hn : t.leftNeighborNode f x with
  | none => rw [hn] at h; cases h
  | some o =>
    cases o with
    | none => rw [hn] at h; simp at h
    | some nb =>
      rw [hn] at h
      obtain ⟨m', hm', he⟩ := Option.map_eq_some'.mp h
      have : m' = m := Option.some.inj he
      subst this
      exact descendLast_childless hm'

theorem rnl_childless {t : Tree T} {f x m : Nat}
    (h : t.rightNeighborLeaf f x = some (some m)) :
    ∃ nm, t.lookupNode m = some nm ∧ nm.children = [] := by
  rw [Tree.rightNeighborLeaf] at h
  cases hn : t.rightNeighborNode f x with
  | none => rw [hn] at h; cases h
  | some o =>
    cases o with
    | none => rw [hn] at h; simp at h
    | some nb =>
      rw [hn] at h
      obtain ⟨m', hm', he⟩ := Option.map_eq_some'.mp h
      have : m' = m := Option.some.inj he
      subst this
      exact descendFirst_childless hm'

/-- A neighbor-addition stage of `explode` (either no change, or a
data-only write to a childless node) preserves the invariants and every
node's links. -/
theorem dataStage_preserves {t t1 : NumberTree} (hwf : t.WF) (hll : LitLeaves t)
    (hstage : t1 = t ∨ ∃ m vm nm, t.lookupNode m = some nm ∧ nm.children = [] ∧
      t.modifyNode m (fun n => { n with data := NumberType.Number vm }) = some t1) :
    t1.WF ∧ LitLeaves t1 ∧
    (∀ j, (t1.lookupNode j).map TreeNode.parent = (t.lookupNode j).map TreeNode.parent) ∧
    (∀ j, (t1.lookupNode j).map TreeNode.children = (t.lookupNode j).map TreeNode.children) ∧
    t1.size = t.size ∧ t1.root = t.root ∧ t1.idTracker = t.idTracker := by
  rcases hstage with rfl | ⟨m, vm, nm, hm, hchm, hmod⟩
  · exact ⟨hwf, hll, fun j => rfl, fun j => rfl, rfl, rfl, rfl⟩
  · refine ⟨modifyData_preserves_WF hwf hmod, ?_, fun j => (modifyData_maps hmod j).1,
      fun j => (modifyData_maps hmod j).2, (modifyNode_root hmod).2.2,
      (modifyNode_root hmod).1, (modifyNode_root hmod).2.1⟩
    apply modifyData_preserves_LitLeaves hll hmod
    right
    intro e0 he0 hfst
    have hl0 := lookup_of_mem_nodup hwf.keysNodup he0
    rw [hfst, hm] at hl0
    have hee := Option.some.inj hl0
    rw [← hee]
    exact hchm

/-- The removal-and-zeroing tail of `explode` preserves the invariants. -/
theorem explode_tail_preserves {t2 : NumberTree} (hwf2 : t2.WF) (hll2 : LitLeaves t2)
    {idn a b : Nat} {na2 nb2 nid2 : TreeNode NumberType}
    (hid2 : t2.lookupNode idn = some nid2) (hchid : nid2.children = [a, b])
    (ha2 : t2.lookupNode a = some na2) (hcha : na2.children = []) (hpa : na2.parent = some idn)
    (hb2 : t2.lookupNode b = some nb2) (hchb : nb2.children = []) (hpb : nb2.parent = some idn)
    (hab : a ≠ b) {t3 t4 t' : NumberTree}
    (hrem3 : t2.remove a = some t3) (hrem4 : t3.remove b = some t4)
    (hmod5 : t4.modifyNode idn (fun n => { n with data := NumberType.Number 0 }) = some t') :
    t'.WF ∧ LitLeaves t' := by
  have hbid : b ≠ idn := by
    intro he
    subst he
    rw [hb2] at hid2
    cases hid2
    exact no_two_cycle hwf2 hb2 hpb hb2 hpb
  have haid : a ≠ idn := by
    intro he
    subst he
    rw [ha2] at hid2
    cases hid2
    exact no_two_cycle hwf2 ha2 hpa ha2 hpa
  obtain ⟨t3', hrem3', hnone3, _, hpar3, hframe3⟩ := remove_spec hwf2 ha2
  rw [hrem3] at hrem3'
  cases hrem3'
  have hwf3 : t3.WF := remove_preserves_WF hwf2 ha2 hcha hpa hrem3
  have hll3 : LitLeaves t3 := remove_preserves_LitLeaves hll2 hrem3
  have hb3 : t3.lookupNode b = some nb2 := by
    rw [hframe3 b (Ne.symm hab)
      (fun p hp => by rw [hpa] at hp; cases hp; exact hbid)]
    exact hb2
  have hid3 : t3.lookupNode idn = some { nid2 with children := nid2.children.erase a } :=
    hpar3 idn hpa nid2 hid2
  have hwf4 : t4.WF := remove_preserves_WF hwf3 hb3 hchb hpb hrem4
  have hll4 : LitLeaves t4 := remove_preserves_LitLeaves hll3 hrem4
  obtain ⟨t4', hrem4', hnone4, _, hpar4, hframe4⟩ := remove_spec hwf3 hb3
  rw [hrem4] at hrem4'
  cases hrem4'
  have hid4 : t4.lookupNode idn =
      some { { nid2 with children := nid2.children.erase a } with
        children := ((nid2.children.erase a).erase b) } :=
    hpar4 idn hpb _ hid3
  have hcid4 : ((nid2.children.erase a).erase b) = [] := by
    rw [hchid, List.erase_cons_head, List.erase_cons_head]
  refine ⟨modifyData_preserves_WF hwf4 hmod5, ?_⟩
  apply modifyData_preserves_LitLeaves hll4 hmod5
  right
  intro e0 he0 hfst
  have hl0 := lookup_of_mem_nodup hwf4.keysNodup he0
  rw [hfst, hid4] at hl0
  have hee := Option.some.inj hl0
  rw [← hee]
  exact hcid4

/-- Transfer of a lookup along preserved link maps. -/
theorem maps_lookup_transfer {T : Type} {t t2 : Tree T}
    (hpar : ∀ j, (t2.lookupNode j).map TreeNode.parent =
      (t.lookupNode j).map TreeNode.parent)
    (hchn : ∀ j, (t2.lookupNode j).map TreeNode.children =
      (t.lookupNode j).map TreeNode.children)
    {j : Nat} {n : TreeNode T} (hj : t.lookupNode j = some n) :
    ∃ n2, t2.lookupNode j = some n2 ∧ n2.parent = n.parent ∧ n2.children = n.children := by
  have h1 := hpar j
  have h2 := hchn j
  rw [hj] at h1 h2
  obtain ⟨n2, hn2, hp⟩ := Option.map_eq_some'.mp h1
  rw [hn2] at h2
  have hc := Option.some.inj h2
  exact ⟨n2, hn2, hp, hc⟩


/-- Well-formedness facts transported to the post-neighbor-update tree. -/
theorem explode_t2_facts {t t2 : NumberTree}
    (hpar : ∀ j, (t2.lookupNode j).map TreeNode.parent =
      (t.lookupNode j).map TreeNode.parent)
    (hchn : ∀ j, (t2.lookupNode j).map TreeNode.children =
      (t.lookupNode j).map TreeNode.children)
    {idn a b : Nat} {node na nb : TreeNode NumberType}
    (hid : t.lookupNode idn = some node) (hch : node.children = [a, b])
    (hna : t.lookupNode a = some na) (hcha : na.children = []) (hpa : na.parent = some idn)
    (hnb : t.lookupNode b = some nb) (hchb : nb.children = []) (hpb : nb.parent = some idn) :
    ∃ nid2 na2 nb2, t2.lookupNode idn = some nid2 ∧ nid2.children = [a, b] ∧
      t2.lookupNode a = some na2 ∧ na2.children = [] ∧ na2.parent = some idn ∧
      t2.lookupNode b = some nb2 ∧ nb2.children = [] ∧ nb2.parent = some idn ∧
      nid2.parent = node.parent := by
  obtain ⟨nid2, h1, h2, h3⟩ := maps_lookup_transfer hpar hchn hid
  obtain ⟨na2, h4, h5, h6⟩ := maps_lookup_transfer hpar hchn hna
  obtain ⟨nb2, h7, h8, h9⟩ := maps_lookup_transfer hpar hchn hnb
  exact ⟨nid2, na2, nb2, h1, by rw [h3, hch], h4, by rw [h6, hcha], by rw [h5, hpa],
    h7, by rw [h9, hchb], by rw [h8, hpb], h2⟩

/-- The removal-and-zeroing tail of `explode`, in bind form. -/
theorem explode_bind_tail {t2 : NumberTree} (hwf2 : t2.WF) (hll2 : LitLeaves t2)
    {idn a b : Nat} {nid2 na2 nb2 : TreeNode NumberType}
    (hid2 : t2.lookupNode idn = some nid2) (hchid : nid2.children = [a, b])
    (ha2 : t2.lookupNode a = some na2) (hcha : na2.children = []) (hpa : na2.parent = some idn)
    (hb2 : t2.lookupNode b = some nb2) (hchb : nb2.children = []) (hpb : nb2.parent = some idn)
    (hab : a ≠ b) {t' : NumberTree}
    (h : Option.bind (t2.remove a) (fun t3 => Option.bind (t3.remove b)
      (fun t4 => t4.modifyNode idn (fun n => { n with data := NumberType.Number 0 }))) =
      some t') :
    t'.WF ∧ LitLeaves t' := by
  cases hrem3 : t2.remove a with
  | none => rw [hrem3] at h; simp at h
  | some t3 =>
    simp only [hrem3, Option.bind] at h
    cases hrem4 : t3.remove b with
    | none => rw [hrem4] at h; simp at h
    | some t4 =>
      simp only [hrem4, Option.bind] at h
      exact explode_tail_preserves hwf2 hll2 hid2 hchid ha2 hcha hpa hb2 hchb hpb hab
        hrem3 hrem4 h

/-- `SnailfishNumber::explode` preserves well-formedness and the
literal-leaf discipline. -/
theorem explode_preserves {t t' : NumberTree} (hwf : t.WF) (hll : LitLeaves t) {idn : Nat}
    (h : explode t idn = some t') : t'.WF ∧ LitLeaves t' := by
  rw [explode] at h
  cases hid : t.lookupNode idn with
  | none => simp [hid, bind, Option.bind] at h
  | some node =>
    simp only [hid, bind, Option.bind] at h
    cases hch0 : node.children with
    | nil => simp [hch0] at h
    | cons a rest =>
      cases rest with
      | nil => simp [hch0] at h
      | cons b rest2 =>
        cases rest2 with
        | cons c rest3 => simp [hch0] at h
        | nil =>
          simp only [hch0] at h
          simp only [show (2 : Nat) ^ 8 = 256 from rfl] at h
          have hch : node.children = [a, b] := hch0
          cases hda : t.nodeData a with
          | none => simp [hda, bind, Option.bind] at h
          | some da =>
            simp only [hda, bind, Option.bind] at h
            cases hva : da.numberVal with
            | none => simp [hva] at h
            | some va =>
              simp only [hva] at h
              cases hdb : t.nodeData b with
              | none => simp [hdb, bind, Option.bind] at h
              | some db =>
                simp only [hdb, bind, Option.bind] at h
                cases hvb : db.numberVal with
                | none => simp [hvb] at h
                | some vb =>
                  simp only [hvb] at h
                  obtain ⟨na, hna, hdna⟩ : ∃ na, t.lookupNode a = some na ∧ na.data = da := by
                    rw [Tree.nodeData] at hda
                    obtain ⟨na, h1, h2⟩ := Option.map_eq_some'.mp hda
                    exact ⟨na, h1, h2⟩
                  obtain ⟨nb, hnb, hdnb⟩ : ∃ nb, t.lookupNode b = some nb ∧ nb.data = db := by
                    rw [Tree.nodeData] at hdb
                    obtain ⟨nb, h1, h2⟩ := Option.map_eq_some'.mp hdb
                    exact ⟨nb, h1, h2⟩
                  have hdaNum : da = NumberType.Number va := by
                    cases da with
                    | Number k => rw [NumberType.numberVal] at hva; cases hva; rfl
                    | Nested => rw [NumberType.numberVal] at hva; cases hva
                  have hdbNum : db = NumberType.Number vb := by
                    cases db with
                    | Number k => rw [NumberType.numberVal] at hvb; cases hvb; rfl
                    | Nested => rw [NumberType.numberVal] at hvb; cases hvb
                  have hcha : na.children = [] := by
                    by_contra hne
                    have := hll (a, na) (lookupNode_mem hna) hne
                    rw [hdna, hdaNum] at this
                    cases this
                  have hchb : nb.children = [] := by
                    by_contra hne
                    have := hll (b, nb) (lookupNode_mem hnb) hne
                    rw [hdnb, hdbNum] at this
                    cases this
                  obtain ⟨na', hna', hpa⟩ := hwf.back (c := a) hid (by rw [hch]; simp)
                  rw [hna] at hna'
                  cases hna'
                  obtain ⟨nb', hnb', hpb⟩ := hwf.back (c := b) hid (by rw [hch]; simp)
                  rw [hnb] at hnb'
                  cases hnb'
                  have hab : a ≠ b := by
                    have hnd := hwf.childNodup hid
                    rw [hch] at hnd
                    simp at hnd
                    exact hnd
                  cases hlnl : t.leftNeighborLeaf (t.size + 1) a with
                  | none => simp [hlnl] at h
                  | some ol =>
                    cases ol with
                    | none =>
                      simp only [hlnl, bind, Option.bind] at h
                      cases hrnl : t.rightNeighborLeaf (t.size + 1) b with
                      | none => simp [hrnl] at h
                      | some o2 =>
                        cases o2 with
                        | none =>
                          simp only [hrnl, bind, Option.bind] at h
                          obtain ⟨nid2, na2, nb2, f1, f2, f3, f4, f5, f6, f7, f8, -⟩ :=
                            explode_t2_facts (fun j => rfl) (fun j => rfl) hid hch hna hcha hpa hnb hchb hpb
                          exact explode_bind_tail hwf hll f1 f2 f3 f4 f5 f6 f7 f8 hab h
                        | some mR =>
                          simp only [hrnl, bind, Option.bind] at h
                          cases hdm2 : t.nodeData mR with
                          | none => simp [hdm2, bind, Option.bind] at h
                          | some dm2 =>
                            simp only [hdm2, bind, Option.bind] at h
                            cases hvm2 : dm2.numberVal with
                            | none => simp [hvm2] at h
                            | some vm2 =>
                              simp only [hvm2] at h
                              cases hmod2 : t.modifyNode mR
                                  (fun n => { id := n.id, data := NumberType.Number ((vm2 + vb) % 256), parent := n.parent, children := n.children }) with
                              | none => simp [hmod2] at h
                              | some t2 =>
                                simp only [hmod2, Option.bind] at h
                                obtain ⟨nmR, hnmR, hchmR⟩ := rnl_childless hrnl
                                obtain ⟨hwf2, hll2, hpar2, hchn2, _, _, _⟩ :=
                                  dataStage_preserves hwf hll
                                    (Or.inr ⟨mR, (vm2 + vb) % 256, nmR, hnmR, hchmR, hmod2⟩)
                                obtain ⟨nid2, na2, nb2, f1, f2, f3, f4, f5, f6, f7, f8, -⟩ :=
                                  explode_t2_facts (fun j => (hpar2 j).trans ((fun j => rfl) j))
                                    (fun j => (hchn2 j).trans ((fun j => rfl) j)) hid hch hna hcha hpa hnb hchb hpb
                                exact explode_bind_tail hwf2 hll2 f1 f2 f3 f4 f5 f6 f7 f8 hab h
                    | some mL =>
                      simp only [hlnl, bind, Option.bind] at h
                      cases hdm1 : t.nodeData mL with
                      | none => simp [hdm1, bind, Option.bind] at h
                      | some dm1 =>
                        simp only [hdm1, bind, Option.bind] at h
                        cases hvm1 : dm1.numberVal with
                        | none => simp [hvm1] at h
                        | some vm1 =>
                          simp only [hvm1] at h
                          cases hmod1 : t.modifyNode mL
                              (fun n => { id := n.id, data := NumberType.Number ((vm1 + va) % 256), parent := n.parent, children := n.children }) with
                          | none => simp [hmod1] at h
                          | some t1 =>
                            simp only [hmod1, Option.bind] at h
                            obtain ⟨nmL, hnmL, hchmL⟩ := lnl_childless hlnl
                            obtain ⟨hwf1, hll1, hpar1, hchn1, _, _, _⟩ :=
                              dataStage_preserves hwf hll
                                (Or.inr ⟨mL, (vm1 + va) % 256, nmL, hnmL, hchmL, hmod1⟩)
                            cases hrnl : t1.rightNeighborLeaf (t1.size + 1) b with
                            | none => simp [hrnl] at h
                            | some o2 =>
                              cases o2 with
                              | none =>
                                simp only [hrnl, bind, Option.bind] at h
                                obtain ⟨nid2, na2, nb2, f1, f2, f3, f4, f5, f6, f7, f8, -⟩ :=
                                  explode_t2_facts hpar1 hchn1 hid hch hna hcha hpa hnb hchb hpb
                                exact explode_bind_tail hwf1 hll1 f1 f2 f3 f4 f5 f6 f7 f8 hab h
                              | some mR =>
                                simp only [hrnl, bind, Option.bind] at h
                                cases hdm2 : t1.nodeData mR with
                                | none => simp [hdm2, bind, Option.bind] at h
                                | some dm2 =>
                                  simp only [hdm2, bind, Option.bind] at h
                                  cases hvm2 : dm2.numberVal with
                                  | none => simp [hvm2] at h
                                  | some vm2 =>
                                    simp only [hvm2] at h
                                    cases hmod2 : t1.modifyNode mR
                                        (fun n => { id := n.id, data := NumberType.Number ((vm2 + vb) % 256), parent := n.parent, children := n.children }) with
                                    | none => simp [hmod2] at h
                                    | some t2 =>
                                      simp only [hmod2, Option.bind] at h
                                      obtain ⟨nmR, hnmR, hchmR⟩ := rnl_childless hrnl
                                      obtain ⟨hwf2, hll2, hpar2, hchn2, _, _, _⟩ :=
                                        dataStage_preserves hwf1 hll1
                                          (Or.inr ⟨mR, (vm2 + vb) % 256, nmR, hnmR, hchmR, hmod2⟩)
                                      obtain ⟨nid2, na2, nb2, f1, f2, f3, f4, f5, f6, f7, f8, -⟩ :=
                                        explode_t2_facts (fun j => (hpar2 j).trans (hpar1 j))
                                          (fun j => (hchn2 j).trans (hchn1 j)) hid hch hna hcha hpa hnb hchb hpb
                                      exact explode_bind_tail hwf2 hll2 f1 f2 f3 f4 f5 f6 f7 f8 hab h

/-- `SnailfishNumber::split` preserves well-formedness and the
literal-leaf discipline. -/
theorem split_preserves {t t' : NumberTree} (hwf : t.WF) (hll : LitLeaves t) {idn : Nat}
    (h : split t idn = some t') : t'.WF ∧ LitLeaves t' := by
  rw [split] at h
  cases hid : t.lookupNode idn with
  | none => simp [hid, bind, Option.bind] at h
  | some node =>
    simp only [hid, bind, Option.bind] at h
    cases hnv : node.data.numberVal with
    | none => simp [hnv] at h
    | some n =>
      simp only [hnv] at h
      cases hmod : t.modifyNode idn (fun nd => { nd with data := NumberType.Nested }) with
      | none => simp [hmod] at h
      | some t1 =>
        simp only [hmod, Option.bind] at h
        have hwf1 := modifyData_preserves_WF hwf hmod
        have hll1 := modifyData_preserves_LitLeaves hll hmod (Or.inl rfl)
        have hl1 : t1.lookupNode idn = some { node with data := NumberType.Nested } := by
          rw [lookupNode_modifyNode hmod idn, if_pos rfl, hid]
          rfl
        obtain ⟨t2, hins1, hroot2, htr2, hsize2, hnodes2, hlook2⟩ :=
          insert_spec (d := NumberType.Number (n / 2)) hl1 (hwf1.idsBound hl1)
        rw [hins1] at h
        simp only [Option.bind] at h
        have hwf2 := insert_preserves_WF hwf1 hl1 hins1
        have hll2 := insert_preserves_LitLeaves hll1 hl1 (hwf1.idsBound hl1)
          hwf1.keysNodup rfl hins1
        have hl2 : t2.lookupNode idn = some { { node with data := NumberType.Nested } with
            children := ({ node with data := NumberType.Nested } :
              TreeNode NumberType).children ++ [t1.idTracker] } := by
          rw [hlook2 idn, if_neg (by have := hwf1.idsBound hl1; omega), if_pos rfl]
        obtain ⟨t3, hins2, _, _, _, _, _⟩ :=
          insert_spec (d := NumberType.Number (((n + 1) % 2 ^ 8) / 2)) hl2 (hwf2.idsBound hl2)
        rw [hins2] at h
        simp only [Option.bind] at h
        cases h
        exact ⟨insert_preserves_WF hwf2 hl2 hins2,
          insert_preserves_LitLeaves hll2 hl2 (hwf2.idsBound hl2) hwf2.keysNodup rfl hins2⟩

/-- The reduction loop preserves well-formedness and the literal-leaf
discipline. -/
theorem reduceNumber_preserves :
    ∀ {fuel : Nat} {t t' : NumberTree}, t.WF → LitLeaves t →
      reduceNumber fuel t = some t' → t'.WF ∧ LitLeaves t' := by
  intro fuel
  induction fuel with
  | zero => intro t t' _ _ h; simp [reduceNumber] at h
  | succ fuel ih =>
    intro t t' hwf hll h
    cases hfn : findNestedPair t with
    | none => simp [reduceNumber, hfn] at h
    | some o =>
      cases o with
      | some nodeId =>
        simp only [reduceNumber, hfn] at h
        cases hex : explode t nodeId with
        | none => simp [hex] at h
        | some t1 =>
          simp only [hex] at h
          obtain ⟨hwf1, hll1⟩ := explode_preserves hwf hll hex
          exact ih hwf1 hll1 h
      | none =>
        simp only [reduceNumber, hfn] at h
        cases hfb : findBigPair t with
        | none => simp [hfb] at h
        | some o2 =>
          cases o2 with
          | some nodeId =>
            simp only [hfb] at h
            cases hsp : split t nodeId with
            | none => simp [hsp] at h
            | some t1 =>
              simp only [hsp] at h
              obtain ⟨hwf1, hll1⟩ := split_preserves hwf hll hsp
              exact ih hwf1 hll1 h
          | none =>
            simp only [hfb] at h
            cases h
            exact ⟨hwf, hll⟩

end PreserveLemmas

/-! ### C2: the reduction fixed-point invariant -/

/-- C2: for every well-formed snailfish tree obeying the literal-leaf
discipline, when the reduction loop `reduce_number` terminates, the
resulting tree contains no pair node at nesting depth ≥ 4 below the root
(root at depth 0) with two literal children, and no literal leaf reachable
from the root holds a value ≥ 10 (equivalently, every leaf value is at
most 9). -/
theorem claim_c2 (t t' : NumberTree) (fuel : Nat) (hwf : t.WF) (hll : LitLeaves t)
    (hred : reduceNumber fuel t = some t') :
    (¬ ∃ y d ny a b na nb va vb, ReachesAt t' y d ∧ 4 ≤ d ∧
      t'.lookupNode y = some ny ∧ ny.data = NumberType.Nested ∧ ny.children = [a, b] ∧
      t'.lookupNode a = some na ∧ na.data = NumberType.Number va ∧
      t'.lookupNode b = some nb ∧ nb.data = NumberType.Number vb) ∧
    (∀ y d ny v, ReachesAt t' y d → t'.lookupNode y = some ny →
      ny.data = NumberType.Number v → v ≤ 9) := by
  obtain ⟨hwf', hll'⟩ := reduceNumber_preserves hwf hll hred
  obtain ⟨hfn, hfb⟩ := reduceNumber_fixed hred
  constructor
  · rintro ⟨y, d, ny, a, b, na, nb, va, vb, ⟨r, hroot, hdesc⟩, hd4, hy, hnest, -, -, -, -, -⟩
    simp only [findNestedPair, hroot] at hfn
    obtain ⟨w, hw1, hw2⟩ := DescN.split hdesc hd4
    have h4 : (4 : Nat) = 3 + 1 := rfl
    rw [h4] at hw1
    by_cases hde : d = 4
    · subst hde
      have hz : (4 : Nat) - 4 = 0 := rfl
      rw [hz] at hw2
      cases hw2
      exact (fnp_complete hll' hfn hw1 hy hnest).1 rfl
    · have hpos : d - 4 = (d - 5) + 1 := by omega
      rw [hpos] at hw2
      obtain ⟨c, nw, hwl, hcm, -⟩ := DescN.head hw2
      have hwnest : nw.data = NumberType.Nested := by
        apply hll' (w, nw) (lookupNode_mem hwl)
        intro hempty
        rw [hempty] at hcm
        cases hcm
      exact (fnp_complete hll' hfn hw1 hwl hwnest).1 rfl
  · rintro y d ny v ⟨r, hroot, hdesc⟩ hy hv
    simp only [findBigPair, hroot] at hfb
    exact fbp_complete hll' hfb hdesc hy hv

/-- Witness for C2 on the parsed tree of `[1,2]` (already reduced: one
loop iteration confirms the fixed point). -/
theorem claim_c2_witness :
    pairTree.WF ∧ LitLeaves pairTree ∧ reduceNumber 1 pairTree = some pairTree ∧
    ((¬ ∃ y d ny a b na nb va vb, ReachesAt pairTree y d ∧ 4 ≤ d ∧
      pairTree.lookupNode y = some ny ∧ ny.data = NumberType.Nested ∧ ny.children = [a, b] ∧
      pairTree.lookupNode a = some na ∧ na.data = NumberType.Number va ∧
      pairTree.lookupNode b = some nb ∧ nb.data = NumberType.Number vb) ∧
    (∀ y d ny v, ReachesAt pairTree y d → pairTree.lookupNode y = some ny →
      ny.data = NumberType.Number v → v ≤ 9)) :=
  ⟨by decide, by decide, by decide,
    claim_c2 pairTree pairTree 1 (by decide) (by decide) (by decide)⟩

/-! ### Totality and structure-invariance of the neighbor walks -/

section WalkTotality

variable {T : Type}

/-- The sibling-walk of `left_neighbor_node` terminates within the length
of the ancestor chain. -/
theorem lnn_total {t : Tree T} (hwf : t.WF) :
    ∀ {x : Nat} {l : List Nat}, IsUpChain t x l → ∀ {fuel : Nat}, l.length ≤ fuel →
      (t.leftNeighborNode fuel x).isSome = true := by
  intro x l h
  induction h with
  | @last x n hx hp =>
    intro fuel hf
    cases fuel with
    | zero => simp at hf
    | succ f => simp [Tree.leftNeighborNode, hx, hp]
  | @step x p n l hx hp hl ih =>
    intro fuel hf
    cases fuel with
    | zero => simp at hf
    | succ f =>
      obtain ⟨pn, hpn, hmem⟩ := hwf.forward hx hp
      obtain ⟨i, hfind⟩ : ∃ i, pn.children.findIdx? (fun y => y = x) = some i :=
        ⟨_, List.findIdx?_eq_some_of_exists ⟨x, hmem, by simp⟩⟩
      have hfc : pn.findChild x = some i := hfind
      by_cases hi : 0 < i
      · have hilt : i < pn.children.length := findIdx?_lt_length hfind
        obtain ⟨c, hc⟩ : ∃ c, pn.children[i - 1]? = some c := by
          cases hg : pn.children[i - 1]? with
          | none =>
            have := List.getElem?_eq_none_iff.mp hg
            omega
          | some c => exact ⟨c, rfl⟩
        simp [Tree.leftNeighborNode, hx, hp, hpn, hfc, hi, hc]
      · have hrec := ih (show l.length ≤ f by simp at hf; omega)
        simp [Tree.leftNeighborNode, hx, hp, hpn, hfc, hi, hrec]

/-- The sibling-walk of `right_neighbor_node` terminates within the length
of the ancestor chain. -/
theorem rnn_total {t : Tree T} (hwf : t.WF) :
    ∀ {x : Nat} {l : List Nat}, IsUpChain t x l → ∀ {fuel : Nat}, l.length ≤ fuel →
      (t.rightNeighborNode fuel x).isSome = true := by
  intro x l h
  induction h with
  | @last x n hx hp =>
    intro fuel hf
    cases fuel with
    | zero => simp at hf
    | succ f => simp [Tree.rightNeighborNode, hx, hp]
  | @step x p n l hx hp hl ih =>
    intro fuel hf
    cases fuel with
    | zero => simp at hf
    | succ f =>
      obtain ⟨pn, hpn, hmem⟩ := hwf.forward hx hp
      obtain ⟨i, hfind⟩ : ∃ i, pn.children.findIdx? (fun y => y = x) = some i :=
        ⟨_, List.findIdx?_eq_some_of_exists ⟨x, hmem, by simp⟩⟩
      have hfc : pn.findChild x = some i := hfind
      by_cases hi : i < pn.children.length - 1
      · obtain ⟨c, hc⟩ : ∃ c, pn.children[i + 1]? = some c := by
          cases hg : pn.children[i + 1]? with
          | none =>
            have hlen2 := List.getElem?_eq_none_iff.mp hg
            have hilt : i < pn.children.length := findIdx?_lt_length hfind
            omega
          | some c => exact ⟨c, rfl⟩
        simp [Tree.rightNeighborNode, hx, hp, hpn, hfc, hi, hc]
      · have hrec := ih (show l.length ≤ f by simp at hf; omega)
        simp [Tree.rightNeighborNode, hx, hp, hpn, hfc, hi, hrec]

/-- A sibling returned by `left_neighbor_node` is live. -/
theorem lnn_result_live {t : Tree T} (hwf : t.WF) :
    ∀ {fuel x nb : Nat}, t.leftNeighborNode fuel x = some (some nb) →
      ∃ n, t.lookupNode nb = some n := by
  intro fuel
  induction fuel with
  | zero => intro x nb h; simp [Tree.leftNeighborNode] at h
  | succ f ih =>
    intro x nb h
    cases hx : t.lookupNode x with
    | none => simp [Tree.leftNeighborNode, hx] at h
    | some n =>
      cases hp : n.parent with
      | none => simp [Tree.leftNeighborNode, hx, hp] at h
      | some p =>
        cases hpl : t.lookupNode p with
        | none => simp [Tree.leftNeighborNode, hx, hp, hpl] at h
        | some pn =>
          cases hfc : pn.findChild x with
          | none => simp [Tree.leftNeighborNode, hx, hp, hpl, hfc] at h
          | some i =>
            by_cases hi : 0 < i
            · cases hg : pn.children[i - 1]? with
              | none => simp [Tree.leftNeighborNode, hx, hp, hpl, hfc, hi, hg] at h
              | some c =>
                simp [Tree.leftNeighborNode, hx, hp, hpl, hfc, hi, hg] at h
                subst h
                obtain ⟨cn, hcn, -⟩ := hwf.back hpl (List.getElem?_mem hg)
                exact ⟨cn, hcn⟩
            · simp only [Tree.leftNeighborNode, hx, hp, hpl, hfc, if_neg hi] at h
              exact ih h

/-- A sibling returned by `right_neighbor_node` is live. -/
theorem rnn_result_live {t : Tree T} (hwf : t.WF) :
    ∀ {fuel x nb : Nat}, t.rightNeighborNode fuel x = some (some nb) →
      ∃ n, t.lookupNode nb = some n := by
  intro fuel
  induction fuel with
  | zero => intro x nb h; simp [Tree.rightNeighborNode] at h
  | succ f ih =>
    intro x nb h
    cases hx : t.lookupNode x with
    | none => simp [Tree.rightNeighborNode, hx] at h
    | some n =>
      cases hp : n.parent with
      | none => simp [Tree.rightNeighborNode, hx, hp] at h
      | some p =>
        cases hpl : t.lookupNode p with
        | none => simp [Tree.rightNeighborNode, hx, hp, hpl] at h
        | some pn =>
          cases hfc : pn.findChild x with
          | none => simp [Tree.rightNeighborNode, hx, hp, hpl, hfc] at h
          | some i =>
            by_cases hi : i < pn.children.length - 1
            · cases hg : pn.children[i + 1]? with
              | none => simp [Tree.rightNeighborNode, hx, hp, hpl, hfc, hi, hg] at h
              | some c =>
                simp [Tree.rightNeighborNode, hx, hp, hpl, hfc, hi, hg] at h
                subst h
                obtain ⟨cn, hcn, -⟩ := hwf.back hpl (List.getElem?_mem hg)
                exact ⟨cn, hcn⟩
            · simp only [Tree.rightNeighborNode, hx, hp, hpl, hfc, if_neg hi] at h
              exact ih h

/-- The rightmost descent terminates on a well-formed tree (each step
lengthens the ancestor chain, which is bounded by the number of live
nodes). -/
theorem descendLast_total {t : Tree T} (hwf : t.WF) :
    ∀ {fuel x : Nat} {n : TreeNode T} {l : List Nat}, t.lookupNode x = some n →
      IsUpChain t x l → t.size + 1 ≤ l.length + fuel →
      (t.descendLast fuel x).isSome = true := by
  intro fuel
  induction fuel with
  | zero =>
    intro x n l hx hch hlen
    have := chain_length_le hch
    omega
  | succ f ih =>
    intro x n l hx hch hlen
    cases hc : n.children.getLast? with
    | none => simp [Tree.descendLast, hx, hc]
    | some c =>
      have hcm : c ∈ n.children := List.get?_mem (get?_of_getLast? hc)
      obtain ⟨cn, hcn, hcp⟩ := hwf.back hx hcm
      have hch' : IsUpChain t c (c :: l) := IsUpChain.step hcn hcp hch
      have hrec := ih hcn hch' (by simp; omega)
      simp [Tree.descendLast, hx, hc, hrec]

/-- The leftmost descent terminates on a well-formed tree. -/
theorem descendFirst_total {t : Tree T} (hwf : t.WF) :
    ∀ {fuel x : Nat} {n : TreeNode T} {l : List Nat}, t.lookupNode x = some n →
      IsUpChain t x l → t.size + 1 ≤ l.length + fuel →
      (t.descendFirst fuel x).isSome = true := by
  intro fuel
  induction fuel with
  | zero =>
    intro x n l hx hch hlen
    have := chain_length_le hch
    omega
  | succ f ih =>
    intro x n l hx hch hlen
    cases hc : n.children.head? with
    | none => simp [Tree.descendFirst, hx, hc]
    | some c =>
      have hcm : c ∈ n.children := by
        cases hcl : n.children with
        | nil => rw [hcl] at hc; cases hc
        | cons c0 cs =>
          rw [hcl] at hc
          have hcc : c0 = c := by simpa using hc
          subst hcc
          simp [hcl]
      obtain ⟨cn, hcn, hcp⟩ := hwf.back hx hcm
      have hch' : IsUpChain t c (c :: l) := IsUpChain.step hcn hcp hch
      have hrec := ih hcn hch' (by simp; omega)
      simp [Tree.descendFirst, hx, hc, hrec]

/-- `left_neighbor_leaf` never panics or diverges on a live node of a
well-formed tree when run with fuel `size + 1`. -/
theorem lnl_total {t : Tree T} (hwf : t.WF) {x : Nat} {n : TreeNode T}
    (hx : t.lookupNode x = some n) :
    (t.leftNeighborLeaf (t.size + 1) x).isSome = true := by
  obtain ⟨l, hup⟩ := Option.isSome_iff_exists.mp (hwf.upTerm hx)
  have hchain := upChain_isUpChain hup
  have hlen := chain_length_le hchain
  have h1 := lnn_total hwf hchain (show l.length ≤ t.size + 1 by omega)
  rw [Tree.leftNeighborLeaf]
  cases hn : t.leftNeighborNode (t.size + 1) x with
  | none => rw [hn] at h1; simp at h1
  | some o =>
    cases o with
    | none => rfl
    | some nb =>
      obtain ⟨nbn, hnbn⟩ := lnn_result_live hwf hn
      obtain ⟨l2, hup2⟩ := Option.isSome_iff_exists.mp (hwf.upTerm hnbn)
      have h2 := descendLast_total hwf hnbn (upChain_isUpChain hup2)
        (show t.size + 1 ≤ l2.length + (t.size + 1) by omega)
      obtain ⟨m, hm⟩ := Option.isSome_iff_exists.mp h2
      simp [hm]

/-- `right_neighbor_leaf` never panics or diverges on a live node of a
well-formed tree when run with fuel `size + 1`. -/
theorem rnl_total {t : Tree T} (hwf : t.WF) {x : Nat} {n : TreeNode T}
    (hx : t.lookupNode x = some n) :
    (t.rightNeighborLeaf (t.size + 1) x).isSome = true := by
  obtain ⟨l, hup⟩ := Option.isSome_iff_exists.mp (hwf.upTerm hx)
  have hchain := upChain_isUpChain hup
  have hlen := chain_length_le hchain
  have h1 := rnn_total hwf hchain (show l.length ≤ t.size + 1 by omega)
  rw [Tree.rightNeighborLeaf]
  cases hn : t.rightNeighborNode (t.size + 1) x with
  | none => rw [hn] at h1; simp at h1
  | some o =>
    cases o with
    | none => rfl
    | some nb =>
      obtain ⟨nbn, hnbn⟩ := rnn_result_live hwf hn
      obtain ⟨l2, hup2⟩ := Option.isSome_iff_exists.mp (hwf.upTerm hnbn)
      have h2 := descendFirst_total hwf hnbn (upChain_isUpChain hup2)
        (show t.size + 1 ≤ l2.length + (t.size + 1) by omega)
      obtain ⟨m, hm⟩ := Option.isSome_iff_exists.mp h2
      simp [hm]

/-- The sibling walk only reads `parent` and `children` links, so it is
unchanged by data-only updates. -/
theorem rnn_transfer {t t1 : Tree T}
    (hpar : ∀ j, (t1.lookupNode j).map TreeNode.parent =
      (t.lookupNode j).map TreeNode.parent)
    (hchn : ∀ j, (t1.lookupNode j).map TreeNode.children =
      (t.lookupNode j).map TreeNode.children) :
    ∀ (fuel x : Nat), t1.rightNeighborNode fuel x = t.rightNeighborNode fuel x := by
  intro fuel
  induction fuel with
  | zero => intro x; rfl
  | succ f ih =>
    intro x
    cases hx : t.lookupNode x with
    | none =>
      have hx1 : t1.lookupNode x = none := by
        have h1 := hpar x
        rw [hx] at h1
        simp only [Option.map_none'] at h1
        exact Option.map_eq_none'.mp h1
      simp [Tree.rightNeighborNode, hx, hx1]
    | some n =>
      obtain ⟨n1, hx1, hp1, hc1⟩ := maps_lookup_transfer hpar hchn hx
      simp only [Tree.rightNeighborNode, hx, hx1, hp1]
      cases hp : n.parent with
      | none => rfl
      | some p =>
        cases hpl : t.lookupNode p with
        | none =>
          have hpl1 : t1.lookupNode p = none := by
            have h1 := hpar p
            rw [hpl] at h1
            simp only [Option.map_none'] at h1
            exact Option.map_eq_none'.mp h1
          simp [hpl, hpl1]
        | some pn =>
          obtain ⟨pn1, hpl1, hpp1, hpc1⟩ := maps_lookup_transfer hpar hchn hpl
          simp only [hpl, hpl1]
          have hfc1 : pn1.findChild x = pn.findChild x := by
            rw [TreeNode.findChild, TreeNode.findChild, hpc1]
          rw [hfc1, hpc1]
          cases hfc : pn.findChild x with
          | none => rfl
          | some i =>
            by_cases hi : i < pn.children.length - 1
            · simp [hi]
            · simp [hi, ih p]

/-- The leftmost descent only reads `children` links. -/
theorem descendFirst_transfer {t t1 : Tree T}
    (hpar : ∀ j, (t1.lookupNode j).map TreeNode.parent =
      (t.lookupNode j).map TreeNode.parent)
    (hchn : ∀ j, (t1.lookupNode j).map TreeNode.children =
      (t.lookupNode j).map TreeNode.children) :
    ∀ (fuel x : Nat), t1.descendFirst fuel x = t.descendFirst fuel x := by
  intro fuel
  induction fuel with
  | zero => intro x; rfl
  | succ f ih =>
    intro x
    cases hx : t.lookupNode x with
    | none =>
      have hx1 : t1.lookupNode x = none := by
        have h1 := hpar x
        rw [hx] at h1
        simp only [Option.map_none'] at h1
        exact Option.map_eq_none'.mp h1
      simp [Tree.descendFirst, hx, hx1]
    | some n =>
      obtain ⟨n1, hx1, hp1, hc1⟩ := maps_lookup_transfer hpar hchn hx
      simp only [Tree.descendFirst, hx, hx1, hc1]
      cases hc : n.children.head? with
      | none => rfl
      | some c => simp [ih c]

/-- `right_neighbor_leaf` is unchanged by data-only updates. -/
theorem rnl_transfer {t t1 : Tree T}
    (hpar : ∀ j, (t1.lookupNode j).map TreeNode.parent =
      (t.lookupNode j).map TreeNode.parent)
    (hchn : ∀ j, (t1.lookupNode j).map TreeNode.children =
      (t.lookupNode j).map TreeNode.children)
    (fuel x : Nat) : t1.rightNeighborLeaf fuel x = t.rightNeighborLeaf fuel x := by
  rw [Tree.rightNeighborLeaf, Tree.rightNeighborLeaf, rnn_transfer hpar hchn fuel x]
  cases hn : t.rightNeighborNode fuel x with
  | none => rfl
  | some o =>
    cases o with
    | none => rfl
    | some nb => simp [descendFirst_transfer hpar hchn fuel nb]

end WalkTotality

/-! ### The explode search against the pre-order traversal -/

section DfsLemmas

theorem find?_append_of_some {α : Type} {p : α → Bool} :
    ∀ {l1 : List α} {a : α}, l1.find? p = some a → ∀ (l2 : List α),
      (l1 ++ l2).find? p = some a := by
  intro l1
  induction l1 with
  | nil => intro a h l2; cases h
  | cons x l1 ih =>
    intro a h l2
    by_cases hx : p x = true
    · rw [List.find?_cons_of_pos _ hx] at h
      rw [List.cons_append, List.find?_cons_of_pos _ hx]
      exact h
    · rw [List.find?_cons_of_neg _ hx] at h
      rw [List.cons_append, List.find?_cons_of_neg _ hx]
      exact ih h l2

theorem find?_append_of_none {α : Type} {p : α → Bool} :
    ∀ {l1 : List α}, l1.find? p = none → ∀ (l2 : List α),
      (l1 ++ l2).find? p = l2.find? p := by
  intro l1
  induction l1 with
  | nil => intro _ l2; rfl
  | cons x l1 ih =>
    intro h l2
    by_cases hx : p x = true
    · rw [List.find?_cons_of_pos _ hx] at h
      cases h
    · rw [List.find?_cons_of_neg _ hx] at h
      rw [List.cons_append, List.find?_cons_of_neg _ hx]
      exact ih h l2

/-- Entries of a completed `dfsChildren` pass come from some child's
subtree list. -/
theorem dfsChildren_mem {rec : Nat → Option (List (Nat × Nat))} :
    ∀ {cs : List Nat} {Ls : List (Nat × Nat)}, dfsChildren rec cs = some Ls →
      ∀ p ∈ Ls, ∃ c ∈ cs, ∃ r, rec c = some r ∧ p ∈ r := by
  intro cs
  induction cs with
  | nil =>
    intro Ls h p hp
    cases h
    cases hp
  | cons c0 cs ihc =>
    intro Ls h p hp
    rw [dfsChildren] at h
    cases hr : rec c0 with
    | none => simp [hr, bind, Option.bind] at h
    | some r0 =>
      simp only [hr, bind, Option.bind] at h
      cases hrs : dfsChildren rec cs with
      | none => simp [hrs] at h
      | some rs =>
        simp only [hrs] at h
        cases h
        rcases List.mem_append.mp hp with h1 | h2
        · exact ⟨c0, by simp, r0, hr, h1⟩
        · obtain ⟨c, hc, r, hrr, hpr⟩ := ihc hrs p h2
          exact ⟨c, by simp [hc], r, hrr, hpr⟩

/-- Soundness of the pre-order traversal: every listed entry is reachable
from the traversal root at its recorded depth. -/
theorem dfs_sound {t : NumberTree} :
    ∀ {f x ℓ : Nat} {L : List (Nat × Nat)}, dfsRec t f x ℓ = some L →
      ∀ p ∈ L, ∃ k, p.snd = ℓ + k ∧ DescN t x k p.fst := by
  intro f
  induction f with
  | zero =>
    intro x ℓ L h
    simp [dfsRec] at h
  | succ f ih =>
    intro x ℓ L h
    cases hx : t.lookupNode x with
    | none => simp [dfsRec, hx] at h
    | some n =>
      simp only [dfsRec, hx] at h
      obtain ⟨Ls, hLs, rfl⟩ := Option.map_eq_some'.mp h
      intro p hp
      rcases List.mem_cons.mp hp with rfl | hp'
      · exact ⟨0, rfl, DescN.zero x⟩
      · obtain ⟨c, hc, r, hrr, hpr⟩ := dfsChildren_mem hLs p hp'
        obtain ⟨k, hk, hD⟩ := ih hrr p hpr
        have hD1 : DescN t x 1 c := DescN.succ (DescN.zero x) hx hc
        have hD2 : DescN t x (1 + k) p.fst := DescN.trans_left hD1 hD
        exact ⟨k + 1, by omega, by rwa [Nat.add_comm] at hD2⟩

/-- Entries of a completed whole-tree traversal sit at their depth. -/
theorem dfsList_sound {t : NumberTree} {f : Nat} {L : List (Nat × Nat)}
    (h : dfsList t f = some L) : ∀ p ∈ L, ReachesAt t p.fst p.snd := by
  rw [dfsList] at h
  cases hr : t.root with
  | none =>
    simp only [hr] at h
    cases h
    intro p hp
    cases hp
  | some r =>
    simp only [hr] at h
    intro p hp
    obtain ⟨k, hk, hD⟩ := dfs_sound h p hp
    refine ⟨r, hr, ?_⟩
    rw [hk]
    simpa using hD

/-- The explode search equals the first pre-order hit of "`Nested` at
depth label 4", child-loop version:  both loops walk the same child lists
in the same order (the search skips literal children, whose subtrees are
empty under the literal-leaf discipline). -/
theorem fnp_dfs_loop {t : NumberTree} (hll : LitLeaves t) :
    ∀ {f : Nat} {cs : List Nat} {ℓ : Nat} {Ls : List (Nat × Nat)},
      dfsChildren (fun c => dfsRec t f c ℓ) cs = some Ls →
      fnpChildren t ℓ (fun c => findNestedPairRec t f (ℓ + 1) c) cs =
        some ((Ls.find? (nestedAtFour t)).map Prod.fst) := by
  intro f
  induction f with
  | zero =>
    intro cs ℓ Ls h
    cases cs with
    | nil =>
      cases h
      rfl
    | cons c0 cs' =>
      rw [dfsChildren] at h
      simp [dfsRec, bind, Option.bind] at h
  | succ f ihf =>
    intro cs
    induction cs with
    | nil =>
      intro ℓ Ls h
      cases h
      rfl
    | cons c0 cs' ihc =>
      intro ℓ Ls h
      rw [dfsChildren] at h
      cases hr : dfsRec t (f + 1) c0 ℓ with
      | none => simp [hr, bind, Option.bind] at h
      | some Lc =>
        simp only [hr, bind, Option.bind] at h
        cases hrs : dfsChildren (fun c => dfsRec t (f + 1) c ℓ) cs' with
        | none => simp [hrs] at h
        | some Lrest =>
          simp only [hrs] at h
          cases h
          cases hc0 : t.lookupNode c0 with
          | none => simp [dfsRec, hc0] at hr
          | some nc0 =>
            simp only [dfsRec, hc0] at hr
            obtain ⟨Lc', hLc', rfl⟩ := Option.map_eq_some'.mp hr
            simp only [fnpChildren, hc0]
            by_cases hnest : nc0.data = NumberType.Nested
            · by_cases hl4 : ℓ = 4
              · rw [if_pos hnest, if_pos hl4]
                rw [List.cons_append, List.find?_cons_of_pos _
                  (by simp [nestedAtFour, hl4, Tree.nodeData, hc0, hnest])]
                rfl
              · rw [if_pos hnest, if_neg hl4]
                have hrec : findNestedPairRec t (f + 1) (ℓ + 1) c0 =
                    some ((Lc'.find? (nestedAtFour t)).map Prod.fst) := by
                  simp only [findNestedPairRec, hc0]
                  exact ihf hLc'
                rw [hrec]
                rw [List.cons_append, List.find?_cons_of_neg _
                  (by simp [nestedAtFour, hl4])]
                cases hf1 : Lc'.find? (nestedAtFour t) with
                | some pr =>
                  rw [find?_append_of_some hf1]
                  rfl
                | none =>
                  rw [find?_append_of_none hf1]
                  exact ihc hrs
            · rw [if_neg hnest]
              have hch0 : nc0.children = [] := by
                by_contra hne
                exact hnest (hll (c0, nc0) (lookupNode_mem hc0) hne)
              rw [hch0] at hLc'
              cases hLc'
              rw [List.cons_append, List.find?_cons_of_neg _
                (by simp [nestedAtFour, Tree.nodeData, hc0, hnest])]
              rw [List.nil_append]
              exact ihc hrs

/-- The explode search returns exactly the first pre-order node that is
`Nested` at depth label 4 (`none` when there is none). -/
theorem fnp_dfs {t : NumberTree} (hll : LitLeaves t) {L : List (Nat × Nat)}
    (hdfs : dfsList t (t.size + 1) = some L) :
    findNestedPair t = some ((L.find? (nestedAtFour t)).map Prod.fst) := by
  rw [dfsList] at hdfs
  rw [findNestedPair]
  cases hr : t.root with
  | none =>
    simp only [hr] at hdfs
    cases hdfs
    rfl
  | some r =>
    simp only [hr] at hdfs
    cases hlr : t.lookupNode r with
    | none => simp [dfsRec, hlr] at hdfs
    | some nr =>
      simp only [dfsRec, hlr] at hdfs
      obtain ⟨Ls, hLs, rfl⟩ := Option.map_eq_some'.mp hdfs
      have hLs' : dfsChildren (fun c => dfsRec t t.size c 1) nr.children = some Ls := hLs
      simp only [findNestedPairRec, hlr]
      have hloop := fnp_dfs_loop hll hLs'
      rw [List.find?_cons_of_neg _ (by simp [nestedAtFour])]
      exact hloop

end DfsLemmas

/-! ### C3: execution of one explode step -/

section C3Lemmas

/-- A data-only write of a literal preserves the childless-nodes-are-
literals discipline. -/
theorem dataStage_preserves_leaf {t t1 : NumberTree}
    (hleaf : ∀ e ∈ t.nodes, e.snd.children = [] → e.snd.data ≠ NumberType.Nested)
    (hstage : t1 = t ∨ ∃ m vm nm, t.lookupNode m = some nm ∧ nm.children = [] ∧
      t.modifyNode m (fun n => { n with data := NumberType.Number vm }) = some t1) :
    ∀ e ∈ t1.nodes, e.snd.children = [] → e.snd.data ≠ NumberType.Nested := by
  rcases hstage with rfl | ⟨m, vm, nm, hm, hchm, hmod⟩
  · exact hleaf
  · intro e he hch
    rw [modifyNode_nodes hmod] at he
    obtain ⟨e0, he0, heq⟩ := List.mem_map.mp he
    subst heq
    by_cases hc : e0.fst = m
    · rw [if_pos hc]
      intro hcon
      cases hcon
    · rw [if_neg hc]
      rw [if_neg hc] at hch
      exact hleaf e0 he0 hch

/-- Executing the removal-and-zeroing tail of `explode` on a well-formed
tree: both children disappear from the arena and the pair node becomes the
literal 0 leaf. -/
theorem explode_assemble {t2 : NumberTree} (hwf2 : t2.WF)
    {y a b : Nat} {nid2 na2 nb2 : TreeNode NumberType}
    (f1 : t2.lookupNode y = some nid2) (f2 : nid2.children = [a, b])
    (f3 : t2.lookupNode a = some na2) (f4 : na2.children = []) (f5 : na2.parent = some y)
    (f6 : t2.lookupNode b = some nb2) (f7 : nb2.children = []) (f8 : nb2.parent = some y)
    (hab : a ≠ b) :
    ∃ t3 t4 t5, t2.remove a = some t3 ∧ t3.remove b = some t4 ∧
      t4.modifyNode y (fun nd => { nd with data := NumberType.Number 0 }) = some t5 ∧
      t5.lookupNode a = none ∧ t5.lookupNode b = none ∧
      ∃ ny', t5.lookupNode y = some ny' ∧ ny'.data = NumberType.Number 0 ∧
        ny'.children = [] ∧ ny'.parent = nid2.parent := by
  have hay : a ≠ y := by
    intro he
    subst he
    rw [f3] at f1
    cases f1
    exact no_two_cycle hwf2 f3 f5 f3 f5
  have hby : b ≠ y := by
    intro he
    subst he
    rw [f6] at f1
    cases f1
    exact no_two_cycle hwf2 f6 f8 f6 f8
  obtain ⟨t3, hrem3, hnone3, htr3, hpar3, hframe3⟩ := remove_spec hwf2 f3
  have hwf3 := remove_preserves_WF hwf2 f3 f4 f5 hrem3
  have hb3 : t3.lookupNode b = some nb2 := by
    rw [hframe3 b (Ne.symm hab) (fun p hp => by rw [f5] at hp; cases hp; exact hby)]
    exact f6
  have hy3 : t3.lookupNode y = some { nid2 with children := nid2.children.erase a } :=
    hpar3 y f5 nid2 f1
  obtain ⟨t4, hrem4, hnone4, htr4, hpar4, hframe4⟩ := remove_spec hwf3 hb3
  have hy4 : t4.lookupNode y =
      some { { nid2 with children := nid2.children.erase a } with
        children := (nid2.children.erase a).erase b } :=
    hpar4 y f8 _ hy3
  have ha4 : t4.lookupNode a = none := by
    rw [hframe4 a hab (fun p hp => by rw [f8] at hp; cases hp; exact hay)]
    exact hnone3
  have hcempty : (nid2.children.erase a).erase b = [] := by
    rw [f2, List.erase_cons_head, List.erase_cons_head]
  cases hmod5 : t4.modifyNode y (fun nd => { nd with data := NumberType.Number 0 }) with
  | none =>
    rw [Tree.modifyNode, hy4] at hmod5
    cases hmod5
  | some t5 =>
    have hml := lookupNode_modifyNode hmod5
    refine ⟨t3, t4, t5, hrem3, hrem4, hmod5, ?_, ?_, ?_⟩
    · rw [hml a, if_neg hay, ha4]
    · rw [hml b, if_neg hby, hnone4]
    · refine ⟨⟨nid2.id, NumberType.Number 0, nid2.parent,
        (nid2.children.erase a).erase b⟩, ?_, rfl, hcempty, rfl⟩
      rw [hml y, if_pos rfl, hy4]
      rfl

end C3Lemmas

/-- C3 (amended): on a well-formed snailfish tree (literal-leaf and
childless-is-literal disciplines), when the explode search returns a node
`y`, that node is the left-most node in pre-order that is `Nested` at
nesting depth EXACTLY 4 (not ≥ 4, and irrespective of whether its children
are literals); one loop iteration is explode at `y` followed by the rest
of the loop; and when `y`'s two children are both plain literals, explode
succeeds and performs exactly these effects: the left child's value is
added (in wrapping `u8` arithmetic) to the nearest left in-order-neighbor
leaf of the ORIGINAL tree if one exists, the right child's value to the
nearest right in-order-neighbor leaf (of the original tree — the update
order cannot change it, since the left update touches no links), both
children are removed from the arena, and `y`'s data becomes literal 0 with
no children, its parent link unchanged. -/
theorem claim_c3 (t : NumberTree) (hwf : t.WF) (hll : LitLeaves t)
    (hleaf : ∀ e ∈ t.nodes, e.snd.children = [] → e.snd.data ≠ NumberType.Nested)
    (L : List (Nat × Nat)) (y : Nat)
    (hdfs : dfsList t (t.size + 1) = some L)
    (hfind : findNestedPair t = some (some y)) :
    L.find? (nestedAtFour t) = some (y, 4) ∧
    (ReachesAt t y 4 ∧ ∃ ny, t.lookupNode y = some ny ∧ ny.data = NumberType.Nested) ∧
    (∀ g, reduceNumber (g + 1) t = (explode t y).bind (fun u => reduceNumber g u)) ∧
    (∀ ny a b na nb va vb, t.lookupNode y = some ny → ny.children = [a, b] →
      t.lookupNode a = some na → na.data = NumberType.Number va →
      t.lookupNode b = some nb → nb.data = NumberType.Number vb →
      ∃ t1 t2 tr, explode t y = some tr ∧
        ((t.leftNeighborLeaf (t.size + 1) a = some none ∧ t1 = t) ∨
          (∃ m nm vm, t.leftNeighborLeaf (t.size + 1) a = some (some m) ∧
            t.lookupNode m = some nm ∧ nm.data = NumberType.Number vm ∧
            t.modifyNode m (fun n => { n with data := NumberType.Number ((vm + va) % 2 ^ 8) }) =
              some t1)) ∧
        ((t.rightNeighborLeaf (t.size + 1) b = some none ∧ t2 = t1) ∨
          (∃ m nm vm, t.rightNeighborLeaf (t.size + 1) b = some (some m) ∧
            t1.lookupNode m = some nm ∧ nm.data = NumberType.Number vm ∧
            t1.modifyNode m (fun n => { n with data := NumberType.Number ((vm + vb) % 2 ^ 8) }) =
              some t2)) ∧
        (∃ t3 t4, t2.remove a = some t3 ∧ t3.remove b = some t4 ∧
          t4.modifyNode y (fun nd => { nd with data := NumberType.Number 0 }) = some tr) ∧
        tr.lookupNode a = none ∧ tr.lookupNode b = none ∧
        (∃ ny2, tr.lookupNode y = some ny2 ∧ ny2.data = NumberType.Number 0 ∧
          ny2.children = [] ∧ ny2.parent = ny.parent)) := by
  have hfd := fnp_dfs hll hdfs
  rw [hfind] at hfd
  have hmap : (L.find? (nestedAtFour t)).map Prod.fst = some y := (Option.some.inj hfd).symm
  obtain ⟨pr, hpr, hfst⟩ := Option.map_eq_some'.mp hmap
  have hpred := List.find?_some hpr
  have hsnd : pr.snd = 4 ∧ t.nodeData pr.fst = some NumberType.Nested :=
    of_decide_eq_true hpred
  have hpr4 : pr = (y, 4) := by
    cases pr
    simp only at hfst
    subst hfst
    rw [Prod.mk.injEq]
    exact ⟨rfl, hsnd.1⟩
  rw [hpr4] at hpr
  have hmem := List.mem_of_find?_eq_some hpr
  refine ⟨hpr, ⟨dfsList_sound hdfs (y, 4) hmem, ?_⟩, ?_, ?_⟩
  · have h2 := hsnd.2
    rw [hpr4] at h2
    rw [Tree.nodeData] at h2
    obtain ⟨ny, h1, h2⟩ := Option.map_eq_some'.mp h2
    exact ⟨ny, h1, h2⟩
  · intro g
    simp only [reduceNumber, hfind]
    cases hx : explode t y with
    | none => simp [bind, Option.bind]
    | some u => simp [bind, Option.bind]
  · intro ny a b na nb va vb hy hcab ha hda hb hdb
    have hab : a ≠ b := by
      have hnd := hwf.childNodup hy
      rw [hcab] at hnd
      simp at hnd
      exact hnd
    have hcha : na.children = [] := by
      by_contra hne
      have := hll (a, na) (lookupNode_mem ha) hne
      rw [hda] at this
      cases this
    have hchb : nb.children = [] := by
      by_contra hne
      have := hll (b, nb) (lookupNode_mem hb) hne
      rw [hdb] at this
      cases this
    obtain ⟨na', hna', hpa⟩ := hwf.back (c := a) hy (by rw [hcab]; simp)
    rw [ha] at hna'
    cases hna'
    obtain ⟨nb', hnb', hpb⟩ := hwf.back (c := b) hy (by rw [hcab]; simp)
    rw [hb] at hnb'
    cases hnb'
    have hda' : t.nodeData a = some (NumberType.Number va) := by
      simp [Tree.nodeData, ha, hda]
    have hdb' : t.nodeData b = some (NumberType.Number vb) := by
      simp [Tree.nodeData, hb, hdb]
    have hlnlS := lnl_total hwf ha
    cases hlnl : t.leftNeighborLeaf (t.size + 1) a with
    | none => rw [hlnl] at hlnlS; simp at hlnlS
    | some ol =>
      cases ol with
      | none =>
        have hrnlS := rnl_total hwf hb
        cases hrnl : t.rightNeighborLeaf (t.size + 1) b with
        | none => rw [hrnl] at hrnlS; simp at hrnlS
        | some o2 =>
          cases o2 with
          | none =>
            obtain ⟨nid2, na2, nb2, f1, f2, f3, f4, f5, f6, f7, f8, f9⟩ :=
              explode_t2_facts
                (fun j => (rfl : (Tree.lookupNode t j).map TreeNode.parent =
                  (Tree.lookupNode t j).map TreeNode.parent))
                (fun j => (rfl : (Tree.lookupNode t j).map TreeNode.children =
                  (Tree.lookupNode t j).map TreeNode.children))
                hy hcab ha hcha hpa hb hchb hpb
            obtain ⟨t3, t4, t5, h3, h4, h5, e1, e2, ny2, ey1, ey2, ey3, ey4⟩ :=
              explode_assemble hwf f1 f2 f3 f4 f5 f6 f7 f8 hab
            refine ⟨t, t, t5, ?_, Or.inl ⟨rfl, rfl⟩, Or.inl ⟨rfl, rfl⟩,
              ⟨t3, t4, h3, h4, h5⟩, e1, e2, ny2, ey1, ey2, ey3, by rw [ey4, f9]⟩
            rw [explode]
            simp only [hy, bind, Option.bind, hcab, hda', NumberType.numberVal, hdb',
              hlnl, hrnl, h3, h4, h5]
          | some mR =>
            obtain ⟨nmRt, hnmRt, hchmRt⟩ := rnl_childless hrnl
            have hdneR : nmRt.data ≠ NumberType.Nested :=
              hleaf (mR, nmRt) (lookupNode_mem hnmRt) hchmRt
            obtain ⟨vmR, hdmR⟩ : ∃ v, nmRt.data = NumberType.Number v := by
              cases hdt : nmRt.data with
              | Number v => exact ⟨v, rfl⟩
              | Nested => exact absurd hdt hdneR
            have hdmR' : t.nodeData mR = some (NumberType.Number vmR) := by
              simp [Tree.nodeData, hnmRt, hdmR]
            cases hmod2 : t.modifyNode mR
                (fun n => { n with data := NumberType.Number ((vmR + vb) % 2 ^ 8) }) with
            | none => rw [Tree.modifyNode, hnmRt] at hmod2; cases hmod2
            | some t2 =>
              obtain ⟨hwfC, hllC, hpar2, hchn2, hsize2, -, -⟩ :=
                dataStage_preserves hwf hll
                  (Or.inr ⟨mR, (vmR + vb) % 2 ^ 8, nmRt, hnmRt, hchmRt, hmod2⟩)
              obtain ⟨nid2, na2, nb2, f1, f2, f3, f4, f5, f6, f7, f8, f9⟩ :=
                explode_t2_facts hpar2 hchn2 hy hcab ha hcha hpa hb hchb hpb
              obtain ⟨t3, t4, t5, h3, h4, h5, e1, e2, ny2, ey1, ey2, ey3, ey4⟩ :=
                explode_assemble hwfC f1 f2 f3 f4 f5 f6 f7 f8 hab
              refine ⟨t, t2, t5, ?_, Or.inl ⟨rfl, rfl⟩,
                Or.inr ⟨mR, nmRt, vmR, rfl, hnmRt, hdmR, hmod2⟩,
                ⟨t3, t4, h3, h4, h5⟩, e1, e2, ny2, ey1, ey2, ey3, by rw [ey4, f9]⟩
              rw [explode]
              simp only [hy, bind, Option.bind, hcab, hda', NumberType.numberVal, hdb',
                hlnl, hrnl, hdmR', hmod2, h3, h4, h5]
      | some mL =>
        obtain ⟨nmL, hnmL, hchmL⟩ := lnl_childless hlnl
        have hdneL : nmL.data ≠ NumberType.Nested :=
          hleaf (mL, nmL) (lookupNode_mem hnmL) hchmL
        obtain ⟨vmL, hdmL⟩ : ∃ v, nmL.data = NumberType.Number v := by
          cases hdt : nmL.data with
          | Number v => exact ⟨v, rfl⟩
          | Nested => exact absurd hdt hdneL
        have hdmL' : t.nodeData mL = some (NumberType.Number vmL) := by
          simp [Tree.nodeData, hnmL, hdmL]
        cases hmod1 : t.modifyNode mL
            (fun n => { n with data := NumberType.Number ((vmL + va) % 2 ^ 8) }) with
        | none => rw [Tree.modifyNode, hnmL] at hmod1; cases hmod1
        | some t1 =>
          obtain ⟨hwf1, hll1, hpar1, hchn1, hsize1, -, -⟩ :=
            dataStage_preserves hwf hll
              (Or.inr ⟨mL, (vmL + va) % 2 ^ 8, nmL, hnmL, hchmL, hmod1⟩)
          have hleaf1 := dataStage_preserves_leaf hleaf
            (Or.inr ⟨mL, (vmL + va) % 2 ^ 8, nmL, hnmL, hchmL, hmod1⟩)
          have hrnl_eq : t1.rightNeighborLeaf (t1.size + 1) b =
              t.rightNeighborLeaf (t.size + 1) b := by
            rw [hsize1, rnl_transfer hpar1 hchn1 (t.size + 1) b]
          have hrnlS := rnl_total hwf hb
          cases hrnl : t.rightNeighborLeaf (t.size + 1) b with
          | none => rw [hrnl] at hrnlS; simp at hrnlS
          | some o2 =>
            cases o2 with
            | none =>
              obtain ⟨nid2, na2, nb2, f1, f2, f3, f4, f5, f6, f7, f8, f9⟩ :=
                explode_t2_facts hpar1 hchn1 hy hcab ha hcha hpa hb hchb hpb
              obtain ⟨t3, t4, t5, h3, h4, h5, e1, e2, ny2, ey1, ey2, ey3, ey4⟩ :=
                explode_assemble hwf1 f1 f2 f3 f4 f5 f6 f7 f8 hab
              refine ⟨t1, t1, t5, ?_,
                Or.inr ⟨mL, nmL, vmL, rfl, hnmL, hdmL, hmod1⟩, Or.inl ⟨rfl, rfl⟩,
                ⟨t3, t4, h3, h4, h5⟩, e1, e2, ny2, ey1, ey2, ey3, by rw [ey4, f9]⟩
              rw [explode]
              simp only [hy, bind, Option.bind, hcab, hda', NumberType.numberVal, hdb',
                hlnl, hdmL', hmod1, hrnl_eq, hrnl, h3, h4, h5]
            | some mR =>
              obtain ⟨nmRt, hnmRt, hchmRt⟩ := rnl_childless hrnl
              obtain ⟨nmR1, hlkR1, hpR1, hcR1⟩ := maps_lookup_transfer hpar1 hchn1 hnmRt
              have hchR1 : nmR1.children = [] := by rw [hcR1, hchmRt]
              have hdneR : nmR1.data ≠ NumberType.Nested :=
                hleaf1 (mR, nmR1) (lookupNode_mem hlkR1) hchR1
              obtain ⟨vmR, hdmR⟩ : ∃ v, nmR1.data = NumberType.Number v := by
                cases hdt : nmR1.data with
                | Number v => exact ⟨v, rfl⟩
                | Nested => exact absurd hdt hdneR
              have hdmR' : t1.nodeData mR = some (NumberType.Number vmR) := by
                simp [Tree.nodeData, hlkR1, hdmR]
              cases hmod2 : t1.modifyNode mR
                  (fun n => { n with data := NumberType.Number ((vmR + vb) % 2 ^ 8) }) with
              | none => rw [Tree.modifyNode, hlkR1] at hmod2; cases hmod2
              | some t2 =>
                obtain ⟨hwfC, hllC, hpar2, hchn2, hsize2, -, -⟩ :=
                  dataStage_preserves hwf1 hll1
                    (Or.inr ⟨mR, (vmR + vb) % 2 ^ 8, nmR1, hlkR1, hchR1, hmod2⟩)
                have hparC : ∀ j, (t2.lookupNode j).map TreeNode.parent =
                    (t.lookupNode j).map TreeNode.parent :=
                  fun j => (hpar2 j).trans (hpar1 j)
                have hchnC : ∀ j, (t2.lookupNode j).map TreeNode.children =
                    (t.lookupNode j).map TreeNode.children :=
                  fun j => (hchn2 j).trans (hchn1 j)
                obtain ⟨nid2, na2, nb2, f1, f2, f3, f4, f5, f6, f7, f8, f9⟩ :=
                  explode_t2_facts hparC hchnC hy hcab ha hcha hpa hb hchb hpb
                obtain ⟨t3, t4, t5, h3, h4, h5, e1, e2, ny2, ey1, ey2, ey3, ey4⟩ :=
                  explode_assemble hwfC f1 f2 f3 f4 f5 f6 f7 f8 hab
                refine ⟨t1, t2, t5, ?_,
                  Or.inr ⟨mL, nmL, vmL, rfl, hnmL, hdmL, hmod1⟩,
                  Or.inr ⟨mR, nmR1, vmR, rfl, hlkR1, hdmR, hmod2⟩,
                  ⟨t3, t4, h3, h4, h5⟩, e1, e2, ny2, ey1, ey2, ey3, by rw [ey4, f9]⟩
                rw [explode]
                simp only [hy, bind, Option.bind, hcab, hda', NumberType.numberVal, hdb',
                  hlnl, hdmL', hmod1, hrnl_eq, hrnl, hdmR', hmod2, h3, h4, h5]

/-- C3 counterexample: the parsed tree of `[[[[[[1,2],3],4],5],6],7]` is a
well-formed snailfish tree whose only pair with two literal children at
nesting depth ≥ 4 is the `[1,2]` pair (node 5, at depth 5); the claim says
one loop iteration explodes it, but the search instead selects node 4 (the
`Nested` node at depth exactly 4, whose children are a pair and a literal)
and the iteration dies reading the pair child as a literal — `none`, no
updated tree — so explode is not applied to the qualifying pair. -/
theorem claim_c3_counterexample :
    depth5Tree.WF ∧ LitLeaves depth5Tree ∧
    (∀ e ∈ depth5Tree.nodes, e.snd.children = [] → e.snd.data ≠ NumberType.Nested) ∧
    (ReachesAt depth5Tree 5 5 ∧
      ∃ n5 n6 n7, depth5Tree.lookupNode 5 = some n5 ∧
        n5.data = NumberType.Nested ∧ n5.children = [6, 7] ∧
        depth5Tree.lookupNode 6 = some n6 ∧ n6.data = NumberType.Number 1 ∧
        depth5Tree.lookupNode 7 = some n7 ∧ n7.data = NumberType.Number 2) ∧
    findNestedPair depth5Tree = some (some 4) ∧ (4 : Nat) ≠ 5 ∧
    reduceNumber 1 depth5Tree = none := by
  refine ⟨by decide, by decide, by decide, ⟨?_, ?_⟩, by decide, by decide, by decide⟩
  · have hdfs : dfsList depth5Tree (depth5Tree.size + 1) =
        some [(0, 0), (1, 1), (2, 2), (3, 3), (4, 4), (5, 5), (6, 6), (7, 6),
          (8, 5), (9, 4), (10, 3), (11, 2), (12, 1)] := by decide
    exact dfsList_sound hdfs (5, 5) (by decide)
  · exact ⟨⟨5, NumberType.Nested, some 4, [6, 7]⟩,
      ⟨6, NumberType.Number 1, some 5, []⟩,
      ⟨7, NumberType.Number 2, some 5, []⟩,
      by decide, rfl, rfl, by decide, rfl, by decide, rfl⟩

/-- Witness for C3 (amended) on the parsed tree of `[[[[[1,2],3],4],5],6]`,
whose `[1,2]` pair (node 4) sits at depth exactly 4. -/
theorem claim_c3_witness :
    depth4Tree.WF ∧ LitLeaves depth4Tree ∧
    (∀ e ∈ depth4Tree.nodes, e.snd.children = [] → e.snd.data ≠ NumberType.Nested) ∧
    dfsList depth4Tree (depth4Tree.size + 1) = some [(0, 0), (1, 1), (2, 2), (3, 3), (4, 4), (5, 5), (6, 5), (7, 4), (8, 3), (9, 2), (10, 1)] ∧
    findNestedPair depth4Tree = some (some 4) ∧
    ([(0, 0), (1, 1), (2, 2), (3, 3), (4, 4), (5, 5), (6, 5), (7, 4), (8, 3), (9, 2), (10, 1)].find? (nestedAtFour depth4Tree) = some (4, 4) ∧
    (ReachesAt depth4Tree 4 4 ∧
      ∃ ny, depth4Tree.lookupNode 4 = some ny ∧ ny.data = NumberType.Nested) ∧
    (∀ g, reduceNumber (g + 1) depth4Tree =
      (explode depth4Tree 4).bind (fun u => reduceNumber g u)) ∧
    (∀ ny a b na nb va vb, depth4Tree.lookupNode 4 = some ny → ny.children = [a, b] →
      depth4Tree.lookupNode a = some na → na.data = NumberType.Number va →
      depth4Tree.lookupNode b = some nb → nb.data = NumberType.Number vb →
      ∃ t1 t2 tr, explode depth4Tree 4 = some tr ∧
        ((depth4Tree.leftNeighborLeaf (depth4Tree.size + 1) a = some none ∧
            t1 = depth4Tree) ∨
          (∃ m nm vm, depth4Tree.leftNeighborLeaf (depth4Tree.size + 1) a = some (some m) ∧
            depth4Tree.lookupNode m = some nm ∧ nm.data = NumberType.Number vm ∧
            depth4Tree.modifyNode m
              (fun n => { n with data := NumberType.Number ((vm + va) % 2 ^ 8) }) =
              some t1)) ∧
        ((depth4Tree.rightNeighborLeaf (depth4Tree.size + 1) b = some none ∧ t2 = t1) ∨
          (∃ m nm vm, depth4Tree.rightNeighborLeaf (depth4Tree.size + 1) b =
              some (some m) ∧
            t1.lookupNode m = some nm ∧ nm.data = NumberType.Number vm ∧
            t1.modifyNode m
              (fun n => { n with data := NumberType.Number ((vm + vb) % 2 ^ 8) }) =
              some t2)) ∧
        (∃ t3 t4, t2.remove a = some t3 ∧ t3.remove b = some t4 ∧
          t4.modifyNode 4 (fun nd => { nd with data := NumberType.Number 0 }) = some tr) ∧
        tr.lookupNode a = none ∧ tr.lookupNode b = none ∧
        (∃ ny2, tr.lookupNode 4 = some ny2 ∧ ny2.data = NumberType.Number 0 ∧
          ny2.children = [] ∧ ny2.parent = ny.parent))) :=
  ⟨by decide, by decide, by decide, by decide, by decide,
    claim_c3 depth4Tree (by decide) (by decide) (by decide) [(0, 0), (1, 1), (2, 2), (3, 3), (4, 4), (5, 5), (6, 5), (7, 4), (8, 3), (9, 2), (10, 1)] 4
      (by decide) (by decide)⟩

end Aoc2021
